import Mathlib

/-!
The kd-tree of the renderer: embedding of `lib/kdtree.h` and `pathtracer.cpp`

A `float` is embedded as a value of `F32`: IEEE 754 binary32 with rounding to
nearest, ties to even, consisting of a NaN, the two infinities and the finite
values, each given as the rational it denotes (the sign of a zero is not
kept).  The coordinates stored in vectors, planes and events are finite
floats and are given as rationals; the sums, differences, products and
quotients that `kdtree.h` computes are rounded after each operation.  `int`
is embedded as `Int`, and `size_t` as `Nat` with explicit reduction modulo
`2 ^ 64`.  Pointers that may be null are embedded as `Option` or as a tree
with a `null` constructor.  A loop or recursion that may not terminate takes a
fuel argument and reports `Err.out_of_fuel`; a failing `assert` reports
`Err.assertion_failed`.

The namespace `Exact` repeats the bisection loop and the cost function with
the arithmetic of the rationals, for the two properties that are stated in
exact arithmetic.

`triangle.h`, `intersection.h` and `clipping.h` are not part of the sources at
hand.  The value types they declare are modelled from the specification; the
functions they declare (`Triangle::intersect`, `ray_box_intersection`,
`triangle_clip_aabb`, `eps_zero`) are parameters of the definitions that call
them.  Where a property is about such a function itself (the slab method of
`ray_box_intersection`, the face normal of a triangle), the function is
modelled from the specification, in exact arithmetic; so is the midpoint of a
triangle.

The file has two parts: the definitions (`KDTree`, the brute-force scan of
`pathtracer.cpp`, the SAH builder `FastKDTree`, sample scenes), then the
theorems.
-/

namespace Renderer

/-! ## Geometry value types -/

/-- Modelled from the spec: `Vec`, three floats `(x, y, z)`. -/
structure Vec where
  x : ℚ
  y : ℚ
  z : ℚ
deriving DecidableEq, Repr

/-- Modelled from the spec: `Axis`, an enumeration over X, Y, Z. -/
inductive Axis where
  | X
  | Y
  | Z
deriving DecidableEq, Repr

/-- Modelled from the spec: per-axis indexing of a `Vec` by an axis tag. -/
def Vec.get (v : Vec) : Axis → ℚ
  | Axis.X => v.x
  | Axis.Y => v.y
  | Axis.Z => v.z

/-- The ordering `box.min < box.max` of the constructor's assertion.  `Vec` is
the 3-vector of the mesh import library, whose `operator<` is lexicographic:
`x != o.x ? x < o.x : y != o.y ? y < o.y : z < o.z`. -/
def Vec.lt (a b : Vec) : Bool :=
  if a.x ≠ b.x then decide (a.x < b.x)
  else if a.y ≠ b.y then decide (a.y < b.y)
  else decide (a.z < b.z)

/-- Modelled from the spec: `Box`, a pair `(min, max)` of `Vec`. -/
structure Box where
  min : Vec
  max : Vec
deriving DecidableEq, Repr

/-- Modelled from the spec: the union of two boxes (`operator+`) is the
componentwise minimum of the mins and maximum of the maxes. -/
def Box.union (a b : Box) : Box :=
  { min := ⟨Min.min a.min.x b.min.x, Min.min a.min.y b.min.y, Min.min a.min.z b.min.z⟩
    max := ⟨Max.max a.max.x b.max.x, Max.max a.max.y b.max.y, Max.max a.max.z b.max.z⟩ }

/-- Box `a` contains box `b`: componentwise `a.min ≤ b.min` and `b.max ≤ a.max`. -/
def Box.contains (a b : Box) : Prop :=
  (a.min.x ≤ b.min.x ∧ a.min.y ≤ b.min.y ∧ a.min.z ≤ b.min.z) ∧
  (b.max.x ≤ a.max.x ∧ b.max.y ≤ a.max.y ∧ b.max.z ≤ a.max.z)

instance (a b : Box) : Decidable (a.contains b) := by
  unfold Box.contains; infer_instance

/-- Modelled from the spec: the invariant of `Box`, `min[a] ≤ max[a]` for each
axis. -/
def Box.valid (b : Box) : Prop :=
  b.min.x ≤ b.max.x ∧ b.min.y ≤ b.max.y ∧ b.min.z ≤ b.max.z

instance (b : Box) : Decidable b.valid := by
  unfold Box.valid; infer_instance

/-- Modelled from the spec: `Ray`, `(origin, direction)`. -/
structure Ray where
  origin : Vec
  direction : Vec
deriving DecidableEq, Repr

/-- Modelled from the spec: `Triangle`, three vertices, three per-vertex
normals and two material colours (as used by `triangles_from_scene`). -/
structure Triangle where
  v0 : Vec
  v1 : Vec
  v2 : Vec
  n0 : Vec
  n1 : Vec
  n2 : Vec
  ambient : Vec
  diffuse : Vec
deriving DecidableEq, Repr

/-- Modelled from the spec: the midpoint `(v0 + v1 + v2) / 3`. -/
def Triangle.midpoint (t : Triangle) : Vec :=
  ⟨(t.v0.x + t.v1.x + t.v2.x) / 3, (t.v0.y + t.v1.y + t.v2.y) / 3,
   (t.v0.z + t.v1.z + t.v2.z) / 3⟩

/-- Modelled from the spec: the bounding box of a triangle, the componentwise
minimum and maximum of its three vertices. -/
def Triangle.bbox (t : Triangle) : Box :=
  { min := ⟨Min.min (Min.min t.v0.x t.v1.x) t.v2.x, Min.min (Min.min t.v0.y t.v1.y) t.v2.y,
            Min.min (Min.min t.v0.z t.v1.z) t.v2.z⟩
    max := ⟨Max.max (Max.max t.v0.x t.v1.x) t.v2.x, Max.max (Max.max t.v0.y t.v1.y) t.v2.y,
            Max.max (Max.max t.v0.z t.v1.z) t.v2.z⟩ }

/-- The test helper `test_triangle(v0, v1, v2)`: a triangle from its three
vertices, the remaining attributes zero. -/
def test_triangle (a b c : Vec) : Triangle :=
  ⟨a, b, c, ⟨0, 0, 0⟩, ⟨0, 0, 0⟩, ⟨0, 0, 0⟩, ⟨0, 0, 0⟩, ⟨0, 0, 0⟩⟩

/-- Embeds `Triangles`, a vector of triangles. -/
abbrev Triangles := List Triangle

/-- The result of `Triangle::intersect(ray, r, s, t)`: `none` for `false`,
`some (r, s, t)` for `true` with the values written to the out-parameters. -/
abbrev TriKernel := Triangle → Ray → Option (ℚ × ℚ × ℚ)

/-- The type of `ray_box_intersection(ray, box)`. -/
abbrev BoxKernel := Ray → Box → Bool

/-! ## Outcomes -/

/-- How a run can end without a value: a failed `assert`, a loop or recursion
still running when the fuel is spent, or the use of a local variable that was
never assigned. -/
inductive Err where
  | assertion_failed
  | out_of_fuel
  | uninitialised_read
deriving DecidableEq, Repr

instance instDecidableEqExcept {ε α : Type} [DecidableEq ε] [DecidableEq α] :
    DecidableEq (Except ε α)
  | Except.ok a, Except.ok b =>
    if h : a = b then isTrue (by rw [h]) else isFalse (by intro h2; cases h2; exact h rfl)
  | Except.error a, Except.error b =>
    if h : a = b then isTrue (by rw [h]) else isFalse (by intro h2; cases h2; exact h rfl)
  | Except.ok _, Except.error _ => isFalse (by intro h; cases h)
  | Except.error _, Except.ok _ => isFalse (by intro h; cases h)

/-! ## Binary32 arithmetic -/

/-- A value of the type `float`: a NaN, minus infinity, a finite value given
as the rational it denotes, or plus infinity. -/
inductive F32 where
  | nan
  | ninf
  | fin (q : ℚ)
  | pinf
deriving DecidableEq, Repr

instance (n : Nat) : OfNat F32 n := ⟨F32.fin n⟩

namespace F32

/-- The power `2 ^ e` as a rational. -/
def pow2 (e : Int) : ℚ :=
  if 0 ≤ e then ((2 ^ e.toNat : Nat) : ℚ) else 1 / ((2 ^ (-e).toNat : Nat) : ℚ)

/-- Binary search for the binary exponent of `a`: the greatest `e` in
`[lo, lo + 2 ^ k)` with `2 ^ e ≤ a`, given `2 ^ lo ≤ a`. -/
def findExp (a : ℚ) : Nat → Int → Int
  | 0, lo => lo
  | k + 1, lo =>
    if pow2 (lo + ((2 ^ k : Nat) : Int)) ≤ a then findExp a k (lo + ((2 ^ k : Nat) : Int))
    else findExp a k lo

/-- The exponent of the quantum of the binade of the magnitude `a`: the
floats next to `a` are the multiples of `2 ^ quantExp a`.  Below the least
normal number `2 ^ -126` the quantum is `2 ^ -149`; otherwise it is
`2 ^ (e - 23)` for `2 ^ e ≤ a < 2 ^ (e + 1)`. -/
def quantExp (a : ℚ) : Int :=
  if a < pow2 (-126) then -149 else findExp a 8 (-126) - 23

/-- Rounding of a rational to the nearest integer, a tie to the even one. -/
def roundEven (m : ℚ) : Int :=
  if m - (⌊m⌋ : ℚ) < 1 / 2 then ⌊m⌋
  else if 1 / 2 < m - (⌊m⌋ : ℚ) then ⌊m⌋ + 1
  else if ⌊m⌋ % 2 = 0 then ⌊m⌋ else ⌊m⌋ + 1

/-- Rounding of a magnitude to the nearest multiple of its quantum, a tie to
the multiple with the even significand. -/
def roundMag (a : ℚ) : ℚ := (roundEven (a / pow2 (quantExp a)) : ℚ) * pow2 (quantExp a)

/-- The float a real number rounds to: an infinity when the rounded
magnitude reaches `2 ^ 128`. -/
def ofRat (x : ℚ) : F32 :=
  if pow2 128 ≤ roundMag |x| then (if x < 0 then ninf else pinf)
  else fin (if x < 0 then -roundMag |x| else roundMag |x|)

/-- Conversion of a `size_t` to `float`. -/
def ofNat (n : Nat) : F32 := ofRat (n : ℚ)

/-- Conversion of an `int` to `float`. -/
def ofInt (i : Int) : F32 := ofRat (i : ℚ)

/-- The sum of two floats. -/
def add : F32 → F32 → F32
  | fin a, fin b => ofRat (a + b)
  | nan, _ => nan
  | _, nan => nan
  | pinf, ninf => nan
  | ninf, pinf => nan
  | pinf, _ => pinf
  | _, pinf => pinf
  | ninf, _ => ninf
  | _, ninf => ninf

/-- The negative of a float. -/
def neg : F32 → F32
  | nan => nan
  | ninf => pinf
  | fin a => fin (-a)
  | pinf => ninf

/-- The difference of two floats. -/
def sub : F32 → F32 → F32
  | fin a, fin b => ofRat (a - b)
  | a, b => add a (neg b)

/-- The product of two floats. -/
def mul : F32 → F32 → F32
  | fin a, fin b => ofRat (a * b)
  | nan, _ => nan
  | _, nan => nan
  | fin a, pinf => if a = 0 then nan else if 0 < a then pinf else ninf
  | fin a, ninf => if a = 0 then nan else if 0 < a then ninf else pinf
  | pinf, fin b => if b = 0 then nan else if 0 < b then pinf else ninf
  | ninf, fin b => if b = 0 then nan else if 0 < b then ninf else pinf
  | pinf, pinf => pinf
  | ninf, ninf => pinf
  | pinf, ninf => ninf
  | ninf, pinf => ninf

/-- The quotient of two floats; a zero divisor counts as `+0`. -/
def div : F32 → F32 → F32
  | fin a, fin b =>
    if b = 0 then (if a = 0 then nan else if 0 < a then pinf else ninf) else ofRat (a / b)
  | nan, _ => nan
  | _, nan => nan
  | fin _, pinf => fin 0
  | fin _, ninf => fin 0
  | pinf, fin b => if 0 ≤ b then pinf else ninf
  | ninf, fin b => if 0 ≤ b then ninf else pinf
  | pinf, pinf => nan
  | pinf, ninf => nan
  | ninf, pinf => nan
  | ninf, ninf => nan

/-- The comparison `a < b` of two floats; false when one of them is a NaN. -/
def lt : F32 → F32 → Bool
  | fin a, fin b => decide (a < b)
  | nan, _ => false
  | _, nan => false
  | ninf, ninf => false
  | ninf, _ => true
  | _, ninf => false
  | pinf, _ => false
  | fin _, pinf => true

/-- The comparison `a > b` of two floats. -/
def gt (a b : F32) : Bool := lt b a

/-- The comparison `a <= b` of two floats; false when one of them is a NaN. -/
def le : F32 → F32 → Bool
  | fin a, fin b => decide (a ≤ b)
  | nan, _ => false
  | _, nan => false
  | ninf, _ => true
  | _, pinf => true
  | _, ninf => false
  | pinf, _ => false

/-- The rational `x` is a float: rounding returns it. -/
def IsFloat (x : ℚ) : Prop := ofRat x = fin x

instance (x : ℚ) : Decidable (IsFloat x) := by
  unfold IsFloat; infer_instance

/-- The surface area `2·(dx·dy + dy·dz + dz·dx)` of a box with the sides
`dx`, `dy`, `dz`. -/
def area3 (dx dy dz : F32) : F32 :=
  mul (fin 2) (add (add (mul dx dy) (mul dy dz)) (mul dz dx))

end F32

/-! ## `KDTree` -/

/-- Embeds `KDTree`: the shared pointer `root_` to a `Node`, `null` when the pointer
is null.  A `Node` holds `bbox`, `splitaxis`, `triangles` and the two child
pointers `lft_` and `rht_`. -/
inductive KDTree where
  | null
  | node (bbox : Box) (splitaxis : Axis) (triangles : Triangles) (lft_ rht_ : KDTree)
deriving DecidableEq, Repr

namespace KDTree

/-- Embeds `empty()`: `!root_`. -/
def empty : KDTree → Bool
  | null => true
  | node _ _ _ _ _ => false

/-- Embeds `is_leaf()`: `!empty() && !root_->lft_ && !root_->rht_`. -/
def is_leaf : KDTree → Bool
  | null => false
  | node _ _ _ l r => l.empty && r.empty

/-- Embeds `left()`, defined on a non-empty tree. -/
def left : KDTree → KDTree
  | null => null
  | node _ _ _ l _ => l

/-- Embeds `right()`, defined on a non-empty tree. -/
def right : KDTree → KDTree
  | null => null
  | node _ _ _ _ r => r

/-- Embeds `bbox()`; `none` where `assert(!empty())` fails. -/
def bbox : KDTree → Option Box
  | null => none
  | node b _ _ _ _ => some b

/-- Embeds `splitaxis()`; `none` where `assert(!empty())` fails. -/
def splitaxis : KDTree → Option Axis
  | null => none
  | node _ ax _ _ _ => some ax

/-- Embeds `triangles()`; `none` where `assert(!empty())` or `assert(is_leaf())`
fails. -/
def triangles : KDTree → Option Triangles
  | null => none
  | node b ax ts l r => if (node b ax ts l r).is_leaf then some ts else none

/-- Embeds `height()`. -/
def height : KDTree → Nat
  | null => 0
  | node _ _ _ l r => 1 + Max.max l.height r.height

/-- The leaf constructor of `Node`: both child pointers null. -/
def leafNode (bbox : Box) (ax : Axis) (ts : Triangles) : KDTree :=
  node bbox ax ts null null

/-- The inner constructor of `Node`: no triangles. -/
def innerNode (bbox : Box) (ax : Axis) (lft rht : KDTree) : KDTree :=
  node bbox ax [] lft rht

/-- Lines 50-53 of the constructor: the union of the bounding boxes of
`first` and of the triangles after it. -/
def boundingBox (first : Triangle) (rest : Triangles) : Box :=
  rest.foldl (fun box t => box.union t.bbox) first.bbox

/-- Lines 57-67 of the constructor: the split axis from the box. -/
def chooseAxis (box : Box) : Axis :=
  let dx := F32.sub (F32.fin box.max.x) (F32.fin box.min.x)
  let dy := F32.sub (F32.fin box.max.y) (F32.fin box.min.y)
  let dz := F32.sub (F32.fin box.max.z) (F32.fin box.min.z)
  if dx.gt dy && dx.gt dz then Axis.X
  else if dy.gt dz then Axis.Y
  else Axis.Z

/-- The side of a box along an axis as lines 58-60 compute it: the float
`max[a] - min[a]`. -/
def extent (box : Box) (a : Axis) : F32 :=
  F32.sub (F32.fin (box.max.get a)) (F32.fin (box.min.get a))

/-- The local variables of `split_at_spatial_median`. -/
structure SplitState where
  min : F32
  max : F32
  axis_midpt : F32
  lft_triangles : Triangles
  rht_triangles : Triangles
deriving DecidableEq, Repr

/-- The loop condition `lft_triangles.empty() || rht_triangles.empty()`. -/
def splitCond (s : SplitState) : Bool :=
  s.lft_triangles.isEmpty || s.rht_triangles.isEmpty

/-- Line 203: the float `(min + max) / 2.f`. -/
def bisect (min max : F32) : F32 := F32.div (F32.add min max) (F32.fin 2)

/-- One pass through the body of the `while` loop of
`split_at_spatial_median` (lines 195-210). -/
def splitBody (axis : Axis) (triangles : Triangles) (s : SplitState) : SplitState :=
  let s1 : SplitState :=
    if !s.lft_triangles.isEmpty then
      { s with max := s.axis_midpt, lft_triangles := [] }
    else if !s.rht_triangles.isEmpty then
      { s with min := s.axis_midpt, rht_triangles := [] }
    else s
  let m := bisect s1.min s1.max
  triangles.foldl
    (fun acc triangle =>
      if (F32.fin (triangle.midpoint.get axis)).lt acc.axis_midpt then
        { acc with lft_triangles := acc.lft_triangles ++ [triangle] }
      else
        { acc with rht_triangles := acc.rht_triangles ++ [triangle] })
    { s1 with axis_midpt := m }

/-- The `while` loop of `split_at_spatial_median`, at most `fuel` passes. -/
def splitLoop (axis : Axis) (triangles : Triangles) : Nat → SplitState → Except Err SplitState
  | 0, s => if splitCond s then Except.error Err.out_of_fuel else Except.ok s
  | fuel + 1, s =>
    if splitCond s then splitLoop axis triangles fuel (splitBody axis triangles s)
    else Except.ok s

/-- Embeds `split_at_spatial_median(axis, bbox, triangles)` up to the two triangle
lists it returns.  `axis_midpt` is uninitialised on entry and is written
before it is first read; it starts at `0` here. -/
def split_at_spatial_median (fuel : Nat) (axis : Axis) (bbox : Box) (triangles : Triangles) :
    Except Err (Triangles × Triangles) :=
  match splitLoop axis triangles fuel
      { min := F32.fin (bbox.min.get axis), max := F32.fin (bbox.max.get axis), axis_midpt := 0,
        lft_triangles := [], rht_triangles := [] } with
  | Except.error e => Except.error e
  | Except.ok s => Except.ok (s.lft_triangles, s.rht_triangles)

/-- The constructor `KDTree(Triangles triangles)` for leaf capacity
`LEAF_CAPACITY`.  The pair returned by `split_at_spatial_median` is converted
to a pair of trees by constructing the left tree, then the right tree. -/
def build (LEAF_CAPACITY : Nat) : Nat → Triangles → Except Err KDTree
  | _, [] => Except.ok null
  | 0, _ :: _ => Except.error Err.out_of_fuel
  | fuel + 1, first :: rest =>
    let triangles := first :: rest
    let box := boundingBox first rest
    if !(box.min.lt box.max) then Except.error Err.assertion_failed
    else
      let axis := chooseAxis box
      if triangles.length ≤ LEAF_CAPACITY then Except.ok (leafNode box axis triangles)
      else
        match split_at_spatial_median fuel axis box triangles with
        | Except.error e => Except.error e
        | Except.ok split =>
          match build LEAF_CAPACITY fuel split.1 with
          | Except.error e => Except.error e
          | Except.ok lft =>
            match build LEAF_CAPACITY fuel split.2 with
            | Except.error e => Except.error e
            | Except.ok rht => Except.ok (innerNode box axis lft rht)

/-- The value of a call of `intersect`: the returned pointer and the contents
of the three out-parameters after the call. -/
structure Hit where
  tri : Option Triangle
  r : ℚ
  s : ℚ
  t : ℚ
deriving DecidableEq, Repr

/-- The `for` loop of the private leaf scan (lines 224-234), from the state
`(res, min_r, min_s, min_t)`. -/
def scanLoop (hit : TriKernel) (ray : Ray) : Triangles → Hit → Hit
  | [], acc => acc
  | triangle :: rest, acc =>
    match hit triangle ray with
    | some (r, s, t) =>
      if acc.tri.isNone ∨ r < acc.r then scanLoop hit ray rest ⟨some triangle, r, s, t⟩
      else scanLoop hit ray rest acc
    | none => scanLoop hit ray rest acc

/-- The private `intersect(ray, triangles, min_r, min_s, min_t)`: `min_r` is
set to `-1` and `res` to null before the scan. -/
def scan (hit : TriKernel) (ray : Ray) (triangles : Triangles) (min_s min_t : ℚ) : Hit :=
  scanLoop hit ray triangles ⟨none, -1, min_s, min_t⟩

/-- The public `intersect(ray, r, s, t)`; `r`, `s`, `t` are the contents of
the out-parameters on entry. -/
def intersect (rayBox : BoxKernel) (hit : TriKernel) (ray : Ray) : KDTree → ℚ → ℚ → ℚ → Hit
  | null, r, s, t => ⟨none, r, s, t⟩
  | node bbox ax ts l r_, r, s, t =>
    if !(rayBox ray bbox) then ⟨none, r, s, t⟩
    else if (node bbox ax ts l r_).is_leaf then
      let h := scan hit ray ts s t
      ⟨h.tri, h.r, h.s, h.t⟩
    else
      let lh := intersect rayBox hit ray l (-1) (-1) (-1)
      let rh := intersect rayBox hit ray r_ (-1) (-1) (-1)
      if lh.tri.isSome ∧ (rh.tri.isNone ∨ lh.r < rh.r) then ⟨lh.tri, lh.r, lh.s, lh.t⟩
      else if rh.tri.isSome then ⟨rh.tri, rh.r, rh.s, rh.t⟩
      else ⟨none, r, s, t⟩

/-- The test `triangle.midpoint()[axis] < m` of the partition loop. -/
def goesLeft (axis : Axis) (m : F32) (t : Triangle) : Bool :=
  (F32.fin (t.midpoint.get axis)).lt m

/-- All nodes of a tree: the tree itself when it is not empty and the nodes
reached from it through `left()` and `right()`. -/
def nodes : KDTree → List KDTree
  | null => []
  | node b ax ts l r => node b ax ts l r :: (nodes l ++ nodes r)

/-- The triangle lists of the leaves of a tree, left to right. -/
def leafLists : KDTree → List Triangles
  | null => []
  | node b ax ts l r =>
    if (node b ax ts l r).is_leaf then [ts] else leafLists l ++ leafLists r

/-- The triangles of all leaves of a tree, collected left to right. -/
def leafTriangles (tree : KDTree) : Triangles :=
  (leafLists tree).flatten

/-- The range `[min, max]` the next pass of the loop of
`split_at_spatial_median` bisects, from the state at the loop head. -/
def nextRange (s : SplitState) : F32 × F32 :=
  if !s.lft_triangles.isEmpty then (s.min, s.axis_midpt)
  else if !s.rht_triangles.isEmpty then (s.axis_midpt, s.max)
  else (s.min, s.max)

/-- The ranges the loop of `split_at_spatial_median` bisects, for a box that
spans `[bmin, bmax]` on the axis: a range of two floats inside the box, or,
once the sum `min + max` has overflowed, a range that ends at an infinity. -/
def RangeInv (bmin bmax : ℚ) (ts : Triangles) (r : F32 × F32) : Prop :=
  (∃ lo hi : ℚ, r = (F32.fin lo, F32.fin hi) ∧ F32.IsFloat lo ∧ F32.IsFloat hi ∧
    bmin ≤ lo ∧ lo ≤ hi ∧ hi ≤ bmax) ∨
  (ts ≠ [] ∧ ∃ lo : ℚ, r = (F32.fin lo, F32.pinf)) ∨
  (ts ≠ [] ∧ ∃ hi : ℚ, r = (F32.ninf, F32.fin hi))

/-- The state of the loop of `split_at_spatial_median` after `n` passes of its
body from the state on entry. -/
def passes (axis : Axis) (bbox : Box) (triangles : Triangles) : Nat → SplitState
  | 0 => { min := F32.fin (bbox.min.get axis), max := F32.fin (bbox.max.get axis),
           axis_midpt := 0, lft_triangles := [], rht_triangles := [] }
  | n + 1 => splitBody axis triangles (passes axis bbox triangles n)

/-- Box `b` is the union of the bounding boxes of the triangles `ts`: on every
axis its minimum is the least of their minima and its maximum the greatest of
their maxima. -/
def IsBBox (b : Box) (ts : Triangles) : Prop :=
  ∀ a : Axis,
    (∀ t ∈ ts, b.min.get a ≤ t.bbox.min.get a ∧ t.bbox.max.get a ≤ b.max.get a) ∧
    (∃ t ∈ ts, b.min.get a = t.bbox.min.get a) ∧
    (∃ t ∈ ts, b.max.get a = t.bbox.max.get a)

/-- The shape of a tree the constructor can return for a triangle list: the
empty tree for the empty list, a leaf for a list within the capacity, and
otherwise an inner node over the trees of the two sides of a partition of
the list at some threshold `m`, both sides non-empty. -/
inductive Built (cap : Nat) : Triangles → KDTree → Prop where
  | empty : Built cap [] null
  | leaf (first : Triangle) (rest : Triangles) :
      (boundingBox first rest).min.lt (boundingBox first rest).max = true →
      (first :: rest).length ≤ cap →
      Built cap (first :: rest)
        (leafNode (boundingBox first rest) (chooseAxis (boundingBox first rest)) (first :: rest))
  | inner (first : Triangle) (rest : Triangles) (m : F32) (lft rht : KDTree) :
      (boundingBox first rest).min.lt (boundingBox first rest).max = true →
      cap < (first :: rest).length →
      (first :: rest).filter (goesLeft (chooseAxis (boundingBox first rest)) m) ≠ [] →
      (first :: rest).filter (fun t => !goesLeft (chooseAxis (boundingBox first rest)) m t) ≠ [] →
      Built cap ((first :: rest).filter (goesLeft (chooseAxis (boundingBox first rest)) m)) lft →
      Built cap
        ((first :: rest).filter (fun t => !goesLeft (chooseAxis (boundingBox first rest)) m t)) rht →
      Built cap (first :: rest)
        (innerNode (boundingBox first rest) (chooseAxis (boundingBox first rest)) lft rht)

/-- The triangle lists on which every call of `split_at_spatial_median` the
constructor makes returns: the empty list, a list within the capacity, and a
longer list that `split_at_spatial_median` splits into two such lists; the
box assertion holds at every node. -/
inductive Splits (cap : Nat) : Triangles → Prop where
  | empty : Splits cap []
  | leaf (first : Triangle) (rest : Triangles) :
      (boundingBox first rest).min.lt (boundingBox first rest).max = true →
      (first :: rest).length ≤ cap → Splits cap (first :: rest)
  | inner (first : Triangle) (rest : Triangles) (fuel : Nat) (l r : Triangles) :
      (boundingBox first rest).min.lt (boundingBox first rest).max = true →
      cap < (first :: rest).length →
      split_at_spatial_median fuel (chooseAxis (boundingBox first rest))
        (boundingBox first rest) (first :: rest) = Except.ok (l, r) →
      Splits cap l → Splits cap r → Splits cap (first :: rest)

end KDTree

/-! ## Brute-force scan of `pathtracer.cpp` -/

/-- The value of a call of `ray_intersection`: the returned index and the
contents of the three out-parameters after the call. -/
structure IndexHit where
  triangle_index : Int
  min_r : ℚ
  min_s : ℚ
  min_t : ℚ
deriving DecidableEq, Repr

/-- The `for` loop of `ray_intersection` from index `i`, over the triangles
from index `i` on. -/
def rayIntersectionLoop (hit : TriKernel) (ray : Ray) : Triangles → Nat → IndexHit → IndexHit
  | [], _, acc => acc
  | triangle :: rest, i, acc =>
    match hit triangle ray with
    | some (r, s, t) =>
      if acc.triangle_index < 0 ∨ r < acc.min_r then
        rayIntersectionLoop hit ray rest (i + 1) ⟨(i : Int), r, s, t⟩
      else rayIntersectionLoop hit ray rest (i + 1) acc
    | none => rayIntersectionLoop hit ray rest (i + 1) acc

/-- Embeds `ray_intersection(ray, triangles, min_r, min_s, min_t)`. -/
def ray_intersection (hit : TriKernel) (ray : Ray) (triangles : Triangles) (min_s min_t : ℚ) :
    IndexHit :=
  rayIntersectionLoop hit ray triangles 0 ⟨-1, -1, min_s, min_t⟩

/-! ## SAH builder -/

/-- Embeds `COST_TRAVERSAL`. -/
def COST_TRAVERSAL : Int := 15

/-- Embeds `COST_INTERSECTION`. -/
def COST_INTERSECTION : Int := 20

/-- Embeds `struct Plane`. -/
structure Plane where
  ax : Axis
  coord : ℚ
deriving DecidableEq, Repr

/-- Modelled from the spec: assignment `v[axis] = c` to one coordinate. -/
def Vec.set (v : Vec) (a : Axis) (c : ℚ) : Vec :=
  match a with
  | Axis.X => { v with x := c }
  | Axis.Y => { v with y := c }
  | Axis.Z => { v with z := c }

/-- Embeds `split(box, plane)`, with its two assertions. -/
def split (box : Box) (plane : Plane) : Except Err (Box × Box) :=
  if !(decide (box.min.get plane.ax ≤ plane.coord)) then Except.error Err.assertion_failed
  else if !(decide (plane.coord ≤ box.max.get plane.ax)) then Except.error Err.assertion_failed
  else
    let lmax := box.max.set plane.ax plane.coord
    let rmin := box.min.set plane.ax plane.coord
    Except.ok (⟨box.min, lmax⟩, ⟨rmin, box.max⟩)

/-- The modulus of `size_t` arithmetic. -/
def SIZE_MOD : Nat := 2 ^ 64

/-- Conversion of an `int` to `size_t`. -/
def toSizeT (x : Int) : Nat := (x % (SIZE_MOD : Int)).toNat

/-- Embeds `lambda(num_ltris, num_rtris)`; `0.8f` is the float nearest to
`4/5`. -/
def lambda (num_ltris num_rtris : Nat) : F32 :=
  if num_ltris = 0 ∨ num_rtris = 0 then F32.ofRat (4 / 5) else 1

/-- Embeds `cost(larea_ratio, rarea_ratio, num_ltris, num_rtris)`; the `int`
constants and the `size_t` counts are converted to `float`. -/
def cost (larea_ratio rarea_ratio : F32) (num_ltris num_rtris : Nat) : F32 :=
  F32.mul (lambda num_ltris num_rtris)
    (F32.add (F32.ofInt COST_TRAVERSAL)
      (F32.mul (F32.ofInt COST_INTERSECTION)
        (F32.add (F32.mul larea_ratio (F32.ofNat num_ltris))
          (F32.mul rarea_ratio (F32.ofNat num_rtris)))))

/-- Embeds `enum class Dir`. -/
inductive Dir where
  | LEFT
  | RIGHT
deriving DecidableEq, Repr

/-- Modelled from the spec: the surface area `2·(dx·dy + dy·dz + dz·dx)`,
computed in `float`. -/
def Box.surface_area (b : Box) : F32 :=
  F32.area3 (F32.sub (F32.fin b.max.x) (F32.fin b.min.x))
    (F32.sub (F32.fin b.max.y) (F32.fin b.min.y))
    (F32.sub (F32.fin b.max.z) (F32.fin b.min.z))

/-- Modelled from the spec: a box is planar on axis `a` iff
`min[a] == max[a]`. -/
def Box.is_planar (b : Box) (a : Axis) : Bool :=
  decide (b.min.get a = b.max.get a)

/-- Embeds `surface_area_heuristics(p, box, num_ltris, num_rtris, num_planar_tris)`;
the sums of `size_t` counts wrap at `SIZE_MOD`. -/
def surface_area_heuristics (p : Plane) (box : Box)
    (num_ltris num_rtris num_planar_tris : Nat) : Except Err (F32 × Dir) :=
  match split box p with
  | Except.error e => Except.error e
  | Except.ok (lbox, rbox) =>
    let area := box.surface_area
    let larea_ratio := F32.div lbox.surface_area area
    let rarea_ratio := F32.div rbox.surface_area area
    let lpcost := cost larea_ratio rarea_ratio ((num_ltris + num_planar_tris) % SIZE_MOD) num_rtris
    let rpcost := cost larea_ratio rarea_ratio num_ltris ((num_planar_tris + num_rtris) % SIZE_MOD)
    if lpcost.lt rpcost then Except.ok (lpcost, Dir.LEFT) else Except.ok (rpcost, Dir.RIGHT)

/-- The nodes of `FastKDTree`: `Leaf` and `InnerNode`. -/
inductive FastNode where
  | leaf (tris : Triangles)
  | inner (p : Plane) (lft rht : FastNode)
deriving DecidableEq, Repr

namespace FastKDTree

/-- Embeds `STARTING`. -/
def STARTING : Int := 2

/-- Embeds `ENDING`. -/
def ENDING : Int := 0

/-- Embeds `PLANAR`. -/
def PLANAR : Int := 1

/-- Embeds `struct Event`; the triangle pointer is the triangle. -/
structure Event where
  tri : Triangle
  point : ℚ
  type : Int
deriving DecidableEq, Repr

/-- What `find_plane` and `build` call but the sources at hand do not
define: `triangle_clip_aabb` and `eps_zero` (`clipping.h`,
`intersection.h`), `Triangle::intersect(box)` (`triangle.h`), and the
library's `std::sort` applied to a comparator. -/
structure Lib where
  triangle_clip_aabb : Triangle → Box → Box
  eps_zero : F32 → Bool
  tri_box_intersect : Triangle → Box → Bool
  sort : (Event → Event → Bool) → List Event → List Event

/-- Embeds `terminate(tris, box)`. -/
def terminate (_tris : Triangles) (_box : Box) : Bool := true

/-- Embeds `std::numeric_limits<float>::max()`. -/
def FLT_MAX : F32 := F32.fin (((2 ^ 24 - 1) * 2 ^ 104 : Nat) : ℚ)

/-- Modelled from the spec: the cyclic successor `++ax` of an axis. -/
def nextAxis : Axis → Axis
  | Axis.X => Axis.Y
  | Axis.Y => Axis.Z
  | Axis.Z => Axis.X

/-- Embeds `static_cast<Axis>(k)` for `k` in `0, 1, 2`. -/
def axisOfIndex : Nat → Axis
  | 0 => Axis.X
  | 1 => Axis.Y
  | _ => Axis.Z

/-- The event generation of `find_plane` (lines 432-444) for one axis. -/
def generateEvents (lib : Lib) (tris : Triangles) (box : Box) (ax : Axis) : List Event :=
  tris.flatMap fun tri =>
    let clipped_box := lib.triangle_clip_aabb tri box
    if clipped_box.is_planar ax then [⟨tri, clipped_box.min.get ax, PLANAR⟩]
    else [⟨tri, clipped_box.min.get ax, STARTING⟩, ⟨tri, clipped_box.max.get ax, ENDING⟩]

/-- The comparator passed to `std::sort` (lines 447-450). -/
def eventLess (lib : Lib) (e1 e2 : Event) : Bool :=
  decide (e1.point < e2.point) ||
    (lib.eps_zero (F32.sub (F32.fin e1.point) (F32.fin e2.point)) && decide (e1.type < e2.type))

/-- One of the three inner `while` loops of the sweep: the number of leading
events with `point == p` and the given type, and the events after them. -/
def consume (p : ℚ) (ty : Int) : List Event → Int × List Event
  | [] => (0, [])
  | e :: es =>
    if e.point = p ∧ e.type = ty then
      let rest := consume p ty es
      (rest.1 + 1, rest.2)
    else (0, e :: es)

/-- The variables `find_plane` carries through the sweep; `min_plane` and
`min_side` have no value until the first assignment. -/
structure SweepState where
  num_ltris : Int
  num_planar_tris : Int
  num_rtris : Int
  min_cost : F32
  min_plane : Option Plane
  min_side : Option Dir
deriving DecidableEq, Repr

/-- The sweep loop of `find_plane` (lines 454-499) over the events from index
`i` on, for loop counter `k`. -/
def sweep (box : Box) (k : Nat) : Nat → List Event → SweepState → Except Err SweepState
  | _, [], st => Except.ok st
  | 0, _ :: _, _ => Except.error Err.out_of_fuel
  | fuel + 1, event :: es, st =>
    let p := event.point
    let point_starting : Int := 0
    let c1 := consume p ENDING (event :: es)
    let c2 := consume p PLANAR c1.2
    let c3 := consume p STARTING c2.2
    let point_ending : Int := c1.1 + c3.1
    let point_planar : Int := c2.1
    let num_planar_tris := point_planar
    let num_rtris := st.num_rtris - (point_planar + point_ending)
    let plane : Plane := ⟨axisOfIndex k, p⟩
    match surface_area_heuristics plane box (toSizeT st.num_ltris) (toSizeT num_rtris)
        (toSizeT num_planar_tris) with
    | Except.error e => Except.error e
    | Except.ok (cost, side) =>
      let st1 : SweepState :=
        if cost.lt st.min_cost then
          { st with min_cost := cost, min_plane := some plane, min_side := some side }
        else st
      sweep box k fuel c3.2
        { st1 with num_ltris := st.num_ltris + (point_starting + point_planar),
                   num_planar_tris := 0, num_rtris := num_rtris }

/-- The `for` loop of `find_plane` over the axes, `n` iterations from loop
counter `k` and axis `ax`; the running minimum is `(min_cost, min_plane,
min_side)`. -/
def axisLoop (lib : Lib) (tris : Triangles) (box : Box) :
    Nat → Nat → Axis → F32 × Option Plane × Option Dir →
      Except Err (F32 × Option Plane × Option Dir)
  | 0, _, _, acc => Except.ok acc
  | n + 1, k, ax, acc =>
    let events := lib.sort (eventLess lib) (generateEvents lib tris box ax)
    match sweep box k events.length events
        ⟨0, 0, (tris.length : Int), acc.1, acc.2.1, acc.2.2⟩ with
    | Except.error e => Except.error e
    | Except.ok st => axisLoop lib tris box n (k + 1) (nextAxis ax) (st.min_cost, st.min_plane, st.min_side)

/-- Embeds `find_plane(tris, box)`. -/
def find_plane (lib : Lib) (tris : Triangles) (box : Box) :
    Except Err (F32 × Option Plane × Option Dir) :=
  axisLoop lib tris box 3 0 Axis.X (FLT_MAX, none, none)

/-- Embeds `build(tris, box)`; fuel bounds the depth of the recursion. -/
def build (lib : Lib) : Nat → Triangles → Box → Except Err FastNode
  | 0, tris, box =>
    if terminate tris box then Except.ok (FastNode.leaf tris)
    else Except.error Err.out_of_fuel
  | fuel + 1, tris, box =>
    if terminate tris box then Except.ok (FastNode.leaf tris)
    else
      match find_plane lib tris box with
      | Except.error e => Except.error e
      | Except.ok (_, none, _) => Except.error Err.uninitialised_read
      | Except.ok (_, some p, _) =>
        match split box p with
        | Except.error e => Except.error e
        | Except.ok (lft_box, rht_box) =>
          let lft_tris := tris.filter fun tri => lib.tri_box_intersect tri lft_box
          let rht_tris := tris.filter fun tri => lib.tri_box_intersect tri rht_box
          match build lib fuel lft_tris lft_box with
          | Except.error e => Except.error e
          | Except.ok lft =>
            match build lib fuel rht_tris rht_box with
            | Except.error e => Except.error e
            | Except.ok rht => Except.ok (FastNode.inner p lft rht)

/-- The constructor `FastKDTree(Triangles tris)`, up to the `root_` it
stores. -/
def construct (lib : Lib) (fuel : Nat) : Triangles → Except Err FastNode
  | [] => Except.error Err.assertion_failed
  | first :: rest =>
    build lib fuel (first :: rest) (KDTree.boundingBox first rest)

/-- The calls of `surface_area_heuristics` the sweep makes when none of them
fails, in order: the plane and the `int` counters `num_ltris`, `num_rtris`,
`num_planar_tris` passed to the call, from the values of `num_ltris` and
`num_rtris` on entry. -/
def sweepCalls (k : Nat) : Nat → List Event → Int → Int → List (Plane × Int × Int × Int)
  | _, [], _, _ => []
  | 0, _ :: _, _, _ => []
  | fuel + 1, event :: es, num_ltris, num_rtris =>
    let p := event.point
    let point_starting : Int := 0
    let c1 := consume p ENDING (event :: es)
    let c2 := consume p PLANAR c1.2
    let c3 := consume p STARTING c2.2
    let point_ending : Int := c1.1 + c3.1
    let point_planar : Int := c2.1
    let num_rtris' := num_rtris - (point_planar + point_ending)
    (⟨axisOfIndex k, p⟩, num_ltris, num_rtris', point_planar) ::
      sweepCalls k fuel c3.2 (num_ltris + (point_starting + point_planar)) num_rtris'

/-- The candidate planes of one axis with the result of
`surface_area_heuristics` on each, in sweep order. -/
def axisCandidates (lib : Lib) (tris : Triangles) (box : Box) (k : Nat) (ax : Axis) :
    List (Plane × Except Err (F32 × Dir)) :=
  let events := lib.sort (eventLess lib) (generateEvents lib tris box ax)
  (sweepCalls k events.length events 0 (tris.length : Int)).map fun call =>
    (call.1, surface_area_heuristics call.1 box (toSizeT call.2.1) (toSizeT call.2.2.1)
      (toSizeT call.2.2.2))

/-- The candidate planes of `find_plane` with the result of
`surface_area_heuristics` on each, in the order of evaluation: the axes X,
Y, Z, each in sweep order. -/
def candidates (lib : Lib) (tris : Triangles) (box : Box) :
    List (Plane × Except Err (F32 × Dir)) :=
  axisCandidates lib tris box 0 Axis.X ++
    (axisCandidates lib tris box 1 Axis.Y ++ axisCandidates lib tris box 2 Axis.Z)

/-- Lines 491-495 of `find_plane`: the running minimum is replaced only by a
strictly smaller cost. -/
def recordMin (acc : F32 × Option Plane × Option Dir) (cand : Plane × F32 × Dir) :
    F32 × Option Plane × Option Dir :=
  if cand.2.1.lt acc.1 then (cand.2.1, some cand.1, some cand.2.2) else acc

/-- The comparator `lt` is a strict weak ordering of the elements of `l`, the
precondition of `std::sort`: it is irreflexive and transitive, and so is
"neither is less than the other". -/
def StrictWeak (lt : Event → Event → Bool) (l : List Event) : Prop :=
  (∀ a ∈ l, lt a a = false) ∧
  (∀ a ∈ l, ∀ b ∈ l, ∀ c ∈ l, lt a b = true → lt b c = true → lt a c = true) ∧
  (∀ a ∈ l, ∀ b ∈ l, ∀ c ∈ l, lt a b = false → lt b a = false → lt b c = false →
    lt c b = false → lt a c = false ∧ lt c a = false)

instance (lt : Event → Event → Bool) (l : List Event) : Decidable (StrictWeak lt l) := by
  unfold StrictWeak; infer_instance

end FastKDTree

/-! ## The bisection loop and the cost function in exact arithmetic -/

namespace Exact

/-- The local variables of `split_at_spatial_median`, as rationals. -/
structure SplitState where
  min : ℚ
  max : ℚ
  axis_midpt : ℚ
  lft_triangles : Triangles
  rht_triangles : Triangles
deriving DecidableEq, Repr

/-- The loop condition `lft_triangles.empty() || rht_triangles.empty()`. -/
def splitCond (s : SplitState) : Bool :=
  s.lft_triangles.isEmpty || s.rht_triangles.isEmpty

/-- One pass through the body of the `while` loop of
`split_at_spatial_median` (lines 195-210), in exact arithmetic. -/
def splitBody (axis : Axis) (triangles : Triangles) (s : SplitState) : SplitState :=
  let s1 : SplitState :=
    if !s.lft_triangles.isEmpty then
      { s with max := s.axis_midpt, lft_triangles := [] }
    else if !s.rht_triangles.isEmpty then
      { s with min := s.axis_midpt, rht_triangles := [] }
    else s
  let m := (s1.min + s1.max) / 2
  triangles.foldl
    (fun acc triangle =>
      if triangle.midpoint.get axis < acc.axis_midpt then
        { acc with lft_triangles := acc.lft_triangles ++ [triangle] }
      else
        { acc with rht_triangles := acc.rht_triangles ++ [triangle] })
    { s1 with axis_midpt := m }

/-- The `while` loop of `split_at_spatial_median` in exact arithmetic, at most
`fuel` passes. -/
def splitLoop (axis : Axis) (triangles : Triangles) : Nat → SplitState → Except Err SplitState
  | 0, s => if splitCond s then Except.error Err.out_of_fuel else Except.ok s
  | fuel + 1, s =>
    if splitCond s then splitLoop axis triangles fuel (splitBody axis triangles s)
    else Except.ok s

/-- Embeds `split_at_spatial_median(axis, bbox, triangles)` in exact arithmetic, up
to the two triangle lists it returns; `axis_midpt` starts at `0`. -/
def split_at_spatial_median (fuel : Nat) (axis : Axis) (bbox : Box) (triangles : Triangles) :
    Except Err (Triangles × Triangles) :=
  match splitLoop axis triangles fuel
      { min := bbox.min.get axis, max := bbox.max.get axis, axis_midpt := 0,
        lft_triangles := [], rht_triangles := [] } with
  | Except.error e => Except.error e
  | Except.ok s => Except.ok (s.lft_triangles, s.rht_triangles)

/-- The test `triangle.midpoint()[axis] < m` of the partition loop. -/
def goesLeft (axis : Axis) (m : ℚ) (t : Triangle) : Bool :=
  decide (t.midpoint.get axis < m)

/-- The range `[min, max]` the next pass of the loop bisects, from the state
at the loop head. -/
def nextRange (s : SplitState) : ℚ × ℚ :=
  if !s.lft_triangles.isEmpty then (s.min, s.axis_midpt)
  else if !s.rht_triangles.isEmpty then (s.axis_midpt, s.max)
  else (s.min, s.max)

/-- Embeds `lambda(num_ltris, num_rtris)` in exact arithmetic; `0.8f` is the
rational `4/5`. -/
def lambda (num_ltris num_rtris : Nat) : ℚ :=
  if num_ltris = 0 ∨ num_rtris = 0 then 4 / 5 else 1

/-- Embeds `cost(larea_ratio, rarea_ratio, num_ltris, num_rtris)` in exact
arithmetic. -/
def cost (larea_ratio rarea_ratio : ℚ) (num_ltris num_rtris : Nat) : ℚ :=
  lambda num_ltris num_rtris *
    ((COST_TRAVERSAL : ℚ) + (COST_INTERSECTION : ℚ) *
      (larea_ratio * (num_ltris : ℚ) + rarea_ratio * (num_rtris : ℚ)))

end Exact

/-- What a nearest-hit answer `h` over the triangles `ts` must satisfy: a null
triangle only when the kernel reports no hit on any triangle of `ts`;
otherwise a triangle of `ts` on which the kernel reports exactly
`(h.r, h.s, h.t)`, with `h.r` no larger than the distance the kernel reports
on any triangle of `ts`. -/
def NearestIn (hit : TriKernel) (ray : Ray) (ts : Triangles) (h : KDTree.Hit) : Prop :=
  match h.tri with
  | none => ∀ t ∈ ts, hit t ray = none
  | some tri =>
    tri ∈ ts ∧ hit tri ray = some (h.r, h.s, h.t) ∧
      ∀ t ∈ ts, ∀ q, hit t ray = some q → h.r ≤ q.1

/-- The same for the answer of the brute-force scan, whose index is negative
for "no hit" and otherwise the position in `ts` of the triangle found. -/
def IndexNearestIn (hit : TriKernel) (ray : Ray) (ts : Triangles) (h : IndexHit) : Prop :=
  if h.triangle_index < 0 then ∀ t ∈ ts, hit t ray = none
  else
    ∃ (i : Nat) (tri : Triangle), h.triangle_index = (i : Int) ∧ ts[i]? = some tri ∧
      hit tri ray = some (h.min_r, h.min_s, h.min_t) ∧
      ∀ t ∈ ts, ∀ q, hit t ray = some q → h.min_r ≤ q.1

/-- The states of the leaf scan and of the brute-force scan agree after the
triangles `seen`: the same `(r, s, t)`, and either no hit so far, a null
pointer and the index `-1`, or the pointer to the triangle at the index, on
which the kernel reports `(r, s, t)`, with `r` strictly smaller than the
distance of every hit before the index and no larger than the distance of any
hit. -/
def ScanAgree (hit : TriKernel) (ray : Ray) (seen : Triangles) (a : KDTree.Hit)
    (b : IndexHit) : Prop :=
  a.r = b.min_r ∧ a.s = b.min_s ∧ a.t = b.min_t ∧
  ((a.tri = none ∧ b.triangle_index = -1 ∧ ∀ u ∈ seen, hit u ray = none) ∨
    ∃ (i : Nat) (tri : Triangle), b.triangle_index = (i : Int) ∧ seen[i]? = some tri ∧
      a.tri = some tri ∧ hit tri ray = some (a.r, a.s, a.t) ∧
      (∀ (j : Nat) (u : Triangle) (q : ℚ × ℚ × ℚ), j < i → seen[j]? = some u →
        hit u ray = some q → a.r < q.1) ∧
      (∀ u ∈ seen, ∀ q, hit u ray = some q → a.r ≤ q.1))

/-- Every node of the tree stores a box that contains the bounding box of
every triangle in the leaves below it. -/
def Covers : KDTree → Prop
  | KDTree.null => True
  | KDTree.node b ax ts l r =>
    (∀ t ∈ KDTree.leafTriangles (KDTree.node b ax ts l r), b.contains t.bbox) ∧
      Covers l ∧ Covers r

/-! ## Face normal -/

/-- Modelled from the spec: the edge vector `u = v1 − v0` (`triangle.h` is not
among the sources at hand). -/
def Triangle.u (t : Triangle) : Vec :=
  ⟨t.v1.x - t.v0.x, t.v1.y - t.v0.y, t.v1.z - t.v0.z⟩

/-- Modelled from the spec: the edge vector `v = v2 − v0`. -/
def Triangle.v (t : Triangle) : Vec :=
  ⟨t.v2.x - t.v0.x, t.v2.y - t.v0.y, t.v2.z - t.v0.z⟩

/-- The cross product `a × b`. -/
def Vec.cross (a b : Vec) : Vec :=
  ⟨a.y * b.z - a.z * b.y, a.z * b.x - a.x * b.z, a.x * b.y - a.y * b.x⟩

/-- The three vertices of the triangle are colinear: the cross product of its
edge vectors is the zero vector. -/
def Triangle.colinear (t : Triangle) : Prop :=
  t.u.cross t.v = ⟨0, 0, 0⟩

instance (t : Triangle) : Decidable t.colinear := by
  unfold Triangle.colinear; infer_instance

/-- A 3-vector over a field `K` that has the square roots the rationals lack;
the coordinates of triangles are read in `K`. -/
structure Vec3 (K : Type) where
  x : K
  y : K
  z : K

/-- The vector `v` read in `K`. -/
def Vec.cast (K : Type) [DivisionRing K] (v : Vec) : Vec3 K :=
  ⟨(v.x : K), (v.y : K), (v.z : K)⟩

/-- The dot product `a * b` of the vector type. -/
def Vec3.dot {K : Type} [Add K] [Mul K] (a b : Vec3 K) : K :=
  a.x * b.x + a.y * b.y + a.z * b.z

/-- The `Length()` of the vector type, for the square root `sqrt`. -/
def Vec3.Length {K : Type} [Add K] [Mul K] (sqrt : K → K) (a : Vec3 K) : K :=
  sqrt (a.dot a)

/-- The `Normalize()` of the vector type: division by the length. -/
def Vec3.Normalize {K : Type} [Add K] [Mul K] [Div K] (sqrt : K → K) (a : Vec3 K) : Vec3 K :=
  ⟨a.x / a.Length sqrt, a.y / a.Length sqrt, a.z / a.Length sqrt⟩

/-- Modelled from the spec: the face normal `n = normalize(u × v)`, computed
in `K` with the square root `sqrt`. -/
def Triangle.normal {K : Type} [DivisionRing K] (sqrt : K → K) (t : Triangle) : Vec3 K :=
  (Vec.cast K (t.u.cross t.v)).Normalize sqrt

/-! ## Ray–box kernel -/

/-- Modelled from the spec: a bound of the running interval `[tnear, tfar]` of
the slab method, a ray parameter or one of `−∞`, `+∞` (`intersection.h` is
not among the sources at hand). -/
inductive Ext where
  | negInf
  | fin (q : ℚ)
  | posInf
deriving DecidableEq, Repr

/-- The order `a ≤ b` on extended ray parameters. -/
def Ext.le : Ext → Ext → Bool
  | Ext.negInf, _ => true
  | _, Ext.posInf => true
  | Ext.fin a, Ext.fin b => decide (a ≤ b)
  | _, _ => false

/-- The larger of two extended ray parameters. -/
def Ext.max (a b : Ext) : Ext := if a.le b then b else a

/-- The smaller of two extended ray parameters. -/
def Ext.min (a b : Ext) : Ext := if a.le b then a else b

/-- Modelled from the spec: the slab of one axis, `[min(t1, t2), max(t1, t2)]`
with `t1 = (min − o)/d` and `t2 = (max − o)/d`; for `d == 0` the slab is
`[−∞, +∞]` when `o` is inside and empty otherwise. -/
def slab (o d mn mx : ℚ) : Ext × Ext :=
  if d = 0 then
    if mn ≤ o ∧ o ≤ mx then (Ext.negInf, Ext.posInf) else (Ext.posInf, Ext.negInf)
  else
    let t1 := (mn - o) / d
    let t2 := (mx - o) / d
    (Ext.fin (Min.min t1 t2), Ext.fin (Max.max t1 t2))

/-- Modelled from the spec: the running `[tnear, tfar]` after intersecting with
the slab of axis `a`. -/
def slabStep (ray : Ray) (box : Box) (acc : Ext × Ext) (a : Axis) : Ext × Ext :=
  let s := slab (ray.origin.get a) (ray.direction.get a) (box.min.get a) (box.max.get a)
  (Ext.max acc.1 s.1, Ext.min acc.2 s.2)

/-- Modelled from the spec: the final `[tnear, tfar]` of the slab method over
the three axes. -/
def slabRange (ray : Ray) (box : Box) : Ext × Ext :=
  [Axis.X, Axis.Y, Axis.Z].foldl (slabStep ray box) (Ext.negInf, Ext.posInf)

/-- Modelled from the spec: `ray_box(ray, box)`, the slab method; true iff the
final `tnear ≤ tfar` and `tfar ≥ 0`. -/
def ray_box_intersection : BoxKernel := fun ray box =>
  (slabRange ray box).1.le (slabRange ray box).2 && (Ext.fin 0).le (slabRange ray box).2

/-- The ray parameter `t` lies in the interval `[s.1, s.2]`. -/
def Ext.mem (s : Ext × Ext) (t : ℚ) : Prop :=
  s.1.le (Ext.fin t) = true ∧ (Ext.fin t).le s.2 = true

/-- An interval whose lower bound is `+∞` has the upper bound `−∞`. -/
def Ext.Good (s : Ext × Ext) : Prop := s.1 = Ext.posInf → s.2 = Ext.negInf

/-! ## Sample kernels and scenes -/

/-- Modelled from the spec: `ray_triangle`, Möller–Trumbore.  `r` is the
parametric distance along the ray and must be positive for a hit; `(s, t)`
are barycentric coordinates with `s ≥ 0`, `t ≥ 0`, `s + t ≤ 1`, the point on
the triangle being `v0 + s·u + t·v`; a ray parallel to the triangle is no
hit. -/
def ray_triangle : TriKernel := fun tri ray =>
  let ux := tri.v1.x - tri.v0.x
  let uy := tri.v1.y - tri.v0.y
  let uz := tri.v1.z - tri.v0.z
  let vx := tri.v2.x - tri.v0.x
  let vy := tri.v2.y - tri.v0.y
  let vz := tri.v2.z - tri.v0.z
  let d := ray.direction
  let px := d.y * vz - d.z * vy
  let py := d.z * vx - d.x * vz
  let pz := d.x * vy - d.y * vx
  let det := ux * px + uy * py + uz * pz
  if det = 0 then none
  else
    let wx := ray.origin.x - tri.v0.x
    let wy := ray.origin.y - tri.v0.y
    let wz := ray.origin.z - tri.v0.z
    let s := (wx * px + wy * py + wz * pz) / det
    let qx := wy * uz - wz * uy
    let qy := wz * ux - wx * uz
    let qz := wx * uy - wy * ux
    let t := (d.x * qx + d.y * qy + d.z * qz) / det
    let r := (vx * qx + vy * qy + vz * qz) / det
    if 0 ≤ s ∧ 0 ≤ t ∧ s + t ≤ 1 ∧ 0 < r then some (r, s, t) else none

/-- Insertion of an event before the first event it is less than. -/
def insertEvent (lt : FastKDTree.Event → FastKDTree.Event → Bool) (e : FastKDTree.Event) :
    List FastKDTree.Event → List FastKDTree.Event
  | [] => [e]
  | x :: xs => if lt e x then e :: x :: xs else x :: insertEvent lt e xs

/-- A sort by insertion, as an instance of `std::sort`. -/
def insertionSortEvents (lt : FastKDTree.Event → FastKDTree.Event → Bool) :
    List FastKDTree.Event → List FastKDTree.Event
  | [] => []
  | x :: xs => insertEvent lt x (insertionSortEvents lt xs)

/-- Sample instances of the missing helpers: the clipped box of a triangle
inside the box is its own bounding box, `eps_zero(x)` is `|x| < 1/1000000`,
a triangle meets a box when their boxes overlap, and the sort is by
insertion. -/
def sampleLib : FastKDTree.Lib where
  triangle_clip_aabb := fun tri _ => tri.bbox
  eps_zero := fun x =>
    match x with
    | F32.fin q => decide (|q| < 1 / 1000000)
    | _ => false
  tri_box_intersect := fun tri box =>
    decide (tri.bbox.min.x ≤ box.max.x ∧ box.min.x ≤ tri.bbox.max.x ∧
      tri.bbox.min.y ≤ box.max.y ∧ box.min.y ≤ tri.bbox.max.y ∧
      tri.bbox.min.z ≤ box.max.z ∧ box.min.z ≤ tri.bbox.max.z)
  sort := insertionSortEvents

/-- A box test that accepts every box. -/
def acceptAll : BoxKernel := fun _ _ => true

/-- A ray along +X that crosses `triUnit` at distance `5/4` and `triShifted`
at distance `13/4`. -/
def rayAlongX : Ray := ⟨⟨-1, 1 / 4, 1 / 2⟩, ⟨1, 0, 0⟩⟩


/-- A triangle in the plane `z = 0` whose box has the sides `1, 1, 0`. -/
def triFlat : Triangle := test_triangle ⟨0, 0, 0⟩ ⟨1, 0, 0⟩ ⟨0, 1, 0⟩

/-- A triangle whose box is the unit cube. -/
def triUnit : Triangle := test_triangle ⟨0, 0, 0⟩ ⟨1, 0, 1⟩ ⟨0, 1, 1⟩

/-- The triangle `triUnit` moved by `2` along X. -/
def triShifted : Triangle := test_triangle ⟨2, 0, 0⟩ ⟨3, 0, 1⟩ ⟨2, 1, 1⟩

/-- A triangle in the plane `x = 0` whose box has the sides `0, 1, 1`. -/
def triUpright : Triangle := test_triangle ⟨0, 0, 0⟩ ⟨0, 1, 0⟩ ⟨0, 0, 1⟩

/-- A triangle whose box has the sides `2^24 + 1`, `2^24` and `0`. -/
def triWide : Triangle :=
  test_triangle ⟨-1, 0, 0⟩ ⟨16777216, 16777216, 0⟩ ⟨-1, 16777216, 0⟩

/-- The bounding box of `triWide`. -/
def wideBox : Box := ⟨⟨-1, 0, 0⟩, ⟨16777216, 16777216, 0⟩⟩

/-- A triangle in the plane `x = 2^24`: its midpoint along X is `2^24`. -/
def triEdge : Triangle :=
  test_triangle ⟨16777216, 0, 0⟩ ⟨16777216, 1, 0⟩ ⟨16777216, 0, 1⟩

/-- A triangle in the plane `x = 2^24 + 2`: its midpoint along X is the float
next to `2^24`. -/
def triEdgeNext : Triangle :=
  test_triangle ⟨16777218, 0, 0⟩ ⟨16777218, 1, 0⟩ ⟨16777218, 0, 1⟩

/-- A triangle in the plane `x = 1`: its midpoint along X is `1`. -/
def triOne : Triangle := test_triangle ⟨1, 0, 0⟩ ⟨1, 1, 0⟩ ⟨1, 0, 1⟩

/-- A triangle in the plane `x = 2^23`: its midpoint along X is `2^23`. -/
def triHalf : Triangle := test_triangle ⟨8388608, 0, 0⟩ ⟨8388608, 1, 0⟩ ⟨8388608, 0, 1⟩

/-- The bounding box of the scene `[triOne, triHalf, triEdge]`. -/
def longBox : Box := ⟨⟨1, 0, 0⟩, ⟨16777216, 1, 1⟩⟩

/-- A degenerate triangle, its vertices on the Z axis. -/
def triLine : Triangle := test_triangle ⟨0, 0, 0⟩ ⟨0, 0, 1⟩ ⟨0, 0, 2⟩

/-- The bounding box of `triLine`. -/
def lineBox : Box := ⟨⟨0, 0, 0⟩, ⟨0, 0, 2⟩⟩

/-- The triangle `triUnit` scaled by `2^64`. -/
def triHuge : Triangle :=
  test_triangle ⟨0, 0, 0⟩ ⟨18446744073709551616, 0, 18446744073709551616⟩
    ⟨0, 18446744073709551616, 18446744073709551616⟩

/-- The bounding box of `triHuge`. -/
def hugeBox : Box :=
  ⟨⟨0, 0, 0⟩, ⟨18446744073709551616, 18446744073709551616, 18446744073709551616⟩⟩

/-- The triangle `triUnit` moved by `2 * i` along every axis. -/
def chainTri (i : Nat) : Triangle :=
  test_triangle ⟨((2 * i : Nat) : ℚ), ((2 * i : Nat) : ℚ), ((2 * i : Nat) : ℚ)⟩
    ⟨((2 * i + 1 : Nat) : ℚ), ((2 * i : Nat) : ℚ), ((2 * i + 1 : Nat) : ℚ)⟩
    ⟨((2 * i : Nat) : ℚ), ((2 * i + 1 : Nat) : ℚ), ((2 * i + 1 : Nat) : ℚ)⟩

/-- The scene of the `n` triangles `chainTri 0`, ..., `chainTri (n - 1)`,
lined up along the diagonal. -/
def chainScene (n : Nat) : Triangles := (List.range n).map chainTri

/-- The bounding box of `chainScene n`. -/
def chainBox (n : Nat) : Box :=
  ⟨⟨0, 0, 0⟩, ⟨((2 * n - 1 : Nat) : ℚ), ((2 * n - 1 : Nat) : ℚ), ((2 * n - 1 : Nat) : ℚ)⟩⟩

/-- The event at the coordinate `j` of the sweep of a `chainScene` along an
axis: the triangle `chainTri (j / 2)` starts at an even and ends at an odd
coordinate. -/
def chainEvent (j : Nat) : FastKDTree.Event :=
  ⟨chainTri (j / 2), (j : ℚ), if j % 2 = 0 then FastKDTree.STARTING else FastKDTree.ENDING⟩

/-- The candidate `(plane, cost, side)` at the `j`-th event of the sweep of
`chainScene n` along the axis of index `k`: no triangle is counted on the
left or in the plane, and `n - j - 1` triangles on the right. -/
def chainCand (n k j : Nat) : Plane × F32 × Dir :=
  (⟨FastKDTree.axisOfIndex k, (j : ℚ)⟩,
    cost
      (F32.div (⟨(chainBox n).min,
        (chainBox n).max.set (FastKDTree.axisOfIndex k) (j : ℚ)⟩ : Box).surface_area
        (chainBox n).surface_area)
      (F32.div (⟨(chainBox n).min.set (FastKDTree.axisOfIndex k) (j : ℚ),
        (chainBox n).max⟩ : Box).surface_area
        (chainBox n).surface_area)
      0 (toSizeT ((n : Int) - (j : Int) - 1)),
    Dir.RIGHT)

/-- The bounding box of `triFlat`. -/
def flatBox : Box := ⟨⟨0, 0, 0⟩, ⟨1, 1, 0⟩⟩

/-- The bounding box of `triUpright`. -/
def uprightBox : Box := ⟨⟨0, 0, 0⟩, ⟨0, 1, 1⟩⟩

/-- The tree of the scene `[triFlat]`. -/
def flatLeaf : KDTree := KDTree.leafNode flatBox Axis.Y [triFlat]

/-- The tree of the scene `[triUpright]`. -/
def uprightLeaf : KDTree := KDTree.leafNode uprightBox Axis.Z [triUpright]

/-- The tree of the scene `[triUnit, triShifted]` for leaf capacity 1. -/
def twoLeafTree : KDTree :=
  KDTree.innerNode ⟨⟨0, 0, 0⟩, ⟨3, 1, 1⟩⟩ Axis.X
    (KDTree.leafNode ⟨⟨0, 0, 0⟩, ⟨1, 1, 1⟩⟩ Axis.Z [triUnit])
    (KDTree.leafNode ⟨⟨2, 0, 0⟩, ⟨3, 1, 1⟩⟩ Axis.Z [triShifted])

/-- The bounding box of the scene `[triUnit, triShifted]`. -/
def sceneBox : Box := ⟨⟨0, 0, 0⟩, ⟨3, 1, 1⟩⟩

/-- A STARTING event at coordinate `0`. -/
def evStart : FastKDTree.Event := ⟨triUnit, 0, FastKDTree.STARTING⟩

/-- An ENDING event at the float coordinate `2^-21`, within the tolerance of
`sampleLib.eps_zero` of `evStart`. -/
def evEndNear : FastKDTree.Event := ⟨triUnit, 1 / 2097152, FastKDTree.ENDING⟩

/-- The events of the scene `[triUnit]` along X, sorted: the triangle starts
at `0` and ends at `1`. -/
def unitEvents : List FastKDTree.Event :=
  [⟨triUnit, 0, FastKDTree.STARTING⟩, ⟨triUnit, 1, FastKDTree.ENDING⟩]


open KDTree

/-! ## Binary32 rounding -/

namespace F32

theorem pow2_eq (e : Int) : pow2 e = (2 : ℚ) ^ e := by
  unfold pow2
  split_ifs with h
  · obtain ⟨n, rfl⟩ := Int.eq_ofNat_of_zero_le h
    simp
  · obtain ⟨n, hn⟩ := Int.eq_ofNat_of_zero_le (show (0 : Int) ≤ -e by omega)
    have he : e = -(n : Int) := by omega
    subst he
    simp [zpow_neg]

theorem pow2_pos (e : Int) : 0 < pow2 e := by
  rw [pow2_eq]; positivity

theorem pow2_add (a b : Int) : pow2 (a + b) = pow2 a * pow2 b := by
  simp only [pow2_eq]
  exact zpow_add₀ (by norm_num) a b

theorem pow2_succ (e : Int) : pow2 (e + 1) = 2 * pow2 e := by
  rw [pow2_add, mul_comm]
  congr 1

theorem pow2_le_pow2 {a b : Int} (h : a ≤ b) : pow2 a ≤ pow2 b := by
  simp only [pow2_eq]
  exact zpow_le_zpow_right₀ (by norm_num) h

theorem pow2_lt_pow2 {a b : Int} (h : a < b) : pow2 a < pow2 b := by
  simp only [pow2_eq]
  exact zpow_lt_zpow_right₀ (by norm_num) h

theorem pow2_le_iff {a b : Int} : pow2 a ≤ pow2 b ↔ a ≤ b := by
  constructor
  · intro h
    by_contra hc
    exact absurd (pow2_lt_pow2 (not_le.1 hc)) (not_lt.2 h)
  · exact pow2_le_pow2

theorem pow2_lt_iff {a b : Int} : pow2 a < pow2 b ↔ a < b := by
  constructor
  · intro h
    by_contra hc
    exact absurd (pow2_le_pow2 (not_lt.1 hc)) (not_le.2 h)
  · exact pow2_lt_pow2

theorem pow2_natCast (n : Nat) : pow2 (n : Int) = ((2 ^ n : Nat) : ℚ) := by
  simp [pow2]

theorem findExp_spec (a : ℚ) (k : Nat) (lo : Int) (h1 : pow2 lo ≤ a) :
    pow2 (findExp a k lo) ≤ a ∧ lo ≤ findExp a k lo ∧
      findExp a k lo < lo + ((2 ^ k : Nat) : Int) ∧
      (a < pow2 (lo + ((2 ^ k : Nat) : Int)) → a < pow2 (findExp a k lo + 1)) := by
  induction k generalizing lo with
  | zero =>
    simp only [findExp, pow_zero, Nat.cast_one]
    exact ⟨h1, le_refl _, by omega, fun h => h⟩
  | succ k ih =>
    have h2k : ((2 ^ (k + 1) : Nat) : Int) = ((2 ^ k : Nat) : Int) + ((2 ^ k : Nat) : Int) := by
      rw [pow_succ]; push_cast; ring
    have hpos : (0 : Int) ≤ ((2 ^ k : Nat) : Int) := Int.natCast_nonneg _
    simp only [findExp]
    split_ifs with hc
    · obtain ⟨i1, i2, i3, i4⟩ := ih (lo + ((2 ^ k : Nat) : Int)) hc
      refine ⟨i1, by omega, by omega, fun h => i4 ?_⟩
      rw [h2k, ← add_assoc] at h
      exact h
    · obtain ⟨i1, i2, i3, i4⟩ := ih lo h1
      exact ⟨i1, i2, by omega, fun _ => i4 (not_le.1 hc)⟩


theorem quantExp_bounds (a : ℚ) : -149 ≤ quantExp a ∧ quantExp a ≤ 106 := by
  unfold quantExp
  split_ifs with h
  · omega
  · obtain ⟨_, i2, i3, _⟩ := findExp_spec a 8 (-126) (not_lt.1 h)
    norm_num at i3
    omega

theorem quantExp_upper (a : ℚ) (h : a < pow2 128) : a < pow2 (quantExp a + 24) := by
  unfold quantExp
  split_ifs with hc
  · exact lt_trans hc (pow2_lt_pow2 (by norm_num))
  · obtain ⟨_, _, _, i4⟩ := findExp_spec a 8 (-126) (not_lt.1 hc)
    have := i4 (lt_trans h (pow2_lt_pow2 (by norm_num)))
    have e : findExp a 8 (-126) - 23 + 24 = findExp a 8 (-126) + 1 := by ring
    rw [e]
    exact this

theorem quantExp_lower (a : ℚ) : quantExp a = -149 ∨ pow2 (quantExp a + 23) ≤ a := by
  unfold quantExp
  split_ifs with hc
  · exact Or.inl rfl
  · obtain ⟨i1, _, _, _⟩ := findExp_spec a 8 (-126) (not_lt.1 hc)
    right
    have e : findExp a 8 (-126) - 23 + 23 = findExp a 8 (-126) := by ring
    rw [e]
    exact i1

theorem roundEven_floor (m : ℚ) : ⌊m⌋ ≤ roundEven m ∧ roundEven m ≤ ⌊m⌋ + 1 := by
  unfold roundEven
  split_ifs <;> constructor <;> omega

theorem roundEven_intCast (k : Int) : roundEven (k : ℚ) = k := by
  unfold roundEven
  simp

theorem roundEven_mono {m m' : ℚ} (h : m ≤ m') : roundEven m ≤ roundEven m' := by
  have hf : ⌊m⌋ ≤ ⌊m'⌋ := Int.floor_mono h
  rcases lt_or_eq_of_le hf with hlt | heq
  · exact le_trans (roundEven_floor m).2 (le_trans hlt (roundEven_floor m').1)
  · have hr : m - (⌊m⌋ : ℚ) ≤ m' - (⌊m'⌋ : ℚ) := by rw [heq]; linarith
    unfold roundEven
    rw [heq]
    split_ifs <;> first | omega | (exfalso; linarith)

theorem roundEven_le_of_le {m : ℚ} {k : Int} (h : m ≤ (k : ℚ)) : roundEven m ≤ k := by
  have := roundEven_mono h
  rwa [roundEven_intCast] at this

theorem roundEven_ge_of_ge {m : ℚ} {k : Int} (h : (k : ℚ) ≤ m) : k ≤ roundEven m := by
  have := roundEven_mono h
  rwa [roundEven_intCast] at this

theorem pow2_toInt (n : Nat) : pow2 (n : Int) = (((2 ^ n : Nat) : Int) : ℚ) := by
  rw [pow2_natCast]; norm_cast

theorem roundMag_nonneg {a : ℚ} (h : 0 ≤ a) : 0 ≤ roundMag a := by
  unfold roundMag
  have hq := pow2_pos (quantExp a)
  have : (0 : Int) ≤ roundEven (a / pow2 (quantExp a)) :=
    roundEven_ge_of_ge (by simpa using div_nonneg h hq.le)
  have h' : (0 : ℚ) ≤ (roundEven (a / pow2 (quantExp a)) : ℚ) := by exact_mod_cast this
  exact mul_nonneg h' hq.le

/-- A value below `2 ^ (e + 24)`, with `e` its quantum exponent, rounds to at
most `2 ^ (e + 24)`. -/
theorem roundMag_le_top {a : ℚ} (h : a < pow2 128) : roundMag a ≤ pow2 (quantExp a + 24) := by
  unfold roundMag
  have hq := pow2_pos (quantExp a)
  have hu := quantExp_upper a h
  have h1 : a / pow2 (quantExp a) ≤ (((2 ^ 24 : Nat) : Int) : ℚ) := by
    rw [div_le_iff₀ hq, ← pow2_toInt, ← pow2_add, add_comm]
    exact hu.le
  have h2 := roundEven_le_of_le h1
  have h3 : (roundEven (a / pow2 (quantExp a)) : ℚ) ≤ (((2 ^ 24 : Nat) : Int) : ℚ) := by
    exact_mod_cast h2
  calc (roundEven (a / pow2 (quantExp a)) : ℚ) * pow2 (quantExp a)
      ≤ (((2 ^ 24 : Nat) : Int) : ℚ) * pow2 (quantExp a) :=
        mul_le_mul_of_nonneg_right h3 hq.le
    _ = pow2 (quantExp a + 24) := by
        rw [← pow2_toInt, ← pow2_add, add_comm]
        rfl

theorem roundMag_ge_bottom {a : ℚ} (n : Nat) (e : Int) (he : quantExp a = e)
    (h : pow2 (e + (n : Int)) ≤ a) : pow2 (e + (n : Int)) ≤ roundMag a := by
  unfold roundMag
  rw [he]
  have hq := pow2_pos e
  have h1 : (((2 ^ n : Nat) : Int) : ℚ) ≤ a / pow2 e := by
    rw [le_div_iff₀ hq, ← pow2_toInt, ← pow2_add, add_comm]
    exact h
  have h2 := roundEven_ge_of_ge h1
  have h3 : (((2 ^ n : Nat) : Int) : ℚ) ≤ (roundEven (a / pow2 e) : ℚ) := by
    exact_mod_cast h2
  calc pow2 (e + (n : Int)) = (((2 ^ n : Nat) : Int) : ℚ) * pow2 e := by
        rw [← pow2_toInt, ← pow2_add, add_comm]
    _ ≤ (roundEven (a / pow2 e) : ℚ) * pow2 e := mul_le_mul_of_nonneg_right h3 hq.le

theorem roundMag_overflow {a : ℚ} (h : pow2 128 ≤ a) : pow2 128 ≤ roundMag a := by
  obtain ⟨h1, h2⟩ := quantExp_bounds a
  obtain ⟨n, hn⟩ := Int.eq_ofNat_of_zero_le (show (0 : Int) ≤ 128 - quantExp a by omega)
  have := roundMag_ge_bottom (a := a) n (quantExp a) rfl
  rw [← hn] at this
  have e : quantExp a + (128 - quantExp a) = 128 := by ring
  rw [e] at this
  exact this h

theorem quantExp_mono {a b : ℚ} (hab : a ≤ b) (hb : b < pow2 128) :
    quantExp a ≤ quantExp b := by
  by_contra hc
  have hlt : quantExp b < quantExp a := not_le.1 hc
  have hb1 := (quantExp_bounds b).1
  rcases quantExp_lower a with h | h
  · omega
  · have := lt_of_le_of_lt (le_trans h hab) (quantExp_upper b hb)
    rw [pow2_lt_iff] at this
    omega

theorem roundMag_mono {a b : ℚ} (hab : a ≤ b) (hb : b < pow2 128) :
    roundMag a ≤ roundMag b := by
  have ha : a < pow2 128 := lt_of_le_of_lt hab hb
  rcases lt_or_eq_of_le (quantExp_mono hab hb) with hlt | heq
  · have hb1 := (quantExp_bounds a).1
    rcases quantExp_lower b with h | h
    · omega
    · have h1 := roundMag_ge_bottom (a := b) 23 (quantExp b) rfl h
      have h2 := roundMag_le_top ha
      refine le_trans h2 (le_trans (pow2_le_pow2 ?_) h1)
      push_cast
      omega
  · unfold roundMag
    rw [heq]
    have hq := pow2_pos (quantExp b)
    have : roundEven (a / pow2 (quantExp b)) ≤ roundEven (b / pow2 (quantExp b)) :=
      roundEven_mono (div_le_div_of_nonneg_right hab hq.le)
    have h' : (roundEven (a / pow2 (quantExp b)) : ℚ) ≤ (roundEven (b / pow2 (quantExp b)) : ℚ) := by
      exact_mod_cast this
    exact mul_le_mul_of_nonneg_right h' hq.le


theorem roundMag_lt_of_lt {a : ℚ} (h : roundMag a < pow2 128) : a < pow2 128 := by
  by_contra hc
  exact absurd (roundMag_overflow (not_lt.1 hc)) (not_le.2 h)

theorem ofRat_ne_nan (x : ℚ) : ofRat x ≠ nan := by
  unfold ofRat
  split_ifs <;> simp

theorem ofRat_mono {x y : ℚ} (h : x ≤ y) : (ofRat x).le (ofRat y) = true := by
  unfold ofRat
  by_cases hy : y < 0
  · have hx : x < 0 := lt_of_le_of_lt h hy
    have habs : |y| ≤ |x| := by rw [abs_of_neg hx, abs_of_neg hy]; linarith
    simp only [hx, hy, if_true]
    by_cases ox : pow2 128 ≤ roundMag |x|
    · simp only [ox, if_true]
      split_ifs <;> rfl
    · have hm := roundMag_mono habs (roundMag_lt_of_lt (not_le.1 ox))
      have oy : ¬ pow2 128 ≤ roundMag |y| := fun hc => ox (le_trans hc hm)
      simp only [ox, oy, if_false, le, decide_eq_true_eq]
      linarith
  · have hy0 : 0 ≤ y := not_lt.1 hy
    have my := roundMag_nonneg (abs_nonneg y)
    by_cases hx : x < 0
    · have mx := roundMag_nonneg (abs_nonneg x)
      simp only [hx, hy, if_true, if_false]
      split_ifs
      · rfl
      · rfl
      · rfl
      · simp only [le, decide_eq_true_eq]; linarith
    · have hx0 : 0 ≤ x := not_lt.1 hx
      have habs : |x| ≤ |y| := by rw [abs_of_nonneg hx0, abs_of_nonneg hy0]; exact h
      simp only [hx, hy, if_false]
      by_cases oy : pow2 128 ≤ roundMag |y|
      · simp only [oy, if_true]
        split_ifs <;> rfl
      · have hm := roundMag_mono habs (roundMag_lt_of_lt (not_le.1 oy))
        have ox : ¬ pow2 128 ≤ roundMag |x| := fun hc => oy (le_trans hc hm)
        simp only [ox, oy, if_false, le, decide_eq_true_eq]
        exact hm

theorem le_fin_fin (a b : ℚ) : (fin a).le (fin b) = true ↔ a ≤ b := by
  simp [le]

theorem lt_fin_fin (a b : ℚ) : (fin a).lt (fin b) = true ↔ a < b := by
  simp [lt]

/-- A value between two finite values is finite. -/
theorem fin_of_le_of_le {a b : ℚ} {X : F32} (h1 : (fin a).le X = true) (h2 : X.le (fin b) = true) :
    ∃ m, X = fin m ∧ a ≤ m ∧ m ≤ b := by
  cases X with
  | nan => simp [le] at h1
  | ninf => simp [le] at h1
  | pinf => simp [le] at h2
  | fin m => exact ⟨m, rfl, (le_fin_fin a m).1 h1, (le_fin_fin m b).1 h2⟩

/-- The multiples `k * 2 ^ e` of a quantum with at most 24 bits are fixed by the
rounding. -/
theorem roundMag_rep (k e : Int) (hk0 : 0 ≤ k) (hk : k ≤ 2 ^ 24) (he : -149 ≤ e) :
    roundMag ((k : ℚ) * pow2 e) = (k : ℚ) * pow2 e := by
  have hkq : (k : ℚ) ≤ (((2 ^ 24 : Nat) : Int) : ℚ) := by exact_mod_cast hk
  have hk0q : (0 : ℚ) ≤ (k : ℚ) := by exact_mod_cast hk0
  have htop : (k : ℚ) * pow2 e ≤ pow2 (e + 24) := by
    have : pow2 (e + 24) = (((2 ^ 24 : Nat) : Int) : ℚ) * pow2 e := by
      rw [← pow2_toInt, ← pow2_add, add_comm]; rfl
    rw [this]
    exact mul_le_mul_of_nonneg_right hkq (pow2_pos e).le
  have key : ∃ j : Int, (k : ℚ) * pow2 e / pow2 (quantExp ((k : ℚ) * pow2 e)) = (j : ℚ) := by
    generalize hq : quantExp ((k : ℚ) * pow2 e) = e'
    have hq' := pow2_pos e'
    by_cases hle : e' ≤ e
    · obtain ⟨n, hn⟩ := Int.eq_ofNat_of_zero_le (show (0 : Int) ≤ e - e' by omega)
      refine ⟨k * ((2 ^ n : Nat) : Int), ?_⟩
      have : pow2 e = pow2 (n : Int) * pow2 e' := by
        rw [← pow2_add, ← hn]; congr 1; ring
      rw [this, pow2_toInt, ← mul_assoc, mul_div_assoc, div_self hq'.ne', mul_one]
      push_cast
      ring
    · have h1 : e' ≠ -149 := by omega
      rcases quantExp_lower ((k : ℚ) * pow2 e) with h | h
      · rw [hq] at h; exact absurd h h1
      · rw [hq] at h
        have h2 := le_trans h htop
        rw [pow2_le_iff] at h2
        have he' : e' = e + 1 := by omega
        subst he'
        have h3 : pow2 (e + 24) ≤ (k : ℚ) * pow2 e := by
          have : e + 1 + 23 = e + 24 := by ring
          rw [this] at h
          exact h
        have h4 : (k : ℚ) * pow2 e = pow2 (e + 24) := le_antisymm htop h3
        refine ⟨((2 ^ 23 : Nat) : Int), ?_⟩
        rw [h4, div_eq_iff hq'.ne', ← pow2_toInt, ← pow2_add]
        congr 1
        push_cast
        ring
  obtain ⟨j, hj⟩ := key
  unfold roundMag
  rw [hj, roundEven_intCast, ← hj]
  exact div_mul_cancel₀ _ (pow2_pos _).ne'

theorem roundMag_idem {a : ℚ} (ha : 0 ≤ a) (h : roundMag a < pow2 128) :
    roundMag (roundMag a) = roundMag a := by
  have ha' := roundMag_lt_of_lt h
  have hq := pow2_pos (quantExp a)
  have hk0 : (0 : Int) ≤ roundEven (a / pow2 (quantExp a)) :=
    roundEven_ge_of_ge (by simpa using div_nonneg ha hq.le)
  have hk : roundEven (a / pow2 (quantExp a)) ≤ 2 ^ 24 := by
    apply roundEven_le_of_le
    rw [div_le_iff₀ hq]
    have := (quantExp_upper a ha').le
    have e : pow2 (quantExp a + 24) = ((2 ^ 24 : Int) : ℚ) * pow2 (quantExp a) := by
      rw [add_comm, pow2_add]
      congr 1
    rw [← e]
    exact this
  have := roundMag_rep (roundEven (a / pow2 (quantExp a))) (quantExp a) hk0 hk
    (quantExp_bounds a).1
  unfold roundMag at this ⊢
  exact this

theorem roundMag_zero : roundMag 0 = 0 := by
  unfold roundMag
  simp [roundEven]

theorem ofRat_zero : ofRat 0 = fin 0 := by
  unfold ofRat
  have := pow2_pos 128
  simp [roundMag_zero, not_le.2 this]

theorem ofRat_eq_fin {x s : ℚ} (h : ofRat x = fin s) :
    roundMag |x| < pow2 128 ∧ s = if x < 0 then -roundMag |x| else roundMag |x| := by
  unfold ofRat at h
  by_cases h1 : pow2 128 ≤ roundMag |x|
  · rw [if_pos h1] at h
    by_cases h2 : x < 0
    · rw [if_pos h2] at h; cases h
    · rw [if_neg h2] at h; cases h
  · rw [if_neg h1] at h
    injection h with h
    exact ⟨not_le.1 h1, h.symm⟩

/-- What the rounding returns is a float. -/
theorem ofRat_idem {x s : ℚ} (h : ofRat x = fin s) : IsFloat s := by
  obtain ⟨hlt, hs⟩ := ofRat_eq_fin h
  have hm := roundMag_nonneg (abs_nonneg x)
  have hid := roundMag_idem (abs_nonneg x) hlt
  unfold IsFloat
  by_cases h2 : x < 0
  · rw [if_pos h2] at hs
    rcases lt_or_eq_of_le hm with hpos | h0
    · have hs0 : s < 0 := by linarith
      have habs : |s| = roundMag |x| := by rw [abs_of_neg hs0]; linarith
      unfold ofRat
      rw [habs, hid, if_neg (not_le.2 hlt), if_pos hs0, hs]
    · have hs0 : s = 0 := by linarith
      rw [hs0]; exact ofRat_zero
  · rw [if_neg h2] at hs
    have hs0 : 0 ≤ s := by linarith
    have habs : |s| = roundMag |x| := by rw [abs_of_nonneg hs0]; linarith
    unfold ofRat
    rw [habs, hid, if_neg (not_le.2 hlt), if_neg (not_lt.2 hs0), hs]

theorem isFloat_iff (x : ℚ) : IsFloat x ↔ roundMag |x| = |x| ∧ |x| < pow2 128 := by
  constructor
  · intro h
    obtain ⟨hlt, hs⟩ := ofRat_eq_fin h
    have : roundMag |x| = |x| := by
      by_cases h2 : x < 0
      · rw [if_pos h2] at hs
        have := abs_of_neg h2
        linarith
      · rw [if_neg h2] at hs
        have := abs_of_nonneg (not_lt.1 h2)
        linarith
    exact ⟨this, by rw [← this]; exact hlt⟩
  · rintro ⟨h1, h2⟩
    unfold IsFloat ofRat
    rw [h1, if_neg (not_le.2 h2)]
    by_cases hx : x < 0
    · rw [if_pos hx, abs_of_neg hx, neg_neg]
    · rw [if_neg hx, abs_of_nonneg (not_lt.1 hx)]

theorem isFloat_neg {x : ℚ} (h : IsFloat x) : IsFloat (-x) := by
  rw [isFloat_iff] at h ⊢
  rw [abs_neg]; exact h

/-- The double of a float is a float unless it overflows. -/
theorem isFloat_double {x : ℚ} (h : IsFloat x) (hlt : |2 * x| < pow2 128) : IsFloat (2 * x) := by
  rw [isFloat_iff] at h ⊢
  obtain ⟨h1, h2⟩ := h
  refine ⟨?_, hlt⟩
  have hq := pow2_pos (quantExp |x|)
  have hk0 : (0 : Int) ≤ roundEven (|x| / pow2 (quantExp |x|)) :=
    roundEven_ge_of_ge (by simpa using div_nonneg (abs_nonneg x) hq.le)
  have hk : roundEven (|x| / pow2 (quantExp |x|)) ≤ 2 ^ 24 := by
    apply roundEven_le_of_le
    rw [div_le_iff₀ hq]
    have := (quantExp_upper |x| h2).le
    have e : pow2 (quantExp |x| + 24) = ((2 ^ 24 : Int) : ℚ) * pow2 (quantExp |x|) := by
      rw [add_comm, pow2_add]
      congr 1
    rw [← e]
    exact this
  have habs : |2 * x| = (roundEven (|x| / pow2 (quantExp |x|)) : ℚ) * pow2 (quantExp |x| + 1) := by
    rw [abs_mul, pow2_succ]
    have : roundMag |x| = (roundEven (|x| / pow2 (quantExp |x|)) : ℚ) * pow2 (quantExp |x|) := rfl
    rw [abs_of_pos (by norm_num : (0 : ℚ) < 2)]
    nth_rewrite 1 [← h1]
    rw [this]
    ring
  rw [habs]
  exact roundMag_rep _ _ hk0 hk (by have := (quantExp_bounds |x|).1; omega)

theorem ofRat_le_of_le {x B : ℚ} (hB : IsFloat B) (h : x ≤ B) : (ofRat x).le (fin B) = true := by
  have := ofRat_mono h
  rwa [hB] at this

theorem le_ofRat_of_le {x A : ℚ} (hA : IsFloat A) (h : A ≤ x) : (fin A).le (ofRat x) = true := by
  have := ofRat_mono h
  rwa [hA] at this

/-- Rounding a value between two floats gives a float between them. -/
theorem ofRat_between {x A B : ℚ} (hA : IsFloat A) (hB : IsFloat B) (h1 : A ≤ x) (h2 : x ≤ B) :
    ∃ m, ofRat x = fin m ∧ A ≤ m ∧ m ≤ B ∧ IsFloat m := by
  obtain ⟨m, hm, h3, h4⟩ := fin_of_le_of_le (le_ofRat_of_le hA h1) (ofRat_le_of_le hB h2)
  exact ⟨m, hm, h3, h4, ofRat_idem hm⟩

theorem fin_abs_lt {x s : ℚ} (h : ofRat x = fin s) : |s| < pow2 128 :=
  ((isFloat_iff s).1 (ofRat_idem h)).2

end F32

/-! ## Order of the floats -/

namespace F32

theorem sub_fin_ne_nan (a b : ℚ) : sub (fin a) (fin b) ≠ nan := ofRat_ne_nan _

theorem ne_nan_of_lt_left {a b : F32} (h : a.lt b = true) : a ≠ nan := by
  intro ha; subst ha; simp [lt] at h

theorem ne_nan_of_lt_right {a b : F32} (h : a.lt b = true) : b ≠ nan := by
  intro hb; subst hb; cases a <;> simp [lt] at h

theorem le_of_lt {a b : F32} (h : a.lt b = true) : a.le b = true := by
  cases a <;> cases b <;> simp [lt, le] at h ⊢
  exact h.le

theorem le_of_not_lt {a b : F32} (ha : a ≠ nan) (hb : b ≠ nan) (h : a.lt b = false) :
    b.le a = true := by
  cases a <;> cases b <;> simp [lt, le] at h ha hb ⊢
  exact h

theorem not_lt_of_le {a b : F32} (h : a.le b = true) : b.lt a = false := by
  cases a <;> cases b <;> simp [lt, le] at h ⊢
  exact h

theorem le_rfl {a : F32} (ha : a ≠ nan) : a.le a = true := by
  cases a <;> simp [le] at ha ⊢

theorem le_trans {a b c : F32} (h1 : a.le b = true) (h2 : b.le c = true) : a.le c = true := by
  cases a <;> cases b <;> cases c <;> simp [le] at h1 h2 ⊢
  linarith

theorem lt_of_lt_of_le {a b c : F32} (h1 : a.lt b = true) (h2 : b.le c = true) :
    a.lt c = true := by
  cases a <;> cases b <;> cases c <;> simp [lt, le] at h1 h2 ⊢
  linarith

theorem lt_of_le_of_lt {a b c : F32} (h1 : a.le b = true) (h2 : b.lt c = true) :
    a.lt c = true := by
  cases a <;> cases b <;> cases c <;> simp [lt, le] at h1 h2 ⊢
  linarith

theorem lt_trans {a b c : F32} (h1 : a.lt b = true) (h2 : b.lt c = true) : a.lt c = true :=
  lt_of_lt_of_le h1 (le_of_lt h2)

theorem lt_irrefl (a : F32) : a.lt a = false := by
  cases a <;> simp [lt]

end F32

/-! ## The float midpoint of two floats -/

namespace F32

theorem ofRat_pinf_of_ge {x : ℚ} (h : pow2 128 ≤ x) : ofRat x = pinf := by
  have hx : 0 < x := by linarith [pow2_pos 128]
  unfold ofRat
  rw [abs_of_pos hx, if_pos (roundMag_overflow h), if_neg (not_lt.2 hx.le)]

theorem ofRat_ninf_of_le {x : ℚ} (h : x ≤ -pow2 128) : ofRat x = ninf := by
  have hx : x < 0 := by linarith [pow2_pos 128]
  unfold ofRat
  rw [abs_of_neg hx, if_pos (roundMag_overflow (by linarith)), if_pos hx]

/-- A finite float a sum of at most `2 * hi` rounds to is at most `2 * hi`. -/
theorem fin_le_double {x s hi : ℚ} (hhi : IsFloat hi) (hx : x ≤ 2 * hi) (hs : ofRat x = fin s) :
    s ≤ 2 * hi := by
  by_cases hov : |2 * hi| < pow2 128
  · have := ofRat_le_of_le (isFloat_double hhi hov) hx
    rw [hs] at this
    exact (le_fin_fin _ _).1 this
  · have hov' : pow2 128 ≤ |2 * hi| := not_lt.1 hov
    by_cases h0 : 0 ≤ hi
    · rw [abs_of_nonneg (by linarith)] at hov'
      have := fin_abs_lt hs
      have := le_abs_self s
      linarith
    · rw [abs_of_neg (by linarith)] at hov'
      have := ofRat_ninf_of_le (x := x) (by linarith)
      rw [hs] at this
      cases this

/-- A finite float a sum of at least `2 * lo` rounds to is at least `2 * lo`. -/
theorem double_le_fin {x s lo : ℚ} (hlo : IsFloat lo) (hx : 2 * lo ≤ x) (hs : ofRat x = fin s) :
    2 * lo ≤ s := by
  by_cases hov : |2 * lo| < pow2 128
  · have := le_ofRat_of_le (isFloat_double hlo hov) hx
    rw [hs] at this
    exact (le_fin_fin _ _).1 this
  · have hov' : pow2 128 ≤ |2 * lo| := not_lt.1 hov
    by_cases h0 : 0 ≤ lo
    · rw [abs_of_nonneg (by linarith)] at hov'
      have := ofRat_pinf_of_ge (x := x) (by linarith)
      rw [hs] at this
      cases this
    · rw [abs_of_neg (by linarith)] at hov'
      have := fin_abs_lt hs
      have := neg_abs_le s
      linarith

end F32

/-- The float midpoint of two floats `lo ≤ hi` is a float between them, unless
the sum overflows to an infinity. -/
theorem bisect_fin (lo hi : ℚ) (hlo : F32.IsFloat lo) (hhi : F32.IsFloat hi) (hle : lo ≤ hi) :
    (∃ m, bisect (F32.fin lo) (F32.fin hi) = F32.fin m ∧ F32.IsFloat m ∧ lo ≤ m ∧ m ≤ hi) ∨
    bisect (F32.fin lo) (F32.fin hi) = F32.pinf ∨
    bisect (F32.fin lo) (F32.fin hi) = F32.ninf := by
  unfold bisect
  simp only [F32.add]
  cases hs : F32.ofRat (lo + hi) with
  | nan => exact absurd hs (F32.ofRat_ne_nan _)
  | ninf => right; right; simp [F32.div]
  | pinf => right; left; simp [F32.div]
  | fin s =>
    left
    have h1 : 2 * lo ≤ s := F32.double_le_fin hlo (by linarith) hs
    have h2 : s ≤ 2 * hi := F32.fin_le_double hhi (by linarith) hs
    obtain ⟨m, hm, h3, h4, h5⟩ := F32.ofRat_between (x := s / 2) hlo hhi (by linarith) (by linarith)
    refine ⟨m, ?_, h5, h3, h4⟩
    simp only [F32.div]
    rw [if_neg (by norm_num), hm]

theorem bisect_pinf (lo : ℚ) : bisect (F32.fin lo) F32.pinf = F32.pinf := by
  simp [bisect, F32.add, F32.div]

theorem bisect_ninf (hi : ℚ) : bisect F32.ninf (F32.fin hi) = F32.ninf := by
  simp [bisect, F32.add, F32.div]

/-! ## Finite results of float operations -/

namespace F32

/-- A finite product has finite factors. -/
theorem mul_eq_fin {a b : F32} {c : ℚ} (h : mul a b = fin c) : ∃ x y, a = fin x ∧ b = fin y := by
  cases a <;> cases b <;> first
    | exact ⟨_, _, rfl, rfl⟩
    | (simp only [mul] at h; cases h)
    | (simp only [mul] at h; split_ifs at h)

/-- A finite sum has finite terms. -/
theorem add_eq_fin {a b : F32} {c : ℚ} (h : add a b = fin c) : ∃ x y, a = fin x ∧ b = fin y := by
  cases a <;> cases b <;> first
    | exact ⟨_, _, rfl, rfl⟩
    | (simp only [add] at h; cases h)

/-- Rounding is monotone: below a value that rounds to a finite float, a
value that is not negative rounds to a finite float that is not larger. -/
theorem ofRat_fin_mono {x y t : ℚ} (h0 : 0 ≤ x) (hxy : x ≤ y) (hy : ofRat y = fin t) :
    ∃ s, ofRat x = fin s ∧ 0 ≤ s ∧ s ≤ t := by
  have h1 := le_ofRat_of_le (A := 0) ofRat_zero h0
  have h2 := ofRat_mono hxy
  rw [hy] at h2
  exact fin_of_le_of_le h1 h2

theorem isFloat_zero : IsFloat 0 := ofRat_zero

theorem isFloat_one : IsFloat 1 := by decide!

theorem isFloat_pow64 : IsFloat 18446744073709551616 := by decide!

theorem isFloat_pow65 : IsFloat 36893488147419103232 := by decide!

theorem isFloat_pow70 : IsFloat 1180591620717411303424 := by decide!

theorem isFloat_pow71 : IsFloat 2361183241434822606848 := by decide!

theorem ofRat_fifteen : ofRat 15 = fin 15 := by decide!

theorem ofRat_twenty : ofRat 20 = fin 20 := by decide!

/-- The float `0.8f`. -/
theorem ofRat_four_fifths : ofRat (4 / 5) = fin (13421773 / 16777216) := by decide!

/-- The surface area of a box with finite sides that are not negative is
monotone in the sides, as long as it is finite. -/
theorem area3_mono {a b c a' b' c' A : ℚ} (ha : 0 ≤ a') (haa : a' ≤ a) (hb : 0 ≤ b')
    (hbb : b' ≤ b) (hc : 0 ≤ c') (hcc : c' ≤ c)
    (h : area3 (fin a) (fin b) (fin c) = fin A) :
    ∃ A', area3 (fin a') (fin b') (fin c') = fin A' ∧ 0 ≤ A' ∧ A' ≤ A := by
  unfold area3 at h ⊢
  obtain ⟨_, S, h2, hS⟩ := mul_eq_fin h
  obtain ⟨S1, P3, hS1, hP3⟩ := add_eq_fin hS
  obtain ⟨P1, P2, hP1, hP2⟩ := add_eq_fin hS1
  rw [hS] at h
  rw [hS1, hP3] at hS
  rw [hP1, hP2] at hS1
  have e1 : ofRat (a * b) = fin P1 := hP1
  have e2 : ofRat (b * c) = fin P2 := hP2
  have e3 : ofRat (c * a) = fin P3 := hP3
  have e4 : ofRat (P1 + P2) = fin S1 := hS1
  have e5 : ofRat (S1 + P3) = fin S := hS
  have e6 : ofRat (2 * S) = fin A := h
  obtain ⟨p1, f1, g1, k1⟩ := ofRat_fin_mono (mul_nonneg ha hb)
    (mul_le_mul haa hbb hb (by linarith)) e1
  obtain ⟨p2, f2, g2, k2⟩ := ofRat_fin_mono (mul_nonneg hb hc)
    (mul_le_mul hbb hcc hc (by linarith)) e2
  obtain ⟨p3, f3, g3, k3⟩ := ofRat_fin_mono (mul_nonneg hc ha)
    (mul_le_mul hcc haa ha (by linarith)) e3
  obtain ⟨s1, f4, g4, k4⟩ := ofRat_fin_mono (x := p1 + p2) (by linarith) (by linarith) e4
  obtain ⟨s, f5, g5, k5⟩ := ofRat_fin_mono (x := s1 + p3) (by linarith) (by linarith) e5
  obtain ⟨A', f6, g6, k6⟩ := ofRat_fin_mono (x := 2 * s) (by linarith) (by linarith) e6
  refine ⟨A', ?_, g6, k6⟩
  have d1 : mul (fin a') (fin b') = fin p1 := f1
  have d2 : mul (fin b') (fin c') = fin p2 := f2
  have d3 : mul (fin c') (fin a') = fin p3 := f3
  rw [d1, d2, d3]
  have d4 : add (fin p1) (fin p2) = fin s1 := f4
  rw [d4]
  have d5 : add (fin s1) (fin p3) = fin s := f5
  rw [d5]
  exact f6

/-- A finite surface area has finite sides. -/
theorem area3_fin_sides {dx dy dz : F32} {A : ℚ} (h : area3 dx dy dz = fin A) :
    ∃ a b c, dx = fin a ∧ dy = fin b ∧ dz = fin c := by
  unfold area3 at h
  obtain ⟨_, S, _, hS⟩ := mul_eq_fin h
  obtain ⟨S1, P3, hS1, hP3⟩ := add_eq_fin hS
  obtain ⟨P1, P2, hP1, hP2⟩ := add_eq_fin hS1
  obtain ⟨a, b, ha, hb⟩ := mul_eq_fin hP1
  obtain ⟨_, c, _, hc⟩ := mul_eq_fin hP2
  exact ⟨a, b, c, ha, hb, hc⟩

end F32

/-! ## The spatial-median split -/

theorem splitFold_eq (axis : Axis) (ts : Triangles) (s : SplitState) :
    ts.foldl
      (fun acc triangle =>
        if (F32.fin (triangle.midpoint.get axis)).lt acc.axis_midpt then
          { acc with lft_triangles := acc.lft_triangles ++ [triangle] }
        else
          { acc with rht_triangles := acc.rht_triangles ++ [triangle] }) s
    = { s with
        lft_triangles := s.lft_triangles ++ ts.filter (goesLeft axis s.axis_midpt)
        rht_triangles := s.rht_triangles ++ ts.filter (fun t => !goesLeft axis s.axis_midpt t) } := by
  induction ts generalizing s with
  | nil => simp
  | cons t ts ih =>
    rw [List.foldl_cons, ih]
    by_cases h : (F32.fin (t.midpoint.get axis)).lt s.axis_midpt = true
    · simp [goesLeft, h, List.filter_cons]
    · simp [goesLeft, h, List.filter_cons]

/-- After one pass of the loop body from a state satisfying the loop
condition, the two lists are the partition of the input at the new
`axis_midpt`, which bisects the new range. -/
theorem splitBody_eq (axis : Axis) (ts : Triangles) (s : SplitState) (h : splitCond s = true) :
    ∃ lo hi, splitBody axis ts s =
      { min := lo, max := hi, axis_midpt := bisect lo hi
        lft_triangles := ts.filter (goesLeft axis (bisect lo hi))
        rht_triangles := ts.filter (fun t => !goesLeft axis (bisect lo hi) t) } := by
  unfold splitBody
  simp only [splitFold_eq]
  unfold splitCond at h
  cases hl : s.lft_triangles with
  | cons a l =>
    have hr : s.rht_triangles = [] := by
      cases hr : s.rht_triangles with
      | nil => rfl
      | cons b r => simp [hl, hr] at h
    exact ⟨s.min, s.axis_midpt, by simp [hr]⟩
  | nil =>
    cases hr : s.rht_triangles with
    | nil => exact ⟨s.min, s.max, by simp [hl, hr]⟩
    | cons b r => exact ⟨s.axis_midpt, s.max, by simp [hl]⟩

/-- The state in which the loop stops is either the state it started from,
with both lists non-empty, or the result of a pass of the loop body. -/
theorem splitLoop_ok (axis : Axis) (ts : Triangles) (fuel : Nat) (s s' : SplitState)
    (h : splitLoop axis ts fuel s = Except.ok s') :
    splitCond s' = false ∧
    (s' = s ∨ ∃ lo hi, s' =
      { min := lo, max := hi, axis_midpt := bisect lo hi
        lft_triangles := ts.filter (goesLeft axis (bisect lo hi))
        rht_triangles := ts.filter (fun t => !goesLeft axis (bisect lo hi) t) }) := by
  induction fuel generalizing s with
  | zero =>
    unfold splitLoop at h
    by_cases hc : splitCond s = true
    · simp [hc] at h
    · simp [hc] at h
      subst h
      exact ⟨by simpa using hc, Or.inl rfl⟩
  | succ n ih =>
    unfold splitLoop at h
    by_cases hc : splitCond s = true
    · simp only [hc, if_true] at h
      obtain ⟨h1, h2⟩ := ih _ h
      refine ⟨h1, Or.inr ?_⟩
      rcases h2 with h2 | h2
      · rw [h2]; exact splitBody_eq axis ts s hc
      · exact h2
    · simp [hc] at h
      subst h
      exact ⟨by simpa using hc, Or.inl rfl⟩

/-- What `split_at_spatial_median` returns: the partition of the input at a
threshold `m`, both sides non-empty. -/
theorem split_at_spatial_median_ok (fuel : Nat) (axis : Axis) (bbox : Box)
    (ts l r : Triangles)
    (h : split_at_spatial_median fuel axis bbox ts = Except.ok (l, r)) :
    ∃ m, l = ts.filter (goesLeft axis m) ∧ r = ts.filter (fun t => !goesLeft axis m t) ∧
      l ≠ [] ∧ r ≠ [] := by
  unfold split_at_spatial_median at h
  split at h
  · cases h
  · rename_i s hs
    injection h with h
    injection h with h1 h2
    obtain ⟨hc, hcase⟩ := splitLoop_ok _ _ _ _ _ hs
    rcases hcase with hcase | ⟨lo, hi, hcase⟩
    · rw [hcase] at hc; simp [splitCond] at hc
    · have hl : l ≠ [] := by
        intro hl; rw [← h1] at hl; simp [splitCond, hl] at hc
      have hr : r ≠ [] := by
        intro hr; rw [← h2] at hr; simp [splitCond, hr] at hc
      refine ⟨bisect lo hi, ?_, ?_, hl, hr⟩
      · rw [← h1, hcase]
      · rw [← h2, hcase]

/-! ## Shape of the trees the constructor returns -/

/-- Every tree the constructor returns has the shape `Built`. -/
theorem build_built (cap fuel : Nat) (ts : Triangles) (tree : KDTree)
    (h : build cap fuel ts = Except.ok tree) : Built cap ts tree := by
  induction fuel generalizing ts tree with
  | zero =>
    cases ts with
    | nil => simp [build] at h; subst h; exact Built.empty
    | cons a l => simp [build] at h
  | succ n ih =>
    cases ts with
    | nil => simp [build] at h; subst h; exact Built.empty
    | cons first rest =>
      rw [build] at h
      by_cases hb : (boundingBox first rest).min.lt (boundingBox first rest).max = true
      · by_cases hc : (first :: rest).length ≤ cap
        · simp only [hb, hc, Bool.not_true, Bool.false_eq_true, if_false, if_true] at h
          injection h with h
          subst h
          exact Built.leaf first rest hb hc
        · simp only [hb, hc, Bool.not_true, Bool.false_eq_true, if_false] at h
          split at h
          · cases h
          · rename_i split hsplit
            obtain ⟨l, r⟩ := split
            obtain ⟨m, hl, hr, hln, hrn⟩ := split_at_spatial_median_ok _ _ _ _ _ _ hsplit
            split at h
            · cases h
            · rename_i lft hlft
              split at h
              · cases h
              · rename_i rht hrht
                injection h with h
                subst h
                have h1 := ih _ _ hlft
                have h2 := ih _ _ hrht
                simp only at h1 h2
                rw [hl] at h1 hln
                rw [hr] at h2 hrn
                exact Built.inner first rest m lft rht hb (by omega) hln hrn h1 h2
      · simp [hb] at h

/-- A tree built from a non-empty list is not the empty tree. -/
theorem KDTree.Built.empty_eq_false {cap : Nat} {ts : Triangles} {tree : KDTree}
    (h : Built cap ts tree) (hne : ts ≠ []) : tree.empty = false := by
  cases h with
  | empty => exact absurd rfl hne
  | leaf first rest _ _ => rfl
  | inner first rest m lft rht _ _ _ _ _ _ => rfl

/-- A non-empty tree is built from a non-empty list. -/
theorem KDTree.Built.ne_nil_of_empty_eq_false {cap : Nat} {ts : Triangles} {tree : KDTree}
    (h : Built cap ts tree) (hne : tree.empty = false) : ts ≠ [] := by
  cases h with
  | empty => simp [KDTree.empty] at hne
  | leaf first rest _ _ => simp
  | inner first rest m lft rht _ _ _ _ _ _ => simp

/-- The inner node of a `Built` tree is not a leaf. -/
theorem KDTree.Built.inner_not_leaf {cap : Nat} {l : Triangles} {lft : KDTree} (rht : KDTree) (b : Box) (ax : Axis)
    (hl : Built cap l lft) (hln : l ≠ []) :
    (innerNode b ax lft rht).is_leaf = false := by
  have := hl.empty_eq_false hln
  simp [innerNode, is_leaf, this]

theorem KDTree.Built.leafTriangles_perm {cap : Nat} {ts : Triangles} {tree : KDTree}
    (h : Built cap ts tree) : (leafTriangles tree).Perm ts := by
  induction h with
  | empty => simp [leafTriangles, leafLists]
  | leaf first rest _ _ => simp [leafTriangles, leafLists, leafNode, is_leaf, KDTree.empty]
  | inner first rest m lft rht _ _ hln _ hl hr ihl ihr =>
    have hnl := Built.inner_not_leaf rht (boundingBox first rest)
      (chooseAxis (boundingBox first rest)) hl hln
    unfold leafTriangles at *
    unfold innerNode at *
    rw [leafLists]
    simp only [hnl, Bool.false_eq_true, if_false, List.flatten_append]
    exact (List.Perm.append ihl ihr).trans (List.filter_append_perm _ _)

/-! ## Leaf coverage and node shape -/

/-- C3: when the simple build returns a tree for `ts`, the triangles of all
leaves, collected together, are a permutation of `ts`: every triangle occurs
in the leaves exactly as many times as in `ts`, none is lost or duplicated. -/
theorem kdtree_leaves_partition (cap fuel : Nat) (ts : Triangles) (tree : KDTree)
    (h : build cap fuel ts = Except.ok tree) :
    (leafTriangles tree).Perm ts ∧ ∀ t, (leafTriangles tree).count t = ts.count t := by
  have hp := (build_built cap fuel ts tree h).leafTriangles_perm
  exact ⟨hp, fun t => hp.count_eq t⟩

theorem kdtree_leaves_partition_witness :
    build 1 2 [triUnit, triShifted] = Except.ok twoLeafTree ∧
    ((leafTriangles twoLeafTree).Perm [triUnit, triShifted] ∧
      ∀ t, (leafTriangles twoLeafTree).count t = [triUnit, triShifted].count t) :=
  ⟨by decide!, kdtree_leaves_partition 1 2 [triUnit, triShifted] twoLeafTree (by decide!)⟩

theorem KDTree.Built.node_shape {cap : Nat} {ts : Triangles} {tree : KDTree}
    (h : Built cap ts tree) :
    ∀ n ∈ nodes tree,
      (n.is_leaf = true ∧ ∃ tl, n.triangles = some tl ∧ 1 ≤ tl.length ∧ tl.length ≤ cap) ∨
      (n.is_leaf = false ∧ n.left.empty = false ∧ n.right.empty = false) := by
  induction h with
  | empty => intro n hn; simp [nodes] at hn
  | leaf first rest _ hc =>
    intro n hn
    simp only [leafNode, nodes, List.append_nil, List.mem_singleton] at hn
    subst hn
    left
    refine ⟨rfl, first :: rest, ?_, by simp, hc⟩
    simp [triangles, is_leaf, KDTree.empty]
  | inner first rest m lft rht _ _ hln hrn hl hr ihl ihr =>
    intro n hn
    simp only [innerNode, nodes, List.mem_cons, List.mem_append] at hn
    rcases hn with hn | hn | hn
    · subst hn
      right
      have h1 := hl.empty_eq_false hln
      have h2 := hr.empty_eq_false hrn
      simp [is_leaf, left, right, h1, h2]
    · exact ihl n hn
    · exact ihr n hn

/-- C4: every node of a tree the constructor returns is either a leaf
(`is_leaf()` true) holding at least 1 and at most `LEAF_CAPACITY` triangles,
or a node that is not a leaf and whose left and right subtrees are both
non-empty.  This holds for every leaf capacity. -/
theorem kdtree_node_shape (cap fuel : Nat) (ts : Triangles) (tree : KDTree)
    (h : build cap fuel ts = Except.ok tree) :
    ∀ n ∈ nodes tree,
      (n.is_leaf = true ∧ ∃ tl, n.triangles = some tl ∧ 1 ≤ tl.length ∧ tl.length ≤ cap) ∨
      (n.is_leaf = false ∧ n.left.empty = false ∧ n.right.empty = false) :=
  (build_built cap fuel ts tree h).node_shape

theorem kdtree_node_shape_witness :
    build 1 2 [triUnit, triShifted] = Except.ok twoLeafTree ∧
    ∀ n ∈ nodes twoLeafTree,
      (n.is_leaf = true ∧ ∃ tl, n.triangles = some tl ∧ 1 ≤ tl.length ∧ tl.length ≤ 1) ∨
      (n.is_leaf = false ∧ n.left.empty = false ∧ n.right.empty = false) :=
  ⟨by decide!, kdtree_node_shape 1 2 [triUnit, triShifted] twoLeafTree (by decide!)⟩

/-! ## Split axis -/

/-- The axis selection in terms of the three sides the constructor computes. -/
theorem chooseAxis_eq (box : Box) :
    chooseAxis box =
      if (extent box Axis.X).gt (extent box Axis.Y) && (extent box Axis.X).gt (extent box Axis.Z)
      then Axis.X
      else if (extent box Axis.Y).gt (extent box Axis.Z) then Axis.Y else Axis.Z := rfl

theorem extent_ne_nan (box : Box) (a : Axis) : extent box a ≠ F32.nan :=
  F32.sub_fin_ne_nan _ _

/-- No side of a box, as the constructor computes the sides, is longer than
the side along the chosen axis. -/
theorem chooseAxis_longest (box : Box) (a : Axis) :
    (extent box a).le (extent box (chooseAxis box)) = true := by
  have hx := extent_ne_nan box Axis.X
  have hy := extent_ne_nan box Axis.Y
  have hz := extent_ne_nan box Axis.Z
  rw [chooseAxis_eq]
  simp only [F32.gt]
  by_cases h1 : (extent box Axis.Y).lt (extent box Axis.X) = true
  · by_cases h2 : (extent box Axis.Z).lt (extent box Axis.X) = true
    · simp only [h1, h2, Bool.and_self, if_true]
      cases a
      · exact F32.le_rfl hx
      · exact F32.le_of_lt h1
      · exact F32.le_of_lt h2
    · have h2' : (extent box Axis.Z).lt (extent box Axis.X) = false := by simpa using h2
      have hxz := F32.le_of_not_lt hz hx h2'
      simp only [h1, h2', Bool.and_false, Bool.false_eq_true, if_false]
      have hyz : (extent box Axis.Z).lt (extent box Axis.Y) = false :=
        F32.not_lt_of_le (F32.le_trans (F32.le_of_lt h1) hxz)
      simp only [hyz, Bool.false_eq_true, if_false]
      cases a
      · exact hxz
      · exact F32.le_trans (F32.le_of_lt h1) hxz
      · exact F32.le_rfl hz
  · have h1' : (extent box Axis.Y).lt (extent box Axis.X) = false := by simpa using h1
    have hxy := F32.le_of_not_lt hy hx h1'
    simp only [h1', Bool.false_and, Bool.false_eq_true, if_false]
    by_cases h3 : (extent box Axis.Z).lt (extent box Axis.Y) = true
    · simp only [h3, if_true]
      cases a
      · exact hxy
      · exact F32.le_rfl hy
      · exact F32.le_of_lt h3
    · have h3' : (extent box Axis.Z).lt (extent box Axis.Y) = false := by simpa using h3
      have hyz := F32.le_of_not_lt hz hy h3'
      simp only [h3', Bool.false_eq_true, if_false]
      cases a
      · exact F32.le_trans hxy hyz
      · exact hyz
      · exact F32.le_rfl hz

theorem KDTree.Built.node_axis {cap : Nat} {ts : Triangles} {tree : KDTree}
    (h : Built cap ts tree) :
    ∀ n ∈ nodes tree, ∃ b, n.bbox = some b ∧ n.splitaxis = some (chooseAxis b) := by
  induction h with
  | empty => intro n hn; simp [nodes] at hn
  | leaf first rest _ hc =>
    intro n hn
    simp only [leafNode, nodes, List.append_nil, List.mem_singleton] at hn
    subst hn
    exact ⟨_, rfl, rfl⟩
  | inner first rest m lft rht _ _ hln hrn hl hr ihl ihr =>
    intro n hn
    simp only [innerNode, nodes, List.mem_cons, List.mem_append] at hn
    rcases hn with hn | hn | hn
    · subst hn
      exact ⟨_, rfl, rfl⟩
    · exact ihl n hn
    · exact ihr n hn

/-- C6, as stated, fails.  The box of `triWide` has the sides `2^24 + 1` along
X and `2^24` along Y; the constructor computes both as the float `2^24`
(`2^24 + 1` is a tie and rounds to the even significand), finds `dx > dy`
false and stores the axis Y, which is not a longest side of the box. -/
theorem kdtree_splitaxis_longest_counterexample :
    build 10 1 [triWide] = Except.ok (leafNode wideBox Axis.Y [triWide]) ∧
    (leafNode wideBox Axis.Y [triWide]).bbox = some wideBox ∧
    (leafNode wideBox Axis.Y [triWide]).splitaxis = some Axis.Y ∧
    wideBox.max.get Axis.Y - wideBox.min.get Axis.Y
      < wideBox.max.get Axis.X - wideBox.min.get Axis.X ∧
    extent wideBox Axis.X = 16777216 ∧ extent wideBox Axis.Y = 16777216 := by
  decide!

/-- C6, amended: in a tree the constructor returns, the split axis stored in a
node is a longest side of the box stored in that node with the sides as the
constructor computes them, in `float`: the float `max[axis] - min[axis]` is
at least the float `max[a] - min[a]` for each axis `a`.  When the three
differences are computed without rounding error, the axis is a longest side
of the box. -/
theorem kdtree_splitaxis_longest (cap fuel : Nat) (ts : Triangles) (tree : KDTree)
    (h : build cap fuel ts = Except.ok tree) :
    ∀ n ∈ nodes tree, ∃ b ax, n.bbox = some b ∧ n.splitaxis = some ax ∧
      (∀ a : Axis, (extent b a).le (extent b ax) = true) ∧
      ((∀ a : Axis, extent b a = F32.fin (b.max.get a - b.min.get a)) →
        ∀ a : Axis, b.max.get a - b.min.get a ≤ b.max.get ax - b.min.get ax) := by
  intro n hn
  obtain ⟨b, hb, hax⟩ := (build_built cap fuel ts tree h).node_axis n hn
  refine ⟨b, chooseAxis b, hb, hax, chooseAxis_longest b, ?_⟩
  intro hex a
  have := chooseAxis_longest b a
  rw [hex a, hex (chooseAxis b)] at this
  exact (F32.le_fin_fin _ _).1 this

theorem kdtree_splitaxis_longest_witness :
    build 1 2 [triUnit, triShifted] = Except.ok twoLeafTree ∧
    ∀ n ∈ nodes twoLeafTree, ∃ b ax, n.bbox = some b ∧ n.splitaxis = some ax ∧
      (∀ a : Axis, (extent b a).le (extent b ax) = true) ∧
      ((∀ a : Axis, extent b a = F32.fin (b.max.get a - b.min.get a)) →
        ∀ a : Axis, b.max.get a - b.min.get a ≤ b.max.get ax - b.min.get ax) :=
  ⟨by decide!, kdtree_splitaxis_longest 1 2 [triUnit, triShifted] twoLeafTree (by decide!)⟩

/-- C7, as stated, fails.  The box of `triFlat` has the sides `dx = dy = 1`
and `dz = 0` (exactly, and as the constructor computes them), so `dx >= dy`
and `dx >= dz`, and the constructor stores the axis Y, not X.  The box of
`triUpright` has the sides `dx = 0` and `dy = dz = 1`, so `dy > dx` and
`dy >= dz`, and the constructor stores the axis Z, not Y. -/
theorem kdtree_tie_break_counterexample :
    (build 1 1 [triFlat] = Except.ok flatLeaf ∧ flatLeaf.bbox = some flatBox ∧
      (flatBox.max.x - flatBox.min.x ≥ flatBox.max.y - flatBox.min.y ∧
        flatBox.max.x - flatBox.min.x ≥ flatBox.max.z - flatBox.min.z) ∧
      flatLeaf.splitaxis = some Axis.Y ∧ flatLeaf.splitaxis ≠ some Axis.X) ∧
    (build 1 1 [triUpright] = Except.ok uprightLeaf ∧ uprightLeaf.bbox = some uprightBox ∧
      (uprightBox.max.y - uprightBox.min.y > uprightBox.max.x - uprightBox.min.x ∧
        uprightBox.max.y - uprightBox.min.y ≥ uprightBox.max.z - uprightBox.min.z) ∧
      uprightLeaf.splitaxis = some Axis.Z ∧ uprightLeaf.splitaxis ≠ some Axis.Y) ∧
    (extent flatBox Axis.X = 1 ∧ extent flatBox Axis.Y = 1 ∧ extent flatBox Axis.Z = 0) ∧
    (extent uprightBox Axis.X = 0 ∧ extent uprightBox Axis.Y = 1 ∧
      extent uprightBox Axis.Z = 1) := by
  decide!

/-- C7, amended: in a tree the constructor returns, a node whose box has the
sides `dx, dy, dz`, as the constructor computes them in `float`, stores X
exactly when `dx > dy` and `dx > dz`; otherwise Y exactly when `dy > dz`;
otherwise Z.  Ties for longest go to Z over Y over X. -/
theorem kdtree_tie_break (cap fuel : Nat) (ts : Triangles) (tree : KDTree)
    (h : build cap fuel ts = Except.ok tree) :
    ∀ n ∈ nodes tree, ∃ b ax, n.bbox = some b ∧ n.splitaxis = some ax ∧
      (ax = Axis.X ↔ ((extent b Axis.X).gt (extent b Axis.Y) = true ∧
        (extent b Axis.X).gt (extent b Axis.Z) = true)) ∧
      (ax = Axis.Y ↔ (¬ ((extent b Axis.X).gt (extent b Axis.Y) = true ∧
          (extent b Axis.X).gt (extent b Axis.Z) = true) ∧
        (extent b Axis.Y).gt (extent b Axis.Z) = true)) ∧
      (ax = Axis.Z ↔ (¬ ((extent b Axis.X).gt (extent b Axis.Y) = true ∧
          (extent b Axis.X).gt (extent b Axis.Z) = true) ∧
        ¬ (extent b Axis.Y).gt (extent b Axis.Z) = true)) := by
  intro n hn
  obtain ⟨b, hb, hax⟩ := (build_built cap fuel ts tree h).node_axis n hn
  refine ⟨b, chooseAxis b, hb, hax, ?_⟩
  rw [chooseAxis_eq]
  by_cases h1 : ((extent b Axis.X).gt (extent b Axis.Y) = true ∧
      (extent b Axis.X).gt (extent b Axis.Z) = true)
  · simp [h1.1, h1.2]
  · have h1' : ((extent b Axis.X).gt (extent b Axis.Y) &&
        (extent b Axis.X).gt (extent b Axis.Z)) = false := by
      rw [Bool.and_eq_false_iff]
      rw [not_and_or] at h1
      rcases h1 with h1 | h1
      · left; simpa using h1
      · right; simpa using h1
    rw [h1']
    by_cases h2 : (extent b Axis.Y).gt (extent b Axis.Z) = true
    · simp [h1, h2]
    · simp [h1, h2]

theorem kdtree_tie_break_witness :
    build 1 1 [triFlat] = Except.ok flatLeaf ∧
    ∀ n ∈ nodes flatLeaf,
      ∃ b ax, n.bbox = some b ∧ n.splitaxis = some ax ∧
      (ax = Axis.X ↔ ((extent b Axis.X).gt (extent b Axis.Y) = true ∧
        (extent b Axis.X).gt (extent b Axis.Z) = true)) ∧
      (ax = Axis.Y ↔ (¬ ((extent b Axis.X).gt (extent b Axis.Y) = true ∧
          (extent b Axis.X).gt (extent b Axis.Z) = true) ∧
        (extent b Axis.Y).gt (extent b Axis.Z) = true)) ∧
      (ax = Axis.Z ↔ (¬ ((extent b Axis.X).gt (extent b Axis.Y) = true ∧
          (extent b Axis.X).gt (extent b Axis.Z) = true) ∧
        ¬ (extent b Axis.Y).gt (extent b Axis.Z) = true)) :=
  ⟨by decide!, kdtree_tie_break 1 1 [triFlat] flatLeaf (by decide!)⟩

/-! ## Bounding boxes -/

theorem Vec.ext_get {v w : Vec} (h : ∀ a : Axis, v.get a = w.get a) : v = w := by
  cases v; cases w
  have hx := h Axis.X
  have hy := h Axis.Y
  have hz := h Axis.Z
  simp only [Vec.get] at hx hy hz
  simp [hx, hy, hz]

theorem Box.union_min_get (b1 b2 : Box) (a : Axis) :
    (b1.union b2).min.get a = Min.min (b1.min.get a) (b2.min.get a) := by
  cases a <;> rfl

theorem Box.union_max_get (b1 b2 : Box) (a : Axis) :
    (b1.union b2).max.get a = Max.max (b1.max.get a) (b2.max.get a) := by
  cases a <;> rfl

theorem Box.contains_iff_get (b c : Box) :
    b.contains c ↔ ∀ a : Axis, b.min.get a ≤ c.min.get a ∧ c.max.get a ≤ b.max.get a := by
  unfold Box.contains
  constructor
  · rintro ⟨⟨h1, h2, h3⟩, h4, h5, h6⟩ a
    cases a <;> simp [Vec.get, *]
  · intro h
    have hx := h Axis.X
    have hy := h Axis.Y
    have hz := h Axis.Z
    simp only [Vec.get] at hx hy hz
    exact ⟨⟨hx.1, hy.1, hz.1⟩, hx.2, hy.2, hz.2⟩

theorem Box.union_contains_left (b1 b2 : Box) : (b1.union b2).contains b1 := by
  rw [Box.contains_iff_get]
  intro a
  rw [Box.union_min_get, Box.union_max_get]
  exact ⟨min_le_left _ _, le_max_left _ _⟩

theorem Box.union_contains_right (b1 b2 : Box) : (b1.union b2).contains b2 := by
  rw [Box.contains_iff_get]
  intro a
  rw [Box.union_min_get, Box.union_max_get]
  exact ⟨min_le_right _ _, le_max_right _ _⟩

theorem KDTree.IsBBox.single (t : Triangle) : IsBBox t.bbox [t] := by
  intro a
  refine ⟨?_, ⟨t, by simp, rfl⟩, ⟨t, by simp, rfl⟩⟩
  intro t' ht'
  simp only [List.mem_singleton] at ht'
  subst ht'
  exact ⟨le_refl _, le_refl _⟩

/-- The union of the boxes of two lists is the box of any list with the same
members. -/
theorem KDTree.IsBBox.union {b1 b2 : Box} {l r ts : Triangles}
    (h1 : IsBBox b1 l) (h2 : IsBBox b2 r) (hmem : ∀ t, t ∈ ts ↔ t ∈ l ∨ t ∈ r) :
    IsBBox (b1.union b2) ts := by
  intro a
  obtain ⟨hl1, ⟨tl, htl, hle⟩, ⟨tl', htl', hle'⟩⟩ := h1 a
  obtain ⟨hr1, ⟨tr, htr, hre⟩, ⟨tr', htr', hre'⟩⟩ := h2 a
  rw [Box.union_min_get, Box.union_max_get]
  refine ⟨?_, ?_, ?_⟩
  · intro t ht
    rcases (hmem t).1 ht with ht | ht
    · exact ⟨le_trans (min_le_left _ _) (hl1 t ht).1, le_trans (hl1 t ht).2 (le_max_left _ _)⟩
    · exact ⟨le_trans (min_le_right _ _) (hr1 t ht).1, le_trans (hr1 t ht).2 (le_max_right _ _)⟩
  · rcases le_total (b1.min.get a) (b2.min.get a) with h | h
    · exact ⟨tl, (hmem tl).2 (Or.inl htl), by rw [min_eq_left h, hle]⟩
    · exact ⟨tr, (hmem tr).2 (Or.inr htr), by rw [min_eq_right h, hre]⟩
  · rcases le_total (b1.max.get a) (b2.max.get a) with h | h
    · exact ⟨tr', (hmem tr').2 (Or.inr htr'), by rw [max_eq_right h, hre']⟩
    · exact ⟨tl', (hmem tl').2 (Or.inl htl'), by rw [max_eq_left h, hle']⟩

theorem KDTree.IsBBox.unique {b b' : Box} {ts : Triangles}
    (h : IsBBox b ts) (h' : IsBBox b' ts) : b = b' := by
  have hmin : b.min = b'.min := by
    apply Vec.ext_get
    intro a
    obtain ⟨h1, ⟨t, ht, he⟩, _⟩ := h a
    obtain ⟨h1', ⟨t', ht', he'⟩, _⟩ := h' a
    apply le_antisymm
    · rw [he']; exact (h1 t' ht').1
    · rw [he]; exact (h1' t ht).1
  have hmax : b.max = b'.max := by
    apply Vec.ext_get
    intro a
    obtain ⟨h1, _, ⟨t, ht, he⟩⟩ := h a
    obtain ⟨h1', _, ⟨t', ht', he'⟩⟩ := h' a
    apply le_antisymm
    · rw [he]; exact (h1' t ht).2
    · rw [he']; exact (h1 t' ht').2
  cases b; cases b'
  simp only at hmin hmax
  rw [hmin, hmax]

theorem KDTree.IsBBox.contains {b : Box} {ts : Triangles} (h : IsBBox b ts)
    (t : Triangle) (ht : t ∈ ts) : b.contains t.bbox := by
  rw [Box.contains_iff_get]
  intro a
  exact (h a).1 t ht

theorem KDTree.IsBBox.of_mem_iff {b : Box} {ts ts' : Triangles} (h : IsBBox b ts)
    (hmem : ∀ t, t ∈ ts' ↔ t ∈ ts) : IsBBox b ts' := by
  intro a
  obtain ⟨h1, ⟨t, ht, he⟩, ⟨t', ht', he'⟩⟩ := h a
  exact ⟨fun u hu => h1 u ((hmem u).1 hu), ⟨t, (hmem t).2 ht, he⟩, ⟨t', (hmem t').2 ht', he'⟩⟩

theorem isBBox_foldl (rest seen : Triangles) (b : Box) (h : IsBBox b seen) :
    IsBBox (rest.foldl (fun box t => box.union t.bbox) b) (seen ++ rest) := by
  induction rest generalizing seen b with
  | nil => simpa using h
  | cons t rest ih =>
    rw [List.foldl_cons]
    have hstep : IsBBox (b.union t.bbox) (seen ++ [t]) :=
      KDTree.IsBBox.union h (KDTree.IsBBox.single t) (by intro u; simp)
    have := ih (seen ++ [t]) _ hstep
    simpa using this

/-- The box computed at lines 50-53 is the union of the boxes of all the
triangles. -/
theorem isBBox_boundingBox (first : Triangle) (rest : Triangles) :
    IsBBox (boundingBox first rest) (first :: rest) := by
  have := isBBox_foldl rest [first] first.bbox (KDTree.IsBBox.single first)
  simpa [boundingBox] using this

/-- The root of a tree built from a non-empty list stores the union of the
boxes of the triangles of the list. -/
theorem KDTree.Built.isBBox {cap : Nat} {ts : Triangles} {tree : KDTree}
    (h : Built cap ts tree) (hne : ts ≠ []) : ∃ b, tree.bbox = some b ∧ IsBBox b ts := by
  cases h with
  | empty => exact absurd rfl hne
  | leaf first rest _ _ => exact ⟨_, rfl, isBBox_boundingBox first rest⟩
  | inner first rest m lft rht _ _ _ _ _ _ => exact ⟨_, rfl, isBBox_boundingBox first rest⟩

theorem mem_filter_goesLeft (ts : Triangles) (p : Triangle → Bool) (t : Triangle) :
    t ∈ ts ↔ t ∈ ts.filter p ∨ t ∈ ts.filter (fun u => !p u) := by
  simp only [List.mem_filter, Bool.not_eq_true']
  constructor
  · intro h
    cases hp : p t
    · exact Or.inr ⟨h, rfl⟩
    · exact Or.inl ⟨h, rfl⟩
  · rintro (h | h) <;> exact h.1

theorem KDTree.Built.node_bbox {cap : Nat} {ts : Triangles} {tree : KDTree}
    (h : Built cap ts tree) :
    ∀ n ∈ nodes tree, n.is_leaf = false →
      ∃ b bl br, n.bbox = some b ∧ n.left.bbox = some bl ∧ n.right.bbox = some br ∧
        b = bl.union br := by
  induction h with
  | empty => intro n hn; simp [nodes] at hn
  | leaf first rest _ hc =>
    intro n hn hleaf
    simp only [leafNode, nodes, List.append_nil, List.mem_singleton] at hn
    subst hn
    simp [is_leaf, KDTree.empty] at hleaf
  | inner first rest m lft rht _ _ hln hrn hl hr ihl ihr =>
    intro n hn hleaf
    simp only [innerNode, nodes, List.mem_cons, List.mem_append] at hn
    rcases hn with hn | hn | hn
    · subst hn
      obtain ⟨bl, hbl, hbl'⟩ := hl.isBBox hln
      obtain ⟨br, hbr, hbr'⟩ := hr.isBBox hrn
      refine ⟨_, bl, br, rfl, hbl, hbr, ?_⟩
      exact (isBBox_boundingBox first rest).unique
        (KDTree.IsBBox.union hbl' hbr' (mem_filter_goesLeft _ _))
    · exact ihl n hn hleaf
    · exact ihr n hn hleaf

/-- C5: in a tree the constructor returns, the box of every node that is not a
leaf equals the union (componentwise minimum of the mins and maximum of the
maxes) of the boxes of its left and right subtrees, and contains both. -/
theorem kdtree_inner_bbox_union (cap fuel : Nat) (ts : Triangles) (tree : KDTree)
    (h : build cap fuel ts = Except.ok tree) :
    ∀ n ∈ nodes tree, n.is_leaf = false →
      ∃ b bl br, n.bbox = some b ∧ n.left.bbox = some bl ∧ n.right.bbox = some br ∧
        b = bl.union br ∧ b.contains bl ∧ b.contains br := by
  intro n hn hleaf
  obtain ⟨b, bl, br, h1, h2, h3, h4⟩ := (build_built cap fuel ts tree h).node_bbox n hn hleaf
  refine ⟨b, bl, br, h1, h2, h3, h4, ?_, ?_⟩
  · rw [h4]; exact Box.union_contains_left bl br
  · rw [h4]; exact Box.union_contains_right bl br

theorem kdtree_inner_bbox_union_witness :
    build 1 2 [triUnit, triShifted] = Except.ok twoLeafTree ∧
    ∀ n ∈ nodes twoLeafTree, n.is_leaf = false →
      ∃ b bl br, n.bbox = some b ∧ n.left.bbox = some bl ∧ n.right.bbox = some br ∧
        b = bl.union br ∧ b.contains bl ∧ b.contains br :=
  ⟨by decide!, kdtree_inner_bbox_union 1 2 [triUnit, triShifted] twoLeafTree (by decide!)⟩

/-! ## Nearest-hit query -/

theorem NearestIn.congr_mem {hit : TriKernel} {ray : Ray} {ts ts' : Triangles} {h : Hit}
    (hn : NearestIn hit ray ts h) (hmem : ∀ t, t ∈ ts' ↔ t ∈ ts) : NearestIn hit ray ts' h := by
  unfold NearestIn at *
  cases htri : h.tri with
  | none =>
    rw [htri] at hn
    exact fun t ht => hn t ((hmem t).1 ht)
  | some tri =>
    rw [htri] at hn
    exact ⟨(hmem tri).2 hn.1, hn.2.1, fun t ht => hn.2.2 t ((hmem t).1 ht)⟩

/-- The scan loop keeps the answer nearest among the triangles seen so far. -/
theorem scanLoop_nearest (hit : TriKernel) (ray : Ray) (rest seen : Triangles) (acc : Hit)
    (h : NearestIn hit ray seen acc) :
    NearestIn hit ray (seen ++ rest) (scanLoop hit ray rest acc) := by
  induction rest generalizing seen acc with
  | nil => simpa [scanLoop] using h
  | cons t rest ih =>
    have happ : seen ++ t :: rest = (seen ++ [t]) ++ rest := by simp
    rw [happ]
    unfold scanLoop
    cases hq : hit t ray with
    | none =>
      simp only
      apply ih
      unfold NearestIn at *
      cases htri : acc.tri with
      | none =>
        rw [htri] at h
        intro u hu
        simp only [List.mem_append, List.mem_singleton] at hu
        rcases hu with hu | hu
        · exact h u hu
        · rw [hu]; exact hq
      | some tri =>
        rw [htri] at h
        refine ⟨by simp [h.1], h.2.1, ?_⟩
        intro u hu q hu'
        simp only [List.mem_append, List.mem_singleton] at hu
        rcases hu with hu | hu
        · exact h.2.2 u hu q hu'
        · rw [hu, hq] at hu'; cases hu'
    | some q =>
      obtain ⟨r, s, t'⟩ := q
      simp only
      by_cases hc : acc.tri.isNone = true ∨ r < acc.r
      · rw [if_pos hc]
        apply ih
        unfold NearestIn
        simp only
        refine ⟨by simp, hq, ?_⟩
        intro u hu q hu'
        simp only [List.mem_append, List.mem_singleton] at hu
        rcases hu with hu | hu
        · unfold NearestIn at h
          cases htri : acc.tri with
          | none =>
            rw [htri] at h
            rw [h u hu] at hu'; cases hu'
          | some tri =>
            rw [htri] at h
            have hlt : r < acc.r := by
              rcases hc with hc | hc
              · simp [htri] at hc
              · exact hc
            exact le_trans (le_of_lt hlt) (h.2.2 u hu q hu')
        · rw [hu, hq] at hu'
          injection hu' with hu'
          rw [← hu']
      · rw [if_neg hc]
        apply ih
        rw [not_or] at hc
        unfold NearestIn at *
        cases htri : acc.tri with
        | none => simp [htri] at hc
        | some tri =>
          rw [htri] at h
          refine ⟨by simp [h.1], h.2.1, ?_⟩
          intro u hu q hu'
          simp only [List.mem_append, List.mem_singleton] at hu
          rcases hu with hu | hu
          · exact h.2.2 u hu q hu'
          · rw [hu, hq] at hu'
            injection hu' with hu'
            rw [← hu']
            exact not_lt.1 hc.2

/-- The private leaf scan returns the nearest hit among the triangles it is
given. -/
theorem scan_nearest (hit : TriKernel) (ray : Ray) (ts : Triangles) (s t : ℚ) :
    NearestIn hit ray ts (scan hit ray ts s t) := by
  have := scanLoop_nearest hit ray ts [] ⟨none, -1, s, t⟩ (by simp [NearestIn])
  simpa [scan] using this

theorem leafTriangles_node (b : Box) (ax : Axis) (ts : Triangles) (l r : KDTree) :
    leafTriangles (node b ax ts l r) =
      if (node b ax ts l r).is_leaf then ts else leafTriangles l ++ leafTriangles r := by
  unfold leafTriangles
  rw [leafLists]
  split <;> simp

/-- Combining the answers of the two subtrees as lines 137-149 do gives the
nearest hit over the triangles of both. -/
theorem NearestIn.combine {hit : TriKernel} {ray : Ray} {L R : Triangles} {lh rh : Hit}
    (r s t : ℚ) (hl : NearestIn hit ray L lh) (hr : NearestIn hit ray R rh) :
    NearestIn hit ray (L ++ R)
      (if lh.tri.isSome ∧ (rh.tri.isNone ∨ lh.r < rh.r) then ⟨lh.tri, lh.r, lh.s, lh.t⟩
       else if rh.tri.isSome then ⟨rh.tri, rh.r, rh.s, rh.t⟩
       else ⟨none, r, s, t⟩) := by
  unfold NearestIn at hl hr
  cases hlt : lh.tri with
  | none =>
    rw [hlt] at hl
    cases hrt : rh.tri with
    | none =>
      rw [hrt] at hr
      simp only [Option.isSome_none, Bool.false_eq_true, false_and, if_false]
      unfold NearestIn
      intro u hu
      rcases List.mem_append.1 hu with hu | hu
      · exact hl u hu
      · exact hr u hu
    | some tr =>
      rw [hrt] at hr
      simp only [Option.isSome_none, Bool.false_eq_true, false_and, if_false,
        Option.isSome_some, if_true]
      unfold NearestIn
      refine ⟨List.mem_append.2 (Or.inr hr.1), hr.2.1, ?_⟩
      intro u hu q hq
      rcases List.mem_append.1 hu with hu | hu
      · rw [hl u hu] at hq; cases hq
      · exact hr.2.2 u hu q hq
  | some tl =>
    rw [hlt] at hl
    cases hrt : rh.tri with
    | none =>
      rw [hrt] at hr
      simp only [Option.isSome_some, Option.isNone_none, true_or, and_self, if_true]
      unfold NearestIn
      refine ⟨List.mem_append.2 (Or.inl hl.1), hl.2.1, ?_⟩
      intro u hu q hq
      rcases List.mem_append.1 hu with hu | hu
      · exact hl.2.2 u hu q hq
      · rw [hr u hu] at hq; cases hq
    | some tr =>
      rw [hrt] at hr
      by_cases hc : lh.r < rh.r
      · simp only [Option.isSome_some, Option.isNone_some, Bool.false_eq_true, false_or, hc,
          and_self, if_true]
        unfold NearestIn
        refine ⟨List.mem_append.2 (Or.inl hl.1), hl.2.1, ?_⟩
        intro u hu q hq
        rcases List.mem_append.1 hu with hu | hu
        · exact hl.2.2 u hu q hq
        · exact le_trans (le_of_lt hc) (hr.2.2 u hu q hq)
      · simp only [Option.isSome_some, Option.isNone_some, Bool.false_eq_true, false_or, hc,
          and_false, if_false, if_true]
        unfold NearestIn
        refine ⟨List.mem_append.2 (Or.inr hr.1), hr.2.1, ?_⟩
        intro u hu q hq
        rcases List.mem_append.1 hu with hu | hu
        · exact le_trans (not_lt.1 hc) (hl.2.2 u hu q hq)
        · exact hr.2.2 u hu q hq

/-- On a tree whose boxes cover their triangles, and with a box test that
accepts every box around a triangle the ray hits, `intersect` returns the
nearest hit among the triangles of all leaves. -/
theorem intersect_nearest (rayBox : BoxKernel) (hit : TriKernel) (ray : Ray)
    (hbox : ∀ (B : Box) (t : Triangle), (hit t ray).isSome = true → B.contains t.bbox →
      rayBox ray B = true)
    (tree : KDTree) (hcov : Covers tree) (r s t : ℚ) :
    NearestIn hit ray (leafTriangles tree) (intersect rayBox hit ray tree r s t) := by
  induction tree generalizing r s t with
  | null => simp [intersect, NearestIn, leafTriangles, leafLists]
  | node b ax ts l r_ ihl ihr =>
    obtain ⟨hc, hcl, hcr⟩ := hcov
    rw [intersect]
    by_cases hrb : rayBox ray b = true
    · simp only [hrb, Bool.not_true, Bool.false_eq_true, if_false]
      rw [leafTriangles_node]
      by_cases hleaf : (node b ax ts l r_).is_leaf = true
      · simp only [hleaf, if_true]
        exact scan_nearest hit ray ts s t
      · simp only [hleaf, Bool.false_eq_true, if_false]
        exact NearestIn.combine r s t (ihl hcl (-1) (-1) (-1)) (ihr hcr (-1) (-1) (-1))
    · simp only [hrb, Bool.not_false, if_true]
      unfold NearestIn
      simp only
      intro u hu
      cases hq : hit u ray with
      | none => rfl
      | some q =>
        exact absurd (hbox b u (by simp [hq]) (hc u hu)) hrb

theorem KDTree.Built.covers {cap : Nat} {ts : Triangles} {tree : KDTree}
    (h : Built cap ts tree) : Covers tree := by
  induction h with
  | empty => exact trivial
  | leaf first rest hb hc =>
    refine ⟨?_, trivial, trivial⟩
    intro t ht
    have hp := (Built.leaf first rest hb hc).leafTriangles_perm
    exact (isBBox_boundingBox first rest).contains t ((hp.mem_iff).1 ht)
  | inner first rest m lft rht hb hc hln hrn hl hr ihl ihr =>
    refine ⟨?_, ihl, ihr⟩
    intro t ht
    have hp := (Built.inner first rest m lft rht hb hc hln hrn hl hr).leafTriangles_perm
    exact (isBBox_boundingBox first rest).contains t ((hp.mem_iff).1 ht)

/-- The triangles of a leaf are among the triangles of all leaves. -/
theorem mem_leafTriangles_of_leaf (tree n : KDTree) (tl : Triangles) (tri : Triangle)
    (hn : n ∈ nodes tree) (hleaf : n.is_leaf = true) (htl : n.triangles = some tl)
    (hmem : tri ∈ tl) : tri ∈ leafTriangles tree := by
  induction tree with
  | null => simp [nodes] at hn
  | node b ax ts l r ihl ihr =>
    simp only [nodes, List.mem_cons, List.mem_append] at hn
    rw [leafTriangles_node]
    rcases hn with hn | hn | hn
    · subst hn
      simp only [triangles, hleaf, if_true, Option.some.injEq] at htl
      simp only [hleaf, if_true]
      rw [htl]; exact hmem
    · have hl : l.empty = false := by
        cases l with
        | null => simp [nodes] at hn
        | node _ _ _ _ _ => rfl
      simp only [is_leaf, hl, Bool.false_and, Bool.false_eq_true, if_false]
      exact List.mem_append.2 (Or.inl (ihl hn))
    · have hr : r.empty = false := by
        cases r with
        | null => simp [nodes] at hn
        | node _ _ _ _ _ => rfl
      simp only [is_leaf, hr, Bool.and_false, Bool.false_eq_true, if_false]
      exact List.mem_append.2 (Or.inr (ihr hn))

/-- A non-null answer of `intersect` is a triangle stored in a leaf of the
tree, on which the kernel reports the values in the out-parameters. -/
theorem intersect_sound (rayBox : BoxKernel) (hit : TriKernel) (ray : Ray)
    (tree : KDTree) (r s t : ℚ) (tri : Triangle)
    (h : (intersect rayBox hit ray tree r s t).tri = some tri) :
    (∃ n ∈ nodes tree, n.is_leaf = true ∧ ∃ tl, n.triangles = some tl ∧ tri ∈ tl) ∧
    hit tri ray = some ((intersect rayBox hit ray tree r s t).r,
      (intersect rayBox hit ray tree r s t).s, (intersect rayBox hit ray tree r s t).t) := by
  induction tree generalizing r s t with
  | null => simp [intersect] at h
  | node b ax ts l r_ ihl ihr =>
    rw [intersect] at h ⊢
    by_cases hrb : rayBox ray b = true
    · simp only [hrb, Bool.not_true, Bool.false_eq_true, if_false] at h ⊢
      by_cases hleaf : (node b ax ts l r_).is_leaf = true
      · simp only [hleaf, if_true] at h ⊢
        have hs := scan_nearest hit ray ts s t
        unfold NearestIn at hs
        rw [h] at hs
        refine ⟨⟨node b ax ts l r_, by simp [nodes], hleaf, ts, ?_, hs.1⟩, hs.2.1⟩
        simp [triangles, hleaf]
      · simp only [hleaf, Bool.false_eq_true, if_false] at h ⊢
        split_ifs at h ⊢ with h1 h2
        · obtain ⟨⟨n, hn, hrest⟩, hk⟩ := ihl (-1) (-1) (-1) h
          exact ⟨⟨n, by simp [nodes, hn], hrest⟩, hk⟩
        · obtain ⟨⟨n, hn, hrest⟩, hk⟩ := ihr (-1) (-1) (-1) h
          exact ⟨⟨n, by simp [nodes, hn], hrest⟩, hk⟩
    · simp [hrb] at h

/-- The brute-force loop keeps the answer nearest among the triangles seen so
far, its index the position of the triangle found. -/
theorem rayIntersectionLoop_nearest (hit : TriKernel) (ray : Ray) (rest seen : Triangles)
    (acc : IndexHit) (h : IndexNearestIn hit ray seen acc) :
    IndexNearestIn hit ray (seen ++ rest) (rayIntersectionLoop hit ray rest seen.length acc) := by
  induction rest generalizing seen acc with
  | nil => simpa [rayIntersectionLoop] using h
  | cons t rest ih =>
    have happ : seen ++ t :: rest = (seen ++ [t]) ++ rest := by simp
    have hlen : seen.length + 1 = (seen ++ [t]).length := by simp
    rw [happ]
    unfold rayIntersectionLoop
    rw [hlen]
    cases hq : hit t ray with
    | none =>
      simp only
      apply ih
      unfold IndexNearestIn at *
      by_cases hneg : acc.triangle_index < 0
      · rw [if_pos hneg] at h ⊢
        intro u hu
        simp only [List.mem_append, List.mem_singleton] at hu
        rcases hu with hu | hu
        · exact h u hu
        · rw [hu]; exact hq
      · rw [if_neg hneg] at h ⊢
        obtain ⟨i, tri, hi, hget, hk, hmin⟩ := h
        refine ⟨i, tri, hi, ?_, hk, ?_⟩
        · have hlt : i < seen.length := by
            rcases Nat.lt_or_ge i seen.length with hlt | hge
            · exact hlt
            · rw [List.getElem?_eq_none hge] at hget; cases hget
          rw [List.getElem?_append_left hlt]; exact hget
        · intro u hu q hu'
          simp only [List.mem_append, List.mem_singleton] at hu
          rcases hu with hu | hu
          · exact hmin u hu q hu'
          · rw [hu, hq] at hu'; cases hu'
    | some q =>
      obtain ⟨r, s, t'⟩ := q
      simp only
      by_cases hc : acc.triangle_index < 0 ∨ r < acc.min_r
      · rw [if_pos hc]
        apply ih
        unfold IndexNearestIn
        have hnn : ¬ ((seen.length : Int) < 0) := by omega
        simp only [hnn, if_false]
        refine ⟨seen.length, t, rfl, by simp, hq, ?_⟩
        intro u hu q hu'
        simp only [List.mem_append, List.mem_singleton] at hu
        rcases hu with hu | hu
        · unfold IndexNearestIn at h
          by_cases hneg : acc.triangle_index < 0
          · rw [if_pos hneg] at h
            rw [h u hu] at hu'; cases hu'
          · rw [if_neg hneg] at h
            obtain ⟨i, tri, hi, hget, hk, hmin⟩ := h
            have hlt : r < acc.min_r := by
              rcases hc with hc | hc
              · exact absurd hc hneg
              · exact hc
            exact le_trans (le_of_lt hlt) (hmin u hu q hu')
        · rw [hu, hq] at hu'
          injection hu' with hu'
          rw [← hu']
      · rw [if_neg hc]
        apply ih
        rw [not_or] at hc
        unfold IndexNearestIn at *
        rw [if_neg hc.1] at h ⊢
        obtain ⟨i, tri, hi, hget, hk, hmin⟩ := h
        refine ⟨i, tri, hi, ?_, hk, ?_⟩
        · have hlt : i < seen.length := by
            rcases Nat.lt_or_ge i seen.length with hlt | hge
            · exact hlt
            · rw [List.getElem?_eq_none hge] at hget; cases hget
          rw [List.getElem?_append_left hlt]; exact hget
        · intro u hu q hu'
          simp only [List.mem_append, List.mem_singleton] at hu
          rcases hu with hu | hu
          · exact hmin u hu q hu'
          · rw [hu, hq] at hu'
            injection hu' with hu'
            rw [← hu']
            exact not_lt.1 hc.2

/-- The brute-force scan `ray_intersection` returns the nearest hit among the
triangles it is given. -/
theorem ray_intersection_nearest (hit : TriKernel) (ray : Ray) (ts : Triangles) (s t : ℚ) :
    IndexNearestIn hit ray ts (ray_intersection hit ray ts s t) := by
  have := rayIntersectionLoop_nearest hit ray ts [] ⟨-1, -1, s, t⟩ (by simp [IndexNearestIn])
  simpa [ray_intersection] using this

/-- C1: when the build returns a tree for `ts`, and the box test accepts every
box that contains the bounding box of a triangle the ray hits, `intersect`
returns a triangle exactly when the triangle kernel succeeds on at least one
triangle of `ts`; the distance it then reports equals the `min_r` of the
brute-force scan `ray_intersection(ray, ts)`, is the distance the kernel
reports on some triangle of `ts`, and is no larger than the distance on any
triangle of `ts` the ray hits.  (The empty list is included.) -/
theorem kdtree_intersect_nearest (cap fuel : Nat) (ts : Triangles) (tree : KDTree)
    (rayBox : BoxKernel) (hit : TriKernel) (ray : Ray) (r s t s' t' : ℚ)
    (hbuild : build cap fuel ts = Except.ok tree)
    (hbox : ∀ (B : Box) (u : Triangle), (hit u ray).isSome = true → B.contains u.bbox →
      rayBox ray B = true) :
    ((intersect rayBox hit ray tree r s t).tri.isSome = true ↔
      ∃ u ∈ ts, (hit u ray).isSome = true) ∧
    ((intersect rayBox hit ray tree r s t).tri.isSome = true →
      (intersect rayBox hit ray tree r s t).r = (ray_intersection hit ray ts s' t').min_r ∧
      (∃ u ∈ ts, ∃ q, hit u ray = some q ∧ q.1 = (intersect rayBox hit ray tree r s t).r) ∧
      ∀ u ∈ ts, ∀ q, hit u ray = some q → (intersect rayBox hit ray tree r s t).r ≤ q.1) := by
  have hb := build_built cap fuel ts tree hbuild
  have hn : NearestIn hit ray ts (intersect rayBox hit ray tree r s t) :=
    (intersect_nearest rayBox hit ray hbox tree hb.covers r s t).congr_mem
      (fun u => (hb.leafTriangles_perm.mem_iff).symm)
  have hi := ray_intersection_nearest hit ray ts s' t'
  unfold NearestIn at hn
  cases htri : (intersect rayBox hit ray tree r s t).tri with
  | none =>
    rw [htri] at hn
    refine ⟨?_, by simp⟩
    simp only [Option.isSome_none, Bool.false_eq_true, false_iff, not_exists, not_and]
    intro u hu
    simp [hn u hu]
  | some tri =>
    rw [htri] at hn
    obtain ⟨hmem, hk, hmin⟩ := hn
    refine ⟨?_, fun _ => ⟨?_, ⟨tri, hmem, _, hk, rfl⟩, hmin⟩⟩
    · simp only [Option.isSome_some, true_iff]
      exact ⟨tri, hmem, by simp [hk]⟩
    · unfold IndexNearestIn at hi
      by_cases hneg : (ray_intersection hit ray ts s' t').triangle_index < 0
      · rw [if_pos hneg] at hi
        rw [hi tri hmem] at hk; cases hk
      · rw [if_neg hneg] at hi
        obtain ⟨i, tri', _, hget, hk', hmin'⟩ := hi
        have hmem' : tri' ∈ ts := List.getElem?_mem hget
        exact le_antisymm (hmin tri' hmem' _ hk') (hmin' tri hmem _ hk)

theorem kdtree_intersect_nearest_witness :
    (build 1 2 [triUnit, triShifted] = Except.ok twoLeafTree ∧
      ∀ (B : Box) (u : Triangle), (ray_triangle u rayAlongX).isSome = true →
        B.contains u.bbox → acceptAll rayAlongX B = true) ∧
    (((intersect acceptAll ray_triangle rayAlongX twoLeafTree 0 0 0).tri.isSome = true ↔
      ∃ u ∈ [triUnit, triShifted], (ray_triangle u rayAlongX).isSome = true) ∧
    ((intersect acceptAll ray_triangle rayAlongX twoLeafTree 0 0 0).tri.isSome = true →
      (intersect acceptAll ray_triangle rayAlongX twoLeafTree 0 0 0).r
        = (ray_intersection ray_triangle rayAlongX [triUnit, triShifted] 0 0).min_r ∧
      (∃ u ∈ [triUnit, triShifted], ∃ q, ray_triangle u rayAlongX = some q ∧
        q.1 = (intersect acceptAll ray_triangle rayAlongX twoLeafTree 0 0 0).r) ∧
      ∀ u ∈ [triUnit, triShifted], ∀ q, ray_triangle u rayAlongX = some q →
        (intersect acceptAll ray_triangle rayAlongX twoLeafTree 0 0 0).r ≤ q.1)) :=
  ⟨⟨by decide!, fun _ _ _ _ => rfl⟩,
    kdtree_intersect_nearest 1 2 [triUnit, triShifted] twoLeafTree acceptAll ray_triangle
      rayAlongX 0 0 0 0 0 (by decide!) (fun _ _ _ _ => rfl)⟩

/-- C2: when the build returns a tree for `ts` and `intersect` on it returns a
non-null triangle, that triangle is an element of `ts`, it is stored in a
leaf of the tree, the triangle kernel succeeds on it, and the values in the
out-parameters `(r, s, t)` are exactly the values the kernel produces on it;
so `r` is positive whenever the kernel reports only positive distances. -/
theorem kdtree_intersect_sound (cap fuel : Nat) (ts : Triangles) (tree : KDTree)
    (rayBox : BoxKernel) (hit : TriKernel) (ray : Ray) (r s t : ℚ) (tri : Triangle)
    (hbuild : build cap fuel ts = Except.ok tree)
    (hres : (intersect rayBox hit ray tree r s t).tri = some tri) :
    tri ∈ ts ∧
    (∃ n ∈ nodes tree, n.is_leaf = true ∧ ∃ tl, n.triangles = some tl ∧ tri ∈ tl) ∧
    hit tri ray = some ((intersect rayBox hit ray tree r s t).r,
      (intersect rayBox hit ray tree r s t).s, (intersect rayBox hit ray tree r s t).t) ∧
    ((∀ (u : Triangle) (q : ℚ × ℚ × ℚ), hit u ray = some q → 0 < q.1) →
      0 < (intersect rayBox hit ray tree r s t).r) := by
  have hb := build_built cap fuel ts tree hbuild
  obtain ⟨⟨n, hn, hleaf, tl, htl, hmem⟩, hk⟩ := intersect_sound rayBox hit ray tree r s t tri hres
  refine ⟨?_, ⟨n, hn, hleaf, tl, htl, hmem⟩, hk, fun hpos => hpos tri _ hk⟩
  apply (hb.leafTriangles_perm.mem_iff).1
  exact mem_leafTriangles_of_leaf tree n tl tri hn hleaf htl hmem

theorem kdtree_intersect_sound_witness :
    (build 1 2 [triUnit, triShifted] = Except.ok twoLeafTree ∧
      (intersect acceptAll ray_triangle rayAlongX twoLeafTree 0 0 0).tri = some triUnit) ∧
    (triUnit ∈ [triUnit, triShifted] ∧
    (∃ n ∈ nodes twoLeafTree, n.is_leaf = true ∧ ∃ tl, n.triangles = some tl ∧ triUnit ∈ tl) ∧
    ray_triangle triUnit rayAlongX
      = some ((intersect acceptAll ray_triangle rayAlongX twoLeafTree 0 0 0).r,
        (intersect acceptAll ray_triangle rayAlongX twoLeafTree 0 0 0).s,
        (intersect acceptAll ray_triangle rayAlongX twoLeafTree 0 0 0).t) ∧
    ((∀ (u : Triangle) (q : ℚ × ℚ × ℚ), ray_triangle u rayAlongX = some q → 0 < q.1) →
      0 < (intersect acceptAll ray_triangle rayAlongX twoLeafTree 0 0 0).r)) :=
  ⟨⟨by decide!, by decide!⟩,
    kdtree_intersect_sound 1 2 [triUnit, triShifted] twoLeafTree acceptAll ray_triangle
      rayAlongX 0 0 0 triUnit (by decide!) (by decide!)⟩

/-! ## The empty tree -/

/-- C8: the constructor turns the empty triangle list into the empty tree, for
every leaf capacity; on the empty tree `empty()` is true, `is_leaf()` is
false, `height()` is 0, and `intersect` returns a null triangle for every
ray. -/
theorem kdtree_empty (cap fuel : Nat) (rayBox : BoxKernel) (hit : TriKernel) (ray : Ray)
    (r s t : ℚ) :
    build cap fuel [] = Except.ok null ∧
    null.empty = true ∧ null.is_leaf = false ∧ null.height = 0 ∧
    (intersect rayBox hit ray null r s t).tri = none := by
  refine ⟨?_, rfl, rfl, rfl, ?_⟩
  · cases fuel <;> rfl
  · simp [intersect]

/-! ## Termination of the build -/

/-- When all midpoints coincide along the axis, a pass of the loop body
leaves one of the two lists empty, whatever the float it bisects at. -/
theorem splitCond_splitBody_of_coincide (axis : Axis) (ts : Triangles) (c : ℚ)
    (hco : ∀ t ∈ ts, t.midpoint.get axis = c) (s : SplitState) (h : splitCond s = true) :
    splitCond (splitBody axis ts s) = true := by
  obtain ⟨lo, hi, hbody⟩ := splitBody_eq axis ts s h
  rw [hbody]
  unfold splitCond
  simp only [Bool.or_eq_true, List.isEmpty_iff]
  by_cases hc : (F32.fin c).lt (bisect lo hi) = true
  · right
    rw [List.filter_eq_nil_iff]
    intro t ht
    simp [goesLeft, hco t ht, hc]
  · left
    rw [List.filter_eq_nil_iff]
    intro t ht
    simp [goesLeft, hco t ht, hc]

/-- When all midpoints coincide along the axis, the loop is still running
after any number of passes. -/
theorem splitLoop_of_coincide (axis : Axis) (ts : Triangles) (c : ℚ)
    (hco : ∀ t ∈ ts, t.midpoint.get axis = c) (fuel : Nat) (s : SplitState)
    (h : splitCond s = true) :
    splitLoop axis ts fuel s = Except.error Err.out_of_fuel := by
  induction fuel generalizing s with
  | zero => simp [splitLoop, h]
  | succ n ih =>
    rw [splitLoop]
    simp only [h, if_true]
    exact ih _ (splitCond_splitBody_of_coincide axis ts c hco s h)

theorem split_at_spatial_median_of_coincide (axis : Axis) (bbox : Box) (ts : Triangles) (c : ℚ)
    (hco : ∀ t ∈ ts, t.midpoint.get axis = c) (fuel : Nat) :
    split_at_spatial_median fuel axis bbox ts = Except.error Err.out_of_fuel := by
  unfold split_at_spatial_median
  rw [splitLoop_of_coincide axis ts c hco fuel _ (by simp [splitCond])]

/-- A state that satisfies the loop condition and that a pass of the body
leaves unchanged is never left. -/
theorem splitLoop_of_fixed (axis : Axis) (ts : Triangles) (s : SplitState)
    (h : splitCond s = true) (hfix : splitBody axis ts s = s) (fuel : Nat) :
    splitLoop axis ts fuel s = Except.error Err.out_of_fuel := by
  induction fuel with
  | zero => simp [splitLoop, h]
  | succ n ih =>
    rw [splitLoop]
    simp only [h, if_true]
    rw [hfix]
    exact ih

/-! ### More fuel does not change a result -/

theorem splitLoop_succ (axis : Axis) (ts : Triangles) (fuel : Nat) (s r : SplitState)
    (h : splitLoop axis ts fuel s = Except.ok r) :
    splitLoop axis ts (fuel + 1) s = Except.ok r := by
  induction fuel generalizing s with
  | zero =>
    by_cases hc : splitCond s = true
    · simp [splitLoop, hc] at h
    · simp only [splitLoop, hc, Bool.false_eq_true, if_false] at h ⊢
      exact h
  | succ n ih =>
    rw [splitLoop] at h ⊢
    by_cases hc : splitCond s = true
    · simp only [hc, if_true] at h ⊢
      exact ih _ h
    · simpa [hc] using h

theorem splitLoop_error (axis : Axis) (ts : Triangles) (fuel : Nat) (s : SplitState) (e : Err)
    (h : splitLoop axis ts fuel s = Except.error e) : e = Err.out_of_fuel := by
  induction fuel generalizing s with
  | zero =>
    rw [splitLoop] at h
    by_cases hc : splitCond s = true
    · simp only [hc, if_true] at h
      injection h with h
      exact h.symm
    · simp [hc] at h
  | succ n ih =>
    rw [splitLoop] at h
    by_cases hc : splitCond s = true
    · simp only [hc, if_true] at h
      exact ih _ h
    · simp [hc] at h

theorem split_at_spatial_median_succ (fuel : Nat) (axis : Axis) (bbox : Box) (ts : Triangles)
    (split : Triangles × Triangles)
    (h : split_at_spatial_median fuel axis bbox ts = Except.ok split) :
    split_at_spatial_median (fuel + 1) axis bbox ts = Except.ok split := by
  unfold split_at_spatial_median at h ⊢
  split at h
  · cases h
  · rename_i s hs
    rw [splitLoop_succ _ _ _ _ _ hs]
    exact h

theorem split_at_spatial_median_error (fuel : Nat) (axis : Axis) (bbox : Box) (ts : Triangles)
    (e : Err) (h : split_at_spatial_median fuel axis bbox ts = Except.error e) :
    e = Err.out_of_fuel := by
  unfold split_at_spatial_median at h
  split at h
  · rename_i e' hs
    injection h with h
    rw [← h]
    exact splitLoop_error _ _ _ _ _ hs
  · cases h

/-- A result other than "out of fuel" is the result with one more unit of
fuel. -/
theorem build_succ (cap fuel : Nat) (ts : Triangles) (r : Except Err KDTree)
    (h : build cap fuel ts = r) (hr : r ≠ Except.error Err.out_of_fuel) :
    build cap (fuel + 1) ts = r := by
  induction fuel generalizing ts r with
  | zero =>
    cases ts with
    | nil => rw [← h]; rfl
    | cons first rest => rw [← h] at hr; exact absurd rfl hr
  | succ n ih =>
    cases ts with
    | nil => rw [← h]; rfl
    | cons first rest =>
      rw [build] at h ⊢
      by_cases hb : (boundingBox first rest).min.lt (boundingBox first rest).max = true
      · by_cases hc : (first :: rest).length ≤ cap
        · simp only [hb, hc, Bool.not_true, Bool.false_eq_true, if_false, if_true] at h ⊢
          exact h
        · simp only [hb, hc, Bool.not_true, Bool.false_eq_true, if_false] at h ⊢
          cases hs : split_at_spatial_median n (chooseAxis (boundingBox first rest))
              (boundingBox first rest) (first :: rest) with
          | error e =>
            rw [hs] at h
            simp only at h
            rw [split_at_spatial_median_error _ _ _ _ _ hs] at h
            exact absurd h.symm hr
          | ok sp =>
            rw [hs] at h
            rw [split_at_spatial_median_succ _ _ _ _ _ hs]
            simp only at h ⊢
            cases hl : build cap n sp.1 with
            | error e =>
              rw [hl] at h
              simp only at h
              have hne : (Except.error e : Except Err KDTree) ≠ Except.error Err.out_of_fuel := by
                rw [h]; exact hr
              rw [ih _ _ hl hne]
              exact h
            | ok lft =>
              rw [hl] at h
              rw [ih _ _ hl (by intro hh; cases hh)]
              simp only at h ⊢
              cases hrt : build cap n sp.2 with
              | error e =>
                rw [hrt] at h
                simp only at h
                have hne : (Except.error e : Except Err KDTree)
                    ≠ Except.error Err.out_of_fuel := by
                  rw [h]; exact hr
                rw [ih _ _ hrt hne]
                exact h
              | ok rht =>
                rw [hrt] at h
                rw [ih _ _ hrt (by intro hh; cases hh)]
                exact h
      · simp only [hb, Bool.not_false, if_true] at h ⊢
        exact h

theorem build_mono (cap fuel fuel' : Nat) (hle : fuel ≤ fuel') (ts : Triangles)
    (r : Except Err KDTree) (h : build cap fuel ts = r)
    (hr : r ≠ Except.error Err.out_of_fuel) : build cap fuel' ts = r := by
  induction fuel', hle using Nat.le_induction with
  | base => exact h
  | succ m _ ih => exact build_succ cap m ts r ih hr

theorem split_at_spatial_median_mono (fuel fuel' : Nat) (hle : fuel ≤ fuel') (axis : Axis)
    (bbox : Box) (ts : Triangles) (split : Triangles × Triangles)
    (h : split_at_spatial_median fuel axis bbox ts = Except.ok split) :
    split_at_spatial_median fuel' axis bbox ts = Except.ok split := by
  induction fuel', hle using Nat.le_induction with
  | base => exact h
  | succ m _ ih => exact split_at_spatial_median_succ m axis bbox ts split ih

/-! ### When the loop and the build return -/

theorem splitLoop_of_not_cond (axis : Axis) (ts : Triangles) (n : Nat) (s : SplitState)
    (h : splitCond s = false) : splitLoop axis ts n s = Except.ok s := by
  cases n with
  | zero => simp only [splitLoop, h, Bool.false_eq_true, if_false]
  | succ k => rw [splitLoop]; simp only [h, Bool.false_eq_true, if_false]

/-- The loop returns from a state `s` exactly when some number of passes of
the body from `s` gives a state with both lists non-empty. -/
theorem splitLoop_returns_iff (axis : Axis) (ts : Triangles) (s : SplitState) :
    (∃ fuel s', splitLoop axis ts fuel s = Except.ok s') ↔
      ∃ n, splitCond ((splitBody axis ts)^[n] s) = false := by
  constructor
  · rintro ⟨fuel, s', h⟩
    induction fuel generalizing s with
    | zero =>
      by_cases hc : splitCond s = true
      · simp [splitLoop, hc] at h
      · exact ⟨0, by simpa using hc⟩
    | succ k ih =>
      by_cases hc : splitCond s = true
      · rw [splitLoop] at h
        simp only [hc, if_true] at h
        obtain ⟨n, hn⟩ := ih _ h
        exact ⟨n + 1, by rw [Function.iterate_succ_apply]; exact hn⟩
      · exact ⟨0, by simpa using hc⟩
  · rintro ⟨n, hn⟩
    induction n generalizing s with
    | zero =>
      exact ⟨0, s, splitLoop_of_not_cond axis ts 0 s (by simpa using hn)⟩
    | succ k ih =>
      by_cases hc : splitCond s = true
      · rw [Function.iterate_succ_apply] at hn
        obtain ⟨fuel, s', h⟩ := ih _ hn
        refine ⟨fuel + 1, s', ?_⟩
        rw [splitLoop]
        simp only [hc, if_true]
        exact h
      · exact ⟨0, s, splitLoop_of_not_cond axis ts 0 s (by simpa using hc)⟩

theorem passes_eq_iterate (axis : Axis) (bbox : Box) (ts : Triangles) (n : Nat) :
    passes axis bbox ts n = (splitBody axis ts)^[n] (passes axis bbox ts 0) := by
  induction n with
  | zero => rfl
  | succ k ih => rw [Function.iterate_succ_apply', ← ih]; rfl

/-- A call of `split_at_spatial_median` returns exactly when some pass of the
bisection leaves both lists non-empty. -/
theorem split_at_spatial_median_returns_iff (axis : Axis) (bbox : Box) (ts : Triangles) :
    (∃ fuel lr, split_at_spatial_median fuel axis bbox ts = Except.ok lr) ↔
      ∃ n, splitCond (passes axis bbox ts n) = false := by
  have key := splitLoop_returns_iff axis ts (passes axis bbox ts 0)
  constructor
  · rintro ⟨fuel, lr, h⟩
    unfold split_at_spatial_median at h
    split at h
    · cases h
    · rename_i s hs
      obtain ⟨n, hn⟩ := key.1 ⟨fuel, s, hs⟩
      exact ⟨n, by rw [passes_eq_iterate]; exact hn⟩
  · rintro ⟨n, hn⟩
    rw [passes_eq_iterate] at hn
    obtain ⟨fuel, s, hs⟩ := key.2 ⟨n, hn⟩
    refine ⟨fuel, (s.lft_triangles, s.rht_triangles), ?_⟩
    unfold split_at_spatial_median
    change (match splitLoop axis ts fuel (passes axis bbox ts 0) with
      | Except.error e => Except.error e
      | Except.ok s => Except.ok (s.lft_triangles, s.rht_triangles)) = _
    rw [hs]

/-- The build returns a tree exactly for the lists in `Splits`: the box
assertion holds and `split_at_spatial_median` returns at every node. -/
theorem build_returns_iff (cap : Nat) (ts : Triangles) :
    (∃ fuel tree, build cap fuel ts = Except.ok tree) ↔ Splits cap ts := by
  constructor
  · rintro ⟨fuel, tree, h⟩
    induction fuel generalizing ts tree with
    | zero =>
      cases ts with
      | nil => exact Splits.empty
      | cons a l => simp [build] at h
    | succ n ih =>
      cases ts with
      | nil => exact Splits.empty
      | cons first rest =>
        rw [build] at h
        by_cases hb : (boundingBox first rest).min.lt (boundingBox first rest).max = true
        · by_cases hc : (first :: rest).length ≤ cap
          · exact Splits.leaf first rest hb hc
          · simp only [hb, hc, Bool.not_true, Bool.false_eq_true, if_false] at h
            split at h
            · cases h
            · rename_i split hsplit
              obtain ⟨l, r⟩ := split
              split at h
              · cases h
              · rename_i lft hlft
                split at h
                · cases h
                · rename_i rht hrht
                  exact Splits.inner first rest n l r hb (by omega) hsplit
                    (ih _ _ hlft) (ih _ _ hrht)
        · simp [hb] at h
  · intro h
    induction h with
    | empty => exact ⟨0, null, rfl⟩
    | leaf first rest hb hc =>
      refine ⟨1, leafNode (boundingBox first rest) (chooseAxis (boundingBox first rest))
        (first :: rest), ?_⟩
      rw [build]
      simp only [hb, hc, Bool.not_true, Bool.false_eq_true, if_false, if_true]
    | inner first rest f0 l r hb hc hsp _ _ ihl ihr =>
      obtain ⟨f1, lft, h1⟩ := ihl
      obtain ⟨f2, rht, h2⟩ := ihr
      refine ⟨Max.max f0 (Max.max f1 f2) + 1,
        innerNode (boundingBox first rest) (chooseAxis (boundingBox first rest)) lft rht, ?_⟩
      have hc' : ¬ (first :: rest).length ≤ cap := by omega
      rw [build]
      simp only [hb, hc', Bool.not_true, Bool.false_eq_true, if_false]
      rw [split_at_spatial_median_mono f0 _ (le_max_left _ _) _ _ _ _ hsp]
      simp only
      rw [build_mono cap f1 _ (le_trans (le_max_left f1 f2) (le_max_right f0 _)) l _ h1
        (by intro hh; cases hh)]
      rw [build_mono cap f2 _ (le_trans (le_max_right f1 f2) (le_max_right f0 _)) r _ h2
        (by intro hh; cases hh)]

/-- Two triangles with the midpoints `2^24` and `2^24 + 2` along X, two
neighbouring floats: the bisection of `[2^24, 2^24 + 2]` gives `2^24` again
(the sum `2^25 + 2` is a tie and rounds to `2^25`), no triangle goes left, and
the pass leaves the state unchanged.  The build does not return. -/
theorem build_loops_neighbours (fuel : Nat) :
    build 1 fuel [triEdge, triEdgeNext] = Except.error Err.out_of_fuel := by
  cases fuel with
  | zero => rfl
  | succ n =>
    rw [build]
    have hb : (boundingBox triEdge [triEdgeNext]).min.lt (boundingBox triEdge [triEdgeNext]).max
        = true := by decide!
    have hlen : ¬ [triEdge, triEdgeNext].length ≤ 1 := by decide
    simp only [hb, hlen, Bool.not_true, Bool.false_eq_true, if_false]
    have hsplit : split_at_spatial_median n (chooseAxis (boundingBox triEdge [triEdgeNext]))
        (boundingBox triEdge [triEdgeNext]) [triEdge, triEdgeNext]
        = Except.error Err.out_of_fuel := by
      unfold split_at_spatial_median
      cases n with
      | zero => rfl
      | succ m =>
        rw [splitLoop]
        have hc0 : splitCond (⟨F32.fin ((boundingBox triEdge [triEdgeNext]).min.get
            (chooseAxis (boundingBox triEdge [triEdgeNext]))),
            F32.fin ((boundingBox triEdge [triEdgeNext]).max.get
              (chooseAxis (boundingBox triEdge [triEdgeNext]))), 0, [], []⟩ : SplitState)
            = true := rfl
        simp only [hc0, if_true]
        rw [splitLoop_of_fixed _ _ _ (by decide!) (by decide!)]
    rw [hsplit]

/-- C10, as stated, fails: with leaf capacity 1 and two copies of `triUnit`
(one midpoint, a box that passes the assertion) there is no amount of fuel
with which the build returns: it is still running after any number of
steps. -/
theorem kdtree_build_loops_counterexample :
    ¬ ∃ fuel, build 1 fuel [triUnit, triUnit] ≠ Except.error Err.out_of_fuel := by
  rintro ⟨fuel, hne⟩
  apply hne
  cases fuel with
  | zero => rfl
  | succ n =>
    rw [build]
    have hb : (boundingBox triUnit [triUnit]).min.lt (boundingBox triUnit [triUnit]).max = true := by
      decide!
    have hco : ∀ t ∈ [triUnit, triUnit],
        t.midpoint.get (chooseAxis (boundingBox triUnit [triUnit]))
          = triUnit.midpoint.get (chooseAxis (boundingBox triUnit [triUnit])) := by
      intro t ht
      simp only [List.mem_cons, List.mem_singleton, List.not_mem_nil, or_false, or_self] at ht
      rw [ht]
    simp only [hb, Bool.not_true, Bool.false_eq_true, if_false]
    rw [split_at_spatial_median_of_coincide _ _ _ _ hco]
    simp

/-- C10, amended: the build returns (a tree, or a failed box assertion) for
every list of at most `LEAF_CAPACITY` triangles.  For a list of more than
`LEAF_CAPACITY` triangles whose box passes the assertion and whose midpoints
all coincide along the chosen split axis it does not return: every pass of
the loop of `split_at_spatial_median` leaves one side empty, and there is
neither a bound on the passes nor a fallback to a leaf.  In general a call of
`split_at_spatial_median` returns exactly when some pass of its bisection
leaves both sides non-empty, and the build returns a tree exactly when the
box assertion holds and `split_at_spatial_median` returns at every node it
reaches.  Different midpoints do not suffice in `float`: for the midpoints
`2^24` and `2^24 + 2` the build does not return. -/
theorem kdtree_build_termination (cap : Nat) (first : Triangle) (rest : Triangles) :
    ((first :: rest).length ≤ cap →
      ∀ fuel, build cap (fuel + 1) (first :: rest) ≠ Except.error Err.out_of_fuel) ∧
    (cap < (first :: rest).length →
      (boundingBox first rest).min.lt (boundingBox first rest).max = true →
      (∀ t ∈ first :: rest, t.midpoint.get (chooseAxis (boundingBox first rest))
        = first.midpoint.get (chooseAxis (boundingBox first rest))) →
      ∀ fuel, build cap fuel (first :: rest) = Except.error Err.out_of_fuel) ∧
    (∀ (axis : Axis) (bbox : Box),
      (∃ fuel lr, split_at_spatial_median fuel axis bbox (first :: rest) = Except.ok lr) ↔
        ∃ n, splitCond (passes axis bbox (first :: rest) n) = false) ∧
    ((∃ fuel tree, build cap fuel (first :: rest) = Except.ok tree) ↔
      Splits cap (first :: rest)) ∧
    (triEdge.midpoint.get Axis.X = 16777216 ∧ triEdgeNext.midpoint.get Axis.X = 16777218 ∧
      chooseAxis (boundingBox triEdge [triEdgeNext]) = Axis.X ∧
      ∀ fuel, build 1 fuel [triEdge, triEdgeNext] = Except.error Err.out_of_fuel) := by
  refine ⟨?_, ?_, ?_, ?_, ?_⟩
  · intro hlen fuel
    rw [build]
    by_cases hb : (boundingBox first rest).min.lt (boundingBox first rest).max = true
    · simp only [hb, Bool.not_true, Bool.false_eq_true, if_false, hlen, if_true]
      intro h; cases h
    · simp only [hb, Bool.not_false, if_true]
      intro h; cases h
  · intro hlen hb hco fuel
    cases fuel with
    | zero => rfl
    | succ n =>
      rw [build]
      have hlen' : ¬ (first :: rest).length ≤ cap := by omega
      simp only [hb, Bool.not_true, Bool.false_eq_true, if_false, hlen']
      rw [split_at_spatial_median_of_coincide _ _ _ _ hco]
  · intro axis bbox
    exact split_at_spatial_median_returns_iff axis bbox (first :: rest)
  · exact build_returns_iff cap (first :: rest)
  · exact ⟨by decide!, by decide!, by decide!, build_loops_neighbours⟩

theorem kdtree_build_termination_witness :
    ([triUnit].length ≤ 1 ∧
      ∀ fuel, build 1 (fuel + 1) [triUnit] ≠ Except.error Err.out_of_fuel) ∧
    ((1 < [triUnit, triUnit].length ∧
      (boundingBox triUnit [triUnit]).min.lt (boundingBox triUnit [triUnit]).max = true ∧
      (∀ t ∈ [triUnit, triUnit], t.midpoint.get (chooseAxis (boundingBox triUnit [triUnit]))
        = triUnit.midpoint.get (chooseAxis (boundingBox triUnit [triUnit])))) ∧
      ∀ fuel, build 1 fuel [triUnit, triUnit] = Except.error Err.out_of_fuel) ∧
    (build 1 2 [triUnit, triShifted] = Except.ok twoLeafTree ∧
      Splits 1 [triUnit, triShifted] ∧
      ∃ n, splitCond (passes Axis.X sceneBox [triUnit, triShifted] n) = false) :=
  ⟨⟨by decide, (kdtree_build_termination 1 triUnit []).1 (by decide)⟩,
    ⟨⟨by decide, by decide!, by decide!⟩,
      (kdtree_build_termination 1 triUnit [triUnit]).2.1 (by decide) (by decide!) (by decide!)⟩,
    by decide!,
    (kdtree_build_termination 1 triUnit [triShifted]).2.2.2.1.1 ⟨2, twoLeafTree, by decide!⟩,
    ((kdtree_build_termination 1 triUnit [triShifted]).2.2.1 Axis.X sceneBox).1
      ⟨1, ([triUnit], [triShifted]), by decide!⟩⟩

/-! ## `FastKDTree` on the empty list -/

/-- C9, as stated, fails: the constructor of `FastKDTree` asserts
`tris.size() > 0`, so on the empty list the assertion fails and no tree is
produced. -/
theorem fastkdtree_empty_counterexample :
    FastKDTree.construct sampleLib 1 [] = Except.error Err.assertion_failed ∧
    ¬ ∃ fuel root, FastKDTree.construct sampleLib fuel [] = Except.ok root := by
  refine ⟨rfl, ?_⟩
  rintro ⟨fuel, root, h⟩
  cases h

/-- C9, amended: building the SAH tree from an empty triangle list is an
error, the assertion `tris.size() > 0` of the constructor fails; from every
non-empty list the construction completes without an assertion failure and
yields a tree. -/
theorem fastkdtree_construct_nonempty (lib : FastKDTree.Lib) (fuel : Nat) (tris : Triangles) :
    (tris = [] → FastKDTree.construct lib fuel tris = Except.error Err.assertion_failed) ∧
    (tris ≠ [] → ∃ root, FastKDTree.construct lib fuel tris = Except.ok root) := by
  constructor
  · intro h
    subst h
    rfl
  · intro h
    cases tris with
    | nil => exact absurd rfl h
    | cons first rest =>
      refine ⟨FastNode.leaf (first :: rest), ?_⟩
      unfold FastKDTree.construct
      cases fuel <;> simp [FastKDTree.build, FastKDTree.terminate]

theorem fastkdtree_construct_nonempty_witness :
    (([] : Triangles) = [] ∧
      FastKDTree.construct sampleLib 0 [] = Except.error Err.assertion_failed) ∧
    ([triUnit, triShifted] ≠ [] ∧
      ∃ root, FastKDTree.construct sampleLib 0 [triUnit, triShifted] = Except.ok root) :=
  ⟨⟨rfl, (fastkdtree_construct_nonempty sampleLib 0 []).1 rfl⟩,
    ⟨by decide, (fastkdtree_construct_nonempty sampleLib 0 [triUnit, triShifted]).2 (by decide)⟩⟩

/-! ## Number of bisections -/

/-! ### The loop in exact arithmetic -/

theorem exact_splitFold_eq (axis : Axis) (ts : Triangles) (s : Exact.SplitState) :
    ts.foldl
      (fun acc triangle =>
        if triangle.midpoint.get axis < acc.axis_midpt then
          { acc with lft_triangles := acc.lft_triangles ++ [triangle] }
        else
          { acc with rht_triangles := acc.rht_triangles ++ [triangle] }) s
    = { s with
        lft_triangles := s.lft_triangles ++ ts.filter (Exact.goesLeft axis s.axis_midpt)
        rht_triangles := s.rht_triangles ++ ts.filter (fun t => !Exact.goesLeft axis s.axis_midpt t) } := by
  induction ts generalizing s with
  | nil => simp
  | cons t ts ih =>
    rw [List.foldl_cons, ih]
    by_cases h : t.midpoint.get axis < s.axis_midpt
    · simp [Exact.goesLeft, h, List.filter_cons]
    · simp [Exact.goesLeft, h, List.filter_cons]

/-- After one pass of the loop body from a state satisfying the loop
condition, the two lists are the partition of the input at the new
`axis_midpt`, which bisects the new range. -/
theorem exact_splitBody_eq (axis : Axis) (ts : Triangles) (s : Exact.SplitState) (h : Exact.splitCond s = true) :
    ∃ lo hi, Exact.splitBody axis ts s =
      { min := lo, max := hi, axis_midpt := (lo + hi) / 2
        lft_triangles := ts.filter (Exact.goesLeft axis ((lo + hi) / 2))
        rht_triangles := ts.filter (fun t => !Exact.goesLeft axis ((lo + hi) / 2) t) } := by
  unfold Exact.splitBody
  simp only [exact_splitFold_eq]
  unfold Exact.splitCond at h
  cases hl : s.lft_triangles with
  | cons a l =>
    have hr : s.rht_triangles = [] := by
      cases hr : s.rht_triangles with
      | nil => rfl
      | cons b r => simp [hl, hr] at h
    exact ⟨s.min, s.axis_midpt, by simp [hr]⟩
  | nil =>
    cases hr : s.rht_triangles with
    | nil => exact ⟨s.min, s.max, by simp [hl, hr]⟩
    | cons b r => exact ⟨s.axis_midpt, s.max, by simp [hl]⟩

/-- The state in which the loop stops is either the state it started from,
with both lists non-empty, or the result of a pass of the loop body. -/
theorem exact_splitLoop_ok (axis : Axis) (ts : Triangles) (fuel : Nat) (s s' : Exact.SplitState)
    (h : Exact.splitLoop axis ts fuel s = Except.ok s') :
    Exact.splitCond s' = false ∧
    (s' = s ∨ ∃ lo hi, s' =
      { min := lo, max := hi, axis_midpt := (lo + hi) / 2
        lft_triangles := ts.filter (Exact.goesLeft axis ((lo + hi) / 2))
        rht_triangles := ts.filter (fun t => !Exact.goesLeft axis ((lo + hi) / 2) t) }) := by
  induction fuel generalizing s with
  | zero =>
    unfold Exact.splitLoop at h
    by_cases hc : Exact.splitCond s = true
    · simp [hc] at h
    · simp [hc] at h
      subst h
      exact ⟨by simpa using hc, Or.inl rfl⟩
  | succ n ih =>
    unfold Exact.splitLoop at h
    by_cases hc : Exact.splitCond s = true
    · simp only [hc, if_true] at h
      obtain ⟨h1, h2⟩ := ih _ h
      refine ⟨h1, Or.inr ?_⟩
      rcases h2 with h2 | h2
      · rw [h2]; exact exact_splitBody_eq axis ts s hc
      · exact h2
    · simp [hc] at h
      subst h
      exact ⟨by simpa using hc, Or.inl rfl⟩

/-- What `Exact.split_at_spatial_median` returns: the partition of the input at a
threshold `m`, both sides non-empty. -/
theorem exact_split_at_spatial_median_ok (fuel : Nat) (axis : Axis) (bbox : Box)
    (ts l r : Triangles)
    (h : Exact.split_at_spatial_median fuel axis bbox ts = Except.ok (l, r)) :
    ∃ m, l = ts.filter (Exact.goesLeft axis m) ∧ r = ts.filter (fun t => !Exact.goesLeft axis m t) ∧
      l ≠ [] ∧ r ≠ [] := by
  unfold Exact.split_at_spatial_median at h
  split at h
  · cases h
  · rename_i s hs
    injection h with h
    injection h with h1 h2
    obtain ⟨hc, hcase⟩ := exact_splitLoop_ok _ _ _ _ _ hs
    rcases hcase with hcase | ⟨lo, hi, hcase⟩
    · rw [hcase] at hc; simp [Exact.splitCond] at hc
    · have hl : l ≠ [] := by
        intro hl; rw [← h1] at hl; simp [Exact.splitCond, hl] at hc
      have hr : r ≠ [] := by
        intro hr; rw [← h2] at hr; simp [Exact.splitCond, hr] at hc
      refine ⟨(lo + hi) / 2, ?_, ?_, hl, hr⟩
      · rw [← h1, hcase]
      · rw [← h2, hcase]


/-- The pass of the loop body bisects the range `Exact.nextRange`. -/
theorem exact_splitBody_range (axis : Axis) (ts : Triangles) (s : Exact.SplitState) (h : Exact.splitCond s = true) :
    Exact.splitBody axis ts s =
      { min := (Exact.nextRange s).1, max := (Exact.nextRange s).2
        axis_midpt := ((Exact.nextRange s).1 + (Exact.nextRange s).2) / 2
        lft_triangles := ts.filter (Exact.goesLeft axis (((Exact.nextRange s).1 + (Exact.nextRange s).2) / 2))
        rht_triangles :=
          ts.filter (fun t => !Exact.goesLeft axis (((Exact.nextRange s).1 + (Exact.nextRange s).2) / 2) t) } := by
  unfold Exact.splitBody Exact.nextRange
  simp only [exact_splitFold_eq]
  unfold Exact.splitCond at h
  cases hl : s.lft_triangles with
  | cons a l =>
    have hr : s.rht_triangles = [] := by
      cases hr : s.rht_triangles with
      | nil => rfl
      | cons b r => simp [hl, hr] at h
    simp [hr]
  | nil =>
    cases hr : s.rht_triangles with
    | nil => simp [hl, hr]
    | cons b r => simp [hl]

/-- While the midpoints lie in the range to bisect and two of them differ, a
pass of the loop body either ends the loop or halves the range, the
midpoints still inside. -/
theorem exact_splitBody_progress (axis : Axis) (ts : Triangles) (s : Exact.SplitState)
    (h : Exact.splitCond s = true)
    (hin : ∀ t ∈ ts, (Exact.nextRange s).1 ≤ t.midpoint.get axis ∧
      t.midpoint.get axis ≤ (Exact.nextRange s).2)
    (hne : ts ≠ []) :
    Exact.splitCond (Exact.splitBody axis ts s) = false ∨
    ((∀ t ∈ ts, (Exact.nextRange (Exact.splitBody axis ts s)).1 ≤ t.midpoint.get axis ∧
        t.midpoint.get axis ≤ (Exact.nextRange (Exact.splitBody axis ts s)).2) ∧
      (Exact.nextRange (Exact.splitBody axis ts s)).2 - (Exact.nextRange (Exact.splitBody axis ts s)).1
        = ((Exact.nextRange s).2 - (Exact.nextRange s).1) / 2) := by
  rw [exact_splitBody_range axis ts s h]
  generalize (Exact.nextRange s).1 = lo at hin ⊢
  generalize (Exact.nextRange s).2 = hi at hin ⊢
  by_cases hc : Exact.splitCond
      { min := lo, max := hi, axis_midpt := (lo + hi) / 2
        lft_triangles := ts.filter (Exact.goesLeft axis ((lo + hi) / 2))
        rht_triangles := ts.filter (fun t => !Exact.goesLeft axis ((lo + hi) / 2) t) } = true
  · right
    unfold Exact.splitCond at hc
    simp only [Bool.or_eq_true, List.isEmpty_iff] at hc
    unfold Exact.nextRange
    simp only
    rcases hc with hc | hc
    · have hall : ∀ t ∈ ts, (lo + hi) / 2 ≤ t.midpoint.get axis := by
        intro t ht
        have := (List.filter_eq_nil_iff.1 hc) t ht
        simp only [Exact.goesLeft, decide_eq_true_eq, not_lt] at this
        exact this
      have hrn : ts.filter (fun t => !Exact.goesLeft axis ((lo + hi) / 2) t) ≠ [] := by
        intro hr
        obtain ⟨t, ht⟩ := List.exists_mem_of_ne_nil ts hne
        have h1 := (List.filter_eq_nil_iff.1 hc) t ht
        have h2 := (List.filter_eq_nil_iff.1 hr) t ht
        simp at h1 h2
        rw [h1] at h2; cases h2
      have hre : (ts.filter (fun t => !Exact.goesLeft axis ((lo + hi) / 2) t)).isEmpty = false := by
        cases hf : ts.filter (fun t => !Exact.goesLeft axis ((lo + hi) / 2) t) with
        | nil => exact absurd hf hrn
        | cons _ _ => rfl
      simp only [hc, List.isEmpty_nil, Bool.not_true, Bool.false_eq_true, if_false, hre,
        Bool.not_false, if_true]
      refine ⟨fun t ht => ⟨hall t ht, (hin t ht).2⟩, ?_⟩
      ring
    · have hall : ∀ t ∈ ts, t.midpoint.get axis < (lo + hi) / 2 := by
        intro t ht
        have := (List.filter_eq_nil_iff.1 hc) t ht
        simp only [Exact.goesLeft, Bool.not_eq_true', decide_eq_false_iff_not, not_not] at this
        exact this
      have hln : ts.filter (Exact.goesLeft axis ((lo + hi) / 2)) ≠ [] := by
        intro hl
        obtain ⟨t, ht⟩ := List.exists_mem_of_ne_nil ts hne
        have h1 := (List.filter_eq_nil_iff.1 hc) t ht
        have h2 := (List.filter_eq_nil_iff.1 hl) t ht
        simp at h1 h2
        rw [h1] at h2; cases h2
      have hle : (ts.filter (Exact.goesLeft axis ((lo + hi) / 2))).isEmpty = false := by
        cases hf : ts.filter (Exact.goesLeft axis ((lo + hi) / 2)) with
        | nil => exact absurd hf hln
        | cons _ _ => rfl
      simp only [hle, Bool.not_false, if_true]
      refine ⟨fun t ht => ⟨(hin t ht).1, le_of_lt (hall t ht)⟩, ?_⟩
      ring
  · left
    simpa using hc

/-- If two midpoints differ by `d` and the range to bisect is shorter than
`d * 2 ^ n`, the loop stops within `n` passes. -/
theorem exact_splitLoop_terminates (axis : Axis) (ts : Triangles) (t1 t2 : Triangle)
    (h1 : t1 ∈ ts) (h2 : t2 ∈ ts) (n : Nat) (s : Exact.SplitState) (h : Exact.splitCond s = true)
    (hin : ∀ t ∈ ts, (Exact.nextRange s).1 ≤ t.midpoint.get axis ∧
      t.midpoint.get axis ≤ (Exact.nextRange s).2)
    (hw : (Exact.nextRange s).2 - (Exact.nextRange s).1
      < (t2.midpoint.get axis - t1.midpoint.get axis) * 2 ^ n) :
    ∃ s', Exact.splitLoop axis ts n s = Except.ok s' := by
  induction n generalizing s with
  | zero =>
    exfalso
    have := (hin t1 h1).1
    have := (hin t2 h2).2
    simp only [pow_zero, mul_one] at hw
    linarith
  | succ n ih =>
    rw [Exact.splitLoop]
    simp only [h, if_true]
    rcases exact_splitBody_progress axis ts s h hin (List.ne_nil_of_mem h1) with hdone | ⟨hin', hw'⟩
    · refine ⟨Exact.splitBody axis ts s, ?_⟩
      cases n with
      | zero => simp [Exact.splitLoop, hdone]
      | succ m => rw [Exact.splitLoop]; simp [hdone]
    · by_cases hc : Exact.splitCond (Exact.splitBody axis ts s) = true
      · apply ih _ hc hin'
        rw [hw']
        rw [pow_succ] at hw
        linarith
      · refine ⟨Exact.splitBody axis ts s, ?_⟩
        cases n with
        | zero => simp [Exact.splitLoop, hc]
        | succ m => rw [Exact.splitLoop]; simp [hc]

/-! ### The bound -/

/-- C11: if two midpoint coordinates `a < b` along the split axis differ (in
particular the smallest and the largest) and all midpoints lie in
`[bbox.min[axis], bbox.max[axis]]`, the loop of `Exact.split_at_spatial_median`
stops within `floor(log2((max - min) / (b - a))) + 1` passes, and both lists
it returns are non-empty. -/
theorem split_bisection_bound (axis : Axis) (bbox : Box) (ts : Triangles) (t1 t2 : Triangle)
    (h1 : t1 ∈ ts) (h2 : t2 ∈ ts)
    (hlt : t1.midpoint.get axis < t2.midpoint.get axis)
    (hin : ∀ t ∈ ts, bbox.min.get axis ≤ t.midpoint.get axis ∧
      t.midpoint.get axis ≤ bbox.max.get axis) :
    ∃ l r,
      Exact.split_at_spatial_median
        (Nat.log 2 ⌊(bbox.max.get axis - bbox.min.get axis) /
          (t2.midpoint.get axis - t1.midpoint.get axis)⌋₊ + 1) axis bbox ts = Except.ok (l, r) ∧
      l ≠ [] ∧ r ≠ [] := by
  have hd : 0 < t2.midpoint.get axis - t1.midpoint.get axis := by linarith
  have hfl := Nat.lt_floor_add_one ((bbox.max.get axis - bbox.min.get axis) /
    (t2.midpoint.get axis - t1.midpoint.get axis))
  have hlog := Nat.lt_pow_succ_log_self (by norm_num : 1 < 2)
    ⌊(bbox.max.get axis - bbox.min.get axis) /
      (t2.midpoint.get axis - t1.midpoint.get axis)⌋₊
  have hpow : ((⌊(bbox.max.get axis - bbox.min.get axis) /
      (t2.midpoint.get axis - t1.midpoint.get axis)⌋₊ : ℕ) : ℚ) + 1 ≤
      2 ^ (Nat.log 2 ⌊(bbox.max.get axis - bbox.min.get axis) /
        (t2.midpoint.get axis - t1.midpoint.get axis)⌋₊ + 1) := by
    exact_mod_cast hlog
  have hw : bbox.max.get axis - bbox.min.get axis <
      (t2.midpoint.get axis - t1.midpoint.get axis) *
        2 ^ (Nat.log 2 ⌊(bbox.max.get axis - bbox.min.get axis) /
          (t2.midpoint.get axis - t1.midpoint.get axis)⌋₊ + 1) := by
    have h3 := lt_of_lt_of_le hfl hpow
    rw [div_lt_iff₀ hd] at h3
    linarith
  obtain ⟨s', hs'⟩ := exact_splitLoop_terminates axis ts t1 t2 h1 h2 _
    { min := bbox.min.get axis, max := bbox.max.get axis, axis_midpt := 0,
      lft_triangles := [], rht_triangles := [] }
    (by simp [Exact.splitCond]) (by simpa [Exact.nextRange] using hin) (by simpa [Exact.nextRange] using hw)
  have hsplit : Exact.split_at_spatial_median
      (Nat.log 2 ⌊(bbox.max.get axis - bbox.min.get axis) /
        (t2.midpoint.get axis - t1.midpoint.get axis)⌋₊ + 1) axis bbox ts
      = Except.ok (s'.lft_triangles, s'.rht_triangles) := by
    unfold Exact.split_at_spatial_median
    rw [hs']
  obtain ⟨m, _, _, hl, hr⟩ := exact_split_at_spatial_median_ok _ _ _ _ _ _ hsplit
  exact ⟨_, _, hsplit, hl, hr⟩

theorem split_bisection_bound_witness :
    (triUnit ∈ [triUnit, triShifted] ∧ triShifted ∈ [triUnit, triShifted] ∧
      triUnit.midpoint.get Axis.X < triShifted.midpoint.get Axis.X ∧
      ∀ t ∈ [triUnit, triShifted],
        sceneBox.min.get Axis.X ≤ t.midpoint.get Axis.X ∧
        t.midpoint.get Axis.X ≤ sceneBox.max.get Axis.X) ∧
    ∃ l r,
      Exact.split_at_spatial_median
        (Nat.log 2 ⌊(sceneBox.max.get Axis.X -
            sceneBox.min.get Axis.X) /
          (triShifted.midpoint.get Axis.X - triUnit.midpoint.get Axis.X)⌋₊ + 1)
        Axis.X sceneBox [triUnit, triShifted] = Except.ok (l, r) ∧
      l ≠ [] ∧ r ≠ [] :=
  have hin : ∀ t ∈ [triUnit, triShifted],
      sceneBox.min.get Axis.X ≤ t.midpoint.get Axis.X ∧
      t.midpoint.get Axis.X ≤ sceneBox.max.get Axis.X := by decide!
  ⟨⟨by decide, by decide, by decide!, hin⟩,
    split_bisection_bound Axis.X sceneBox [triUnit, triShifted] triUnit triShifted
      (by decide) (by decide) (by decide!) hin⟩

/-! ## SAH cost -/

/-- C12: `cost(al, ar, nl, nr)` is `lambda(nl, nr) * (15 + 20 * (al*nl +
ar*nr))` in exact arithmetic, where `lambda(nl, nr)` is `4/5` (the source's
`0.8f`) if `nl = 0` or `nr = 0` and `1` otherwise. -/
theorem cost_eq (al ar : ℚ) (nl nr : Nat) :
    Exact.cost al ar nl nr
      = Exact.lambda nl nr * (15 + 20 * (al * (nl : ℚ) + ar * (nr : ℚ))) ∧
    Exact.lambda nl nr = (if nl = 0 ∨ nr = 0 then 4 / 5 else 1) := by
  constructor
  · simp [Exact.cost, COST_TRAVERSAL, COST_INTERSECTION]
  · rfl

/-- The value of `surface_area_heuristics` once `split` has returned. -/
theorem surface_area_heuristics_eq (p : Plane) (box lbox rbox : Box) (nl nr np : Nat)
    (hs : split box p = Except.ok (lbox, rbox)) :
    surface_area_heuristics p box nl nr np =
      Except.ok
        (if (cost (F32.div lbox.surface_area box.surface_area)
              (F32.div rbox.surface_area box.surface_area) ((nl + np) % SIZE_MOD) nr).lt
            (cost (F32.div lbox.surface_area box.surface_area)
              (F32.div rbox.surface_area box.surface_area) nl ((np + nr) % SIZE_MOD))
         then
          (cost (F32.div lbox.surface_area box.surface_area)
            (F32.div rbox.surface_area box.surface_area) ((nl + np) % SIZE_MOD) nr, Dir.LEFT)
         else
          (cost (F32.div lbox.surface_area box.surface_area)
            (F32.div rbox.surface_area box.surface_area) nl ((np + nr) % SIZE_MOD),
            Dir.RIGHT)) := by
  unfold surface_area_heuristics
  rw [hs]
  simp only
  split_ifs <;> rfl

/-- With the plane inside the box, the two assertions of `split` hold. -/
theorem split_ok (box : Box) (p : Plane)
    (hin : box.min.get p.ax ≤ p.coord ∧ p.coord ≤ box.max.get p.ax) :
    split box p = Except.ok
      (⟨box.min, box.max.set p.ax p.coord⟩, ⟨box.min.set p.ax p.coord, box.max⟩) := by
  unfold split
  simp [hin.1, hin.2]

/-- A valid box whose sides are no longer than those of a box of finite float
surface area has a finite float surface area that is not larger. -/
theorem surface_area_sub (box sub : Box) (A : ℚ) (hv : sub.valid)
    (hx : sub.max.x - sub.min.x ≤ box.max.x - box.min.x)
    (hy : sub.max.y - sub.min.y ≤ box.max.y - box.min.y)
    (hz : sub.max.z - sub.min.z ≤ box.max.z - box.min.z)
    (h : box.surface_area = F32.fin A) :
    ∃ A', sub.surface_area = F32.fin A' ∧ 0 ≤ A' ∧ A' ≤ A := by
  obtain ⟨vx, vy, vz⟩ := hv
  unfold Box.surface_area at h ⊢
  obtain ⟨a, b, c, ha, hb, hc⟩ := F32.area3_fin_sides h
  rw [ha, hb, hc] at h
  have ha' : F32.ofRat (box.max.x - box.min.x) = F32.fin a := ha
  have hb' : F32.ofRat (box.max.y - box.min.y) = F32.fin b := hb
  have hc' : F32.ofRat (box.max.z - box.min.z) = F32.fin c := hc
  obtain ⟨a', fa, ga, ka⟩ := F32.ofRat_fin_mono (x := sub.max.x - sub.min.x) (by linarith) hx ha'
  obtain ⟨b', fb, gb, kb⟩ := F32.ofRat_fin_mono (x := sub.max.y - sub.min.y) (by linarith) hy hb'
  obtain ⟨c', fc, gc, kc⟩ := F32.ofRat_fin_mono (x := sub.max.z - sub.min.z) (by linarith) hz hc'
  have da : F32.sub (F32.fin sub.max.x) (F32.fin sub.min.x) = F32.fin a' := fa
  have db : F32.sub (F32.fin sub.max.y) (F32.fin sub.min.y) = F32.fin b' := fb
  have dc : F32.sub (F32.fin sub.max.z) (F32.fin sub.min.z) = F32.fin c' := fc
  rw [da, db, dc]
  exact F32.area3_mono ga ka gb kb gc kc h

/-- The two sides of a cut of a valid box of finite float surface area have a
finite float surface area between `0` and that of the box. -/
theorem surface_area_split_le (box : Box) (p : Plane) (A : ℚ) (hv : box.valid)
    (hin : box.min.get p.ax ≤ p.coord ∧ p.coord ≤ box.max.get p.ax)
    (h : box.surface_area = F32.fin A) :
    (∃ Al, (⟨box.min, box.max.set p.ax p.coord⟩ : Box).surface_area = F32.fin Al ∧
      0 ≤ Al ∧ Al ≤ A) ∧
    (∃ Ar, (⟨box.min.set p.ax p.coord, box.max⟩ : Box).surface_area = F32.fin Ar ∧
      0 ≤ Ar ∧ Ar ≤ A) := by
  obtain ⟨hx, hy, hz⟩ := hv
  obtain ⟨ax, c⟩ := p
  obtain ⟨h1, h2⟩ := hin
  cases ax <;> simp only [Vec.get] at h1 h2 <;> constructor <;>
    apply surface_area_sub box _ A _ _ _ _ h <;>
    simp only [Box.valid, Vec.set] <;> first
      | linarith
      | exact ⟨by linarith, by linarith, by linarith⟩

/-- The float area ratio of a box of finite area `Al` between `0` and the
finite, positive area `A` is a float between `0` and `1`. -/
theorem area_ratio_bounds (Al A : ℚ) (hA : 0 < A) (h0 : 0 ≤ Al) (h1 : Al ≤ A) :
    ∃ r, F32.div (F32.fin Al) (F32.fin A) = F32.fin r ∧ 0 ≤ r ∧ r ≤ 1 := by
  have hdiv : F32.div (F32.fin Al) (F32.fin A) = F32.ofRat (Al / A) := by
    simp [F32.div, hA.ne']
  rw [hdiv]
  obtain ⟨r, hr, h2, h3, _⟩ := F32.ofRat_between (x := Al / A) F32.isFloat_zero F32.isFloat_one
    (div_nonneg h0 hA.le) ((div_le_one hA).2 h1)
  exact ⟨r, hr, h2, h3⟩

/-- The bias `lambda` is a float between `0` and `1`. -/
theorem lambda_bounds (a b : Nat) : ∃ l, lambda a b = F32.fin l ∧ 0 ≤ l ∧ l ≤ 1 := by
  unfold lambda
  split_ifs
  · exact ⟨_, F32.ofRat_four_fifths, by norm_num, by norm_num⟩
  · exact ⟨1, by show F32.fin ((1 : Nat) : ℚ) = F32.fin 1; norm_num, by norm_num, by norm_num⟩

/-- A `size_t` count converts to a finite float between `0` and `2^64`. -/
theorem ofNat_bounds (a : Nat) (ha : a < SIZE_MOD) :
    ∃ k, F32.ofNat a = F32.fin k ∧ 0 ≤ k ∧ k ≤ 18446744073709551616 := by
  have ha' : (a : ℚ) ≤ 18446744073709551616 := by
    have : a < 18446744073709551616 := ha
    exact_mod_cast this.le
  obtain ⟨k, hk, h2, h3, _⟩ := F32.ofRat_between (x := (a : ℚ)) F32.isFloat_zero
    F32.isFloat_pow64 (Nat.cast_nonneg a) ha'
  exact ⟨k, hk, h2, h3⟩

/-- The sum `al * nl + ar * nr` of `cost`, for area ratios in `[0, 1]` and
`size_t` counts, is a finite float between `0` and `2^65`. -/
theorem cost_inner_bounds (al ar : ℚ) (a b : Nat) (hal : 0 ≤ al ∧ al ≤ 1)
    (har : 0 ≤ ar ∧ ar ≤ 1) (ha : a < SIZE_MOD) (hb : b < SIZE_MOD) :
    ∃ t, F32.add (F32.mul (F32.fin al) (F32.ofNat a)) (F32.mul (F32.fin ar) (F32.ofNat b))
        = F32.fin t ∧ 0 ≤ t ∧ t ≤ 36893488147419103232 := by
  obtain ⟨ka, ea, ka0, ka1⟩ := ofNat_bounds a ha
  obtain ⟨kb, eb, kb0, kb1⟩ := ofNat_bounds b hb
  rw [ea, eb]
  obtain ⟨p1, e1, p10, p11, _⟩ := F32.ofRat_between (x := al * ka) F32.isFloat_zero
    F32.isFloat_pow64 (mul_nonneg hal.1 ka0) (by nlinarith [hal.1, hal.2])
  obtain ⟨p2, e2, p20, p21, _⟩ := F32.ofRat_between (x := ar * kb) F32.isFloat_zero
    F32.isFloat_pow64 (mul_nonneg har.1 kb0) (by nlinarith [har.1, har.2])
  have d1 : F32.mul (F32.fin al) (F32.fin ka) = F32.fin p1 := e1
  have d2 : F32.mul (F32.fin ar) (F32.fin kb) = F32.fin p2 := e2
  rw [d1, d2]
  obtain ⟨t, e3, t0, t1, _⟩ := F32.ofRat_between (x := p1 + p2) F32.isFloat_zero
    F32.isFloat_pow65 (by linarith) (by linarith)
  exact ⟨t, e3, t0, t1⟩

/-- The value `lambda * (15 + 20 * t)` of `cost`, for a finite float `t`
between `0` and `2^65`, is a finite float between `0` and `2^71`. -/
theorem cost_outer_bounds (a b : Nat) (t : ℚ) (t0 : 0 ≤ t) (t1 : t ≤ 36893488147419103232) :
    ∃ c, F32.mul (lambda a b)
        (F32.add (F32.ofInt COST_TRAVERSAL) (F32.mul (F32.ofInt COST_INTERSECTION) (F32.fin t)))
        = F32.fin c ∧ 0 ≤ c ∧ c ≤ 2361183241434822606848 := by
  obtain ⟨l, el, l0, l1⟩ := lambda_bounds a b
  have e15 : F32.ofInt COST_TRAVERSAL = F32.fin 15 := F32.ofRat_fifteen
  have e20 : F32.ofInt COST_INTERSECTION = F32.fin 20 := F32.ofRat_twenty
  rw [el, e15, e20]
  obtain ⟨y, ey, y0, y1, _⟩ := F32.ofRat_between (x := 20 * t) F32.isFloat_zero
    F32.isFloat_pow70 (by linarith) (by linarith)
  have d1 : F32.mul (F32.fin 20) (F32.fin t) = F32.fin y := ey
  rw [d1]
  obtain ⟨z, ez, z0, z1, _⟩ := F32.ofRat_between (x := 15 + y) F32.isFloat_zero
    F32.isFloat_pow71 (by linarith) (by linarith)
  have d2 : F32.add (F32.fin 15) (F32.fin y) = F32.fin z := ez
  rw [d2]
  obtain ⟨c, ec, c0, c1, _⟩ := F32.ofRat_between (x := l * z) F32.isFloat_zero
    F32.isFloat_pow71 (mul_nonneg l0 z0) (by nlinarith)
  exact ⟨c, ec, c0, c1⟩

/-- With area ratios in `[0, 1]` and `size_t` counts, a cost is a finite float
between `0` and `2^71`. -/
theorem cost_bounds (al ar : ℚ) (a b : Nat) (hal : 0 ≤ al ∧ al ≤ 1) (har : 0 ≤ ar ∧ ar ≤ 1)
    (ha : a < SIZE_MOD) (hb : b < SIZE_MOD) :
    ∃ c, cost (F32.fin al) (F32.fin ar) a b = F32.fin c ∧ 0 ≤ c ∧
      c ≤ 2361183241434822606848 := by
  unfold cost
  obtain ⟨t, et, t0, t1⟩ := cost_inner_bounds al ar a b hal har ha hb
  rw [et]
  exact cost_outer_bounds a b t t0 t1

/-- On a valid box of finite, positive float surface area, the two area
ratios of a cut inside the box are floats between `0` and `1`. -/
theorem sah_ratio_bounds (p : Plane) (box : Box) (A : ℚ) (hv : box.valid)
    (hin : box.min.get p.ax ≤ p.coord ∧ p.coord ≤ box.max.get p.ax)
    (h : box.surface_area = F32.fin A) (hA : 0 < A) :
    (∃ al, F32.div (⟨box.min, box.max.set p.ax p.coord⟩ : Box).surface_area box.surface_area
        = F32.fin al ∧ 0 ≤ al ∧ al ≤ 1) ∧
    (∃ ar, F32.div (⟨box.min.set p.ax p.coord, box.max⟩ : Box).surface_area box.surface_area
        = F32.fin ar ∧ 0 ≤ ar ∧ ar ≤ 1) := by
  obtain ⟨⟨Al, el, l0, l1⟩, ⟨Ar, er, r0, r1⟩⟩ := surface_area_split_le box p A hv hin h
  rw [el, er, h]
  exact ⟨area_ratio_bounds Al A hA l0 l1, area_ratio_bounds Ar A hA r0 r1⟩

/-- C13: for a box with positive surface area and a plane `p` inside it, with
`(Bl, Br) = split(box, p)`, `al = SA(Bl)/SA(box)` and `ar = SA(Br)/SA(box)`,
all in `float`, `surface_area_heuristics(p, box, nl, nr, np)` returns
left-cost `cost(al, ar, nl+np, nr)` with the tag LEFT when left-cost is
strictly smaller than right-cost `cost(al, ar, nl, nr+np)`, and right-cost
with the tag RIGHT otherwise.  The sums are `size_t` sums: they are taken
modulo `2 ^ 64`, and are the plain sums whenever these are below `2 ^ 64`.
On a valid box whose float surface area is finite, both costs are finite
floats for `size_t` counts, and the cost returned is the smaller of the
two. -/
theorem sah_smaller_cost (p : Plane) (box : Box) (nl nr np : Nat)
    (harea : F32.lt 0 box.surface_area = true)
    (hin : box.min.get p.ax ≤ p.coord ∧ p.coord ≤ box.max.get p.ax) :
    ∃ lbox rbox, split box p = Except.ok (lbox, rbox) ∧
      surface_area_heuristics p box nl nr np =
        Except.ok
          (if (cost (F32.div lbox.surface_area box.surface_area)
                (F32.div rbox.surface_area box.surface_area) ((nl + np) % SIZE_MOD) nr).lt
              (cost (F32.div lbox.surface_area box.surface_area)
                (F32.div rbox.surface_area box.surface_area) nl ((nr + np) % SIZE_MOD))
           then
            (cost (F32.div lbox.surface_area box.surface_area)
              (F32.div rbox.surface_area box.surface_area) ((nl + np) % SIZE_MOD) nr,
              Dir.LEFT)
           else
            (cost (F32.div lbox.surface_area box.surface_area)
              (F32.div rbox.surface_area box.surface_area) nl ((nr + np) % SIZE_MOD),
              Dir.RIGHT)) ∧
      (nl + np < SIZE_MOD → nr + np < SIZE_MOD →
        surface_area_heuristics p box nl nr np =
          Except.ok
            (if (cost (F32.div lbox.surface_area box.surface_area)
                  (F32.div rbox.surface_area box.surface_area) (nl + np) nr).lt
                (cost (F32.div lbox.surface_area box.surface_area)
                  (F32.div rbox.surface_area box.surface_area) nl (nr + np))
             then
              (cost (F32.div lbox.surface_area box.surface_area)
                (F32.div rbox.surface_area box.surface_area) (nl + np) nr, Dir.LEFT)
             else
              (cost (F32.div lbox.surface_area box.surface_area)
                (F32.div rbox.surface_area box.surface_area) nl (nr + np), Dir.RIGHT))) ∧
      (box.valid → (∃ A, box.surface_area = F32.fin A) → nl < SIZE_MOD → nr < SIZE_MOD →
        ∃ cl cr : ℚ,
          cost (F32.div lbox.surface_area box.surface_area)
            (F32.div rbox.surface_area box.surface_area) ((nl + np) % SIZE_MOD) nr
            = F32.fin cl ∧
          cost (F32.div lbox.surface_area box.surface_area)
            (F32.div rbox.surface_area box.surface_area) nl ((nr + np) % SIZE_MOD)
            = F32.fin cr ∧
          surface_area_heuristics p box nl nr np =
            Except.ok (F32.fin (Min.min cl cr), if cl < cr then Dir.LEFT else Dir.RIGHT)) := by
  have hmod : 0 < SIZE_MOD := by unfold SIZE_MOD; norm_num
  have heq := surface_area_heuristics_eq p box _ _ nl nr np (split_ok box p hin)
  rw [Nat.add_comm np nr] at heq
  refine ⟨_, _, split_ok box p hin, heq, ?_, ?_⟩
  · intro h1 h2
    rw [heq, Nat.mod_eq_of_lt h1, Nat.mod_eq_of_lt h2]
  · intro hv hfin hnl hnr
    obtain ⟨A, hA⟩ := hfin
    have hpos : 0 < A := by
      rw [hA] at harea
      simpa [F32.lt, OfNat.ofNat] using harea
    obtain ⟨⟨al, el, hal⟩, ⟨ar, er, har⟩⟩ := sah_ratio_bounds p box A hv hin hA hpos
    obtain ⟨cl, ecl, _⟩ := cost_bounds al ar ((nl + np) % SIZE_MOD) nr hal har
      (Nat.mod_lt _ hmod) hnr
    obtain ⟨cr, ecr, _⟩ := cost_bounds al ar nl ((nr + np) % SIZE_MOD) hal har hnl
      (Nat.mod_lt _ hmod)
    rw [← el, ← er] at ecl ecr
    refine ⟨cl, cr, ecl, ecr, ?_⟩
    rw [heq, ecl, ecr]
    by_cases hlt : cl < cr
    · simp [F32.lt, hlt, min_eq_left hlt.le]
    · simp [F32.lt, hlt, min_eq_right (not_lt.1 hlt)]

theorem sah_smaller_cost_witness :
    (F32.lt 0 (⟨⟨0, 0, 0⟩, ⟨16777216, 1, 0⟩⟩ : Box).surface_area = true ∧
      (⟨⟨0, 0, 0⟩, ⟨16777216, 1, 0⟩⟩ : Box).min.get Axis.X ≤ 8388607 ∧
      (8388607 : ℚ) ≤ (⟨⟨0, 0, 0⟩, ⟨16777216, 1, 0⟩⟩ : Box).max.get Axis.X) ∧
    surface_area_heuristics ⟨Axis.X, 8388607⟩ ⟨⟨0, 0, 0⟩, ⟨16777216, 1, 0⟩⟩ 1 1 1
      = Except.ok (45, Dir.RIGHT) ∧
    ∃ lbox rbox, split ⟨⟨0, 0, 0⟩, ⟨16777216, 1, 0⟩⟩ ⟨Axis.X, 8388607⟩
        = Except.ok (lbox, rbox) ∧
      surface_area_heuristics ⟨Axis.X, 8388607⟩ ⟨⟨0, 0, 0⟩, ⟨16777216, 1, 0⟩⟩ 1 1 1 =
        Except.ok
          (if (cost (F32.div lbox.surface_area
                  (⟨⟨0, 0, 0⟩, ⟨16777216, 1, 0⟩⟩ : Box).surface_area)
                (F32.div rbox.surface_area
                  (⟨⟨0, 0, 0⟩, ⟨16777216, 1, 0⟩⟩ : Box).surface_area)
                ((1 + 1) % SIZE_MOD) 1).lt
              (cost (F32.div lbox.surface_area
                  (⟨⟨0, 0, 0⟩, ⟨16777216, 1, 0⟩⟩ : Box).surface_area)
                (F32.div rbox.surface_area
                  (⟨⟨0, 0, 0⟩, ⟨16777216, 1, 0⟩⟩ : Box).surface_area)
                1 ((1 + 1) % SIZE_MOD))
           then
            (cost (F32.div lbox.surface_area
                (⟨⟨0, 0, 0⟩, ⟨16777216, 1, 0⟩⟩ : Box).surface_area)
              (F32.div rbox.surface_area
                (⟨⟨0, 0, 0⟩, ⟨16777216, 1, 0⟩⟩ : Box).surface_area)
              ((1 + 1) % SIZE_MOD) 1, Dir.LEFT)
           else
            (cost (F32.div lbox.surface_area
                (⟨⟨0, 0, 0⟩, ⟨16777216, 1, 0⟩⟩ : Box).surface_area)
              (F32.div rbox.surface_area
                (⟨⟨0, 0, 0⟩, ⟨16777216, 1, 0⟩⟩ : Box).surface_area)
              1 ((1 + 1) % SIZE_MOD), Dir.RIGHT)) ∧
      (1 + 1 < SIZE_MOD → 1 + 1 < SIZE_MOD →
        surface_area_heuristics ⟨Axis.X, 8388607⟩ ⟨⟨0, 0, 0⟩, ⟨16777216, 1, 0⟩⟩ 1 1 1 =
          Except.ok
            (if (cost (F32.div lbox.surface_area
                    (⟨⟨0, 0, 0⟩, ⟨16777216, 1, 0⟩⟩ : Box).surface_area)
                  (F32.div rbox.surface_area
                    (⟨⟨0, 0, 0⟩, ⟨16777216, 1, 0⟩⟩ : Box).surface_area)
                  (1 + 1) 1).lt
                (cost (F32.div lbox.surface_area
                    (⟨⟨0, 0, 0⟩, ⟨16777216, 1, 0⟩⟩ : Box).surface_area)
                  (F32.div rbox.surface_area
                    (⟨⟨0, 0, 0⟩, ⟨16777216, 1, 0⟩⟩ : Box).surface_area)
                  1 (1 + 1))
             then
              (cost (F32.div lbox.surface_area
                  (⟨⟨0, 0, 0⟩, ⟨16777216, 1, 0⟩⟩ : Box).surface_area)
                (F32.div rbox.surface_area
                  (⟨⟨0, 0, 0⟩, ⟨16777216, 1, 0⟩⟩ : Box).surface_area)
                (1 + 1) 1, Dir.LEFT)
             else
              (cost (F32.div lbox.surface_area
                  (⟨⟨0, 0, 0⟩, ⟨16777216, 1, 0⟩⟩ : Box).surface_area)
                (F32.div rbox.surface_area
                  (⟨⟨0, 0, 0⟩, ⟨16777216, 1, 0⟩⟩ : Box).surface_area)
                1 (1 + 1), Dir.RIGHT))) ∧
      ((⟨⟨0, 0, 0⟩, ⟨16777216, 1, 0⟩⟩ : Box).valid →
        (∃ A, (⟨⟨0, 0, 0⟩, ⟨16777216, 1, 0⟩⟩ : Box).surface_area = F32.fin A) →
        1 < SIZE_MOD → 1 < SIZE_MOD →
        ∃ cl cr : ℚ,
          cost (F32.div lbox.surface_area (⟨⟨0, 0, 0⟩, ⟨16777216, 1, 0⟩⟩ : Box).surface_area)
            (F32.div rbox.surface_area (⟨⟨0, 0, 0⟩, ⟨16777216, 1, 0⟩⟩ : Box).surface_area)
            ((1 + 1) % SIZE_MOD) 1 = F32.fin cl ∧
          cost (F32.div lbox.surface_area (⟨⟨0, 0, 0⟩, ⟨16777216, 1, 0⟩⟩ : Box).surface_area)
            (F32.div rbox.surface_area (⟨⟨0, 0, 0⟩, ⟨16777216, 1, 0⟩⟩ : Box).surface_area)
            1 ((1 + 1) % SIZE_MOD) = F32.fin cr ∧
          surface_area_heuristics ⟨Axis.X, 8388607⟩ ⟨⟨0, 0, 0⟩, ⟨16777216, 1, 0⟩⟩ 1 1 1 =
            Except.ok (F32.fin (Min.min cl cr), if cl < cr then Dir.LEFT else Dir.RIGHT)) :=
  ⟨⟨by decide!, by decide!, by decide!⟩, by decide!,
    sah_smaller_cost ⟨Axis.X, 8388607⟩ ⟨⟨0, 0, 0⟩, ⟨16777216, 1, 0⟩⟩ 1 1 1 (by decide!)
      ⟨by decide!, by decide!⟩⟩

/-! ## The threshold of the split -/

/-- The pass of the loop body bisects the range `nextRange`. -/
theorem splitBody_range (axis : Axis) (ts : Triangles) (s : SplitState) (h : splitCond s = true) :
    splitBody axis ts s =
      { min := (nextRange s).1, max := (nextRange s).2
        axis_midpt := bisect (nextRange s).1 (nextRange s).2
        lft_triangles := ts.filter (goesLeft axis (bisect (nextRange s).1 (nextRange s).2))
        rht_triangles :=
          ts.filter (fun t => !goesLeft axis (bisect (nextRange s).1 (nextRange s).2) t) } := by
  unfold splitBody nextRange
  simp only [splitFold_eq]
  unfold splitCond at h
  cases hl : s.lft_triangles with
  | cons a l =>
    have hr : s.rht_triangles = [] := by
      cases hr : s.rht_triangles with
      | nil => rfl
      | cons b r => simp [hl, hr] at h
    simp [hr]
  | nil =>
    cases hr : s.rht_triangles with
    | nil => simp [hl, hr]
    | cons b r => simp [hl]

theorem filter_goesLeft_pinf (axis : Axis) (ts : Triangles) :
    ts.filter (goesLeft axis F32.pinf) = ts ∧
      ts.filter (fun t => !goesLeft axis F32.pinf t) = [] := by
  constructor
  · rw [List.filter_eq_self]; intro t _; rfl
  · rw [List.filter_eq_nil_iff]; intro t _; simp [goesLeft, F32.lt]

theorem filter_goesLeft_ninf (axis : Axis) (ts : Triangles) :
    ts.filter (goesLeft axis F32.ninf) = [] ∧
      ts.filter (fun t => !goesLeft axis F32.ninf t) = ts := by
  constructor
  · rw [List.filter_eq_nil_iff]; intro t _; simp [goesLeft, F32.lt]
  · rw [List.filter_eq_self]; intro t _; simp [goesLeft, F32.lt]

/-- The state after a pass that bisects at plus infinity: every triangle goes
left, and the next range ends at plus infinity again. -/
theorem rangeInv_pinf (axis : Axis) (ts : Triangles) (bmin bmax : ℚ) (lo : F32) (hi : F32)
    (hgood : ts = [] → RangeInv bmin bmax ts (lo, hi)) (hlo : ∃ q, lo = F32.fin q) :
    splitCond
        { min := lo, max := hi, axis_midpt := F32.pinf
          lft_triangles := ts.filter (goesLeft axis F32.pinf)
          rht_triangles := ts.filter (fun t => !goesLeft axis F32.pinf t) } = true ∧
      RangeInv bmin bmax ts (nextRange
        { min := lo, max := hi, axis_midpt := F32.pinf
          lft_triangles := ts.filter (goesLeft axis F32.pinf)
          rht_triangles := ts.filter (fun t => !goesLeft axis F32.pinf t) }) := by
  obtain ⟨h1, h2⟩ := filter_goesLeft_pinf axis ts
  rw [h1, h2]
  refine ⟨by simp [splitCond], ?_⟩
  unfold nextRange
  cases ts with
  | nil => simpa using hgood rfl
  | cons t rest =>
    obtain ⟨q, hq⟩ := hlo
    simp only [List.isEmpty_cons, Bool.not_false, if_true]
    right; left
    exact ⟨by simp, q, by rw [hq]⟩

/-- The state after a pass that bisects at minus infinity: every triangle goes
right, and the next range starts at minus infinity again. -/
theorem rangeInv_ninf (axis : Axis) (ts : Triangles) (bmin bmax : ℚ) (lo : F32) (hi : F32)
    (hgood : ts = [] → RangeInv bmin bmax ts (lo, hi)) (hhi : ∃ q, hi = F32.fin q) :
    splitCond
        { min := lo, max := hi, axis_midpt := F32.ninf
          lft_triangles := ts.filter (goesLeft axis F32.ninf)
          rht_triangles := ts.filter (fun t => !goesLeft axis F32.ninf t) } = true ∧
      RangeInv bmin bmax ts (nextRange
        { min := lo, max := hi, axis_midpt := F32.ninf
          lft_triangles := ts.filter (goesLeft axis F32.ninf)
          rht_triangles := ts.filter (fun t => !goesLeft axis F32.ninf t) }) := by
  obtain ⟨h1, h2⟩ := filter_goesLeft_ninf axis ts
  rw [h1, h2]
  refine ⟨by simp [splitCond], ?_⟩
  unfold nextRange
  cases ts with
  | nil => simpa using hgood rfl
  | cons t rest =>
    obtain ⟨q, hq⟩ := hhi
    simp only [List.isEmpty_nil, Bool.not_true, Bool.false_eq_true, if_false,
      List.isEmpty_cons, Bool.not_false, if_true]
    right; right
    exact ⟨by simp, q, by rw [hq]⟩

/-- A pass of the loop body over a range of `RangeInv` either ends the loop,
at a float inside a range of floats inside the box, or leaves a range of
`RangeInv` to bisect. -/
theorem rangeInv_step (axis : Axis) (ts : Triangles) (bmin bmax : ℚ) (s : SplitState)
    (h : splitCond s = true) (hinv : RangeInv bmin bmax ts (nextRange s)) :
    (splitCond (splitBody axis ts s) = false ∧
      ∃ lo hi m : ℚ, F32.IsFloat m ∧ bmin ≤ lo ∧ lo ≤ m ∧ m ≤ hi ∧ hi ≤ bmax ∧
        splitBody axis ts s =
          { min := F32.fin lo, max := F32.fin hi, axis_midpt := F32.fin m
            lft_triangles := ts.filter (goesLeft axis (F32.fin m))
            rht_triangles := ts.filter (fun t => !goesLeft axis (F32.fin m) t) }) ∨
    (splitCond (splitBody axis ts s) = true ∧
      RangeInv bmin bmax ts (nextRange (splitBody axis ts s))) := by
  rw [splitBody_range axis ts s h]
  generalize nextRange s = r at hinv
  rcases hinv with ⟨lo, hi, rfl, hlo, hhi, h1, h2, h3⟩ | ⟨hne, lo, rfl⟩ | ⟨hne, hi, rfl⟩
  · simp only
    have hgood : RangeInv bmin bmax ts (F32.fin lo, F32.fin hi) :=
      Or.inl ⟨lo, hi, rfl, hlo, hhi, h1, h2, h3⟩
    rcases bisect_fin lo hi hlo hhi h2 with ⟨m, hm, hmf, h4, h5⟩ | hp | hn
    · rw [hm]
      by_cases hc : splitCond
          { min := F32.fin lo, max := F32.fin hi, axis_midpt := F32.fin m
            lft_triangles := ts.filter (goesLeft axis (F32.fin m))
            rht_triangles := ts.filter (fun t => !goesLeft axis (F32.fin m) t) } = true
      · right
        refine ⟨hc, ?_⟩
        unfold nextRange
        simp only
        split_ifs
        · exact Or.inl ⟨lo, m, rfl, hlo, hmf, h1, h4, le_trans h5 h3⟩
        · exact Or.inl ⟨m, hi, rfl, hmf, hhi, le_trans h1 h4, h5, h3⟩
        · exact hgood
      · left
        exact ⟨by simpa using hc, lo, hi, m, hmf, h1, h4, h5, h3, rfl⟩
    · rw [hp]
      right
      exact rangeInv_pinf axis ts bmin bmax _ _ (fun _ => hgood) ⟨lo, rfl⟩
    · rw [hn]
      right
      exact rangeInv_ninf axis ts bmin bmax _ _ (fun _ => hgood) ⟨hi, rfl⟩
  · simp only
    rw [bisect_pinf]
    right
    exact rangeInv_pinf axis ts bmin bmax _ _ (fun h0 => absurd h0 hne) ⟨lo, rfl⟩
  · simp only
    rw [bisect_ninf]
    right
    exact rangeInv_ninf axis ts bmin bmax _ _ (fun h0 => absurd h0 hne) ⟨hi, rfl⟩

/-- The state in which the loop stops, started from a state that satisfies the
loop condition and a range of `RangeInv`, is the result of bisecting a range
of floats inside the box at a float inside the range. -/
theorem splitLoop_range (axis : Axis) (ts : Triangles) (bmin bmax : ℚ) (fuel : Nat)
    (s s' : SplitState) (hc : splitCond s = true)
    (hinv : RangeInv bmin bmax ts (nextRange s))
    (h : splitLoop axis ts fuel s = Except.ok s') :
    ∃ lo hi m : ℚ, F32.IsFloat m ∧ bmin ≤ lo ∧ lo ≤ m ∧ m ≤ hi ∧ hi ≤ bmax ∧
      s' = { min := F32.fin lo, max := F32.fin hi, axis_midpt := F32.fin m
             lft_triangles := ts.filter (goesLeft axis (F32.fin m))
             rht_triangles := ts.filter (fun t => !goesLeft axis (F32.fin m) t) } := by
  induction fuel generalizing s with
  | zero => simp [splitLoop, hc] at h
  | succ n ih =>
    rw [splitLoop] at h
    simp only [hc, if_true] at h
    rcases rangeInv_step axis ts bmin bmax s hc hinv with
      ⟨hdone, lo, hi, m, hmf, h1, h2, h3, h4, hbody⟩ | ⟨hc', hinv'⟩
    · rw [splitLoop_of_not_cond axis ts n _ hdone] at h
      injection h with h
      exact ⟨lo, hi, m, hmf, h1, h2, h3, h4, by rw [← h, hbody]⟩
    · exact ih _ hc' hinv' h

theorem filter_goesLeft_fin (axis : Axis) (m : ℚ) (ts : Triangles) :
    ts.filter (goesLeft axis (F32.fin m))
      = ts.filter (fun t => decide (t.midpoint.get axis < m)) := rfl

theorem filter_not_goesLeft (axis : Axis) (m : ℚ) (ts : Triangles) :
    ts.filter (fun t => !goesLeft axis (F32.fin m) t)
      = ts.filter (fun t => decide (m ≤ t.midpoint.get axis)) := by
  apply List.filter_congr
  intro t _
  by_cases hlt : t.midpoint.get axis < m
  · simp [goesLeft, F32.lt, hlt]
  · simp [goesLeft, F32.lt, hlt, not_lt.1 hlt]

/-- C20, as stated, fails in `float`.  The box `longBox` spans `[1, 2^24]`
along X, and the midpoints of the three triangles along X are `1`, `2^23`
and `2^24`.  The box midpoint `(1 + 2^24) / 2` separates the triangles into
the first two and the third; the loop bisects at the float `(min + max) / 2.f`,
which is `2^23` (the sum `2^24 + 1` rounds to `2^24`), and returns the first
triangle and the last two. -/
theorem split_threshold_counterexample :
    split_at_spatial_median 1 Axis.X longBox [triOne, triHalf, triEdge]
      = Except.ok ([triOne], [triHalf, triEdge]) ∧
    boundingBox triOne [triHalf, triEdge] = longBox ∧
    chooseAxis longBox = Axis.X ∧
    (longBox.min.get Axis.X + longBox.max.get Axis.X) / 2 = 16777217 / 2 ∧
    [triOne, triHalf, triEdge].filter (fun t => decide (t.midpoint.get Axis.X
      < (longBox.min.get Axis.X + longBox.max.get Axis.X) / 2)) = [triOne, triHalf] ∧
    [triOne, triHalf, triEdge].filter (fun t => decide
      ((longBox.min.get Axis.X + longBox.max.get Axis.X) / 2 ≤ t.midpoint.get Axis.X))
      = [triEdge] ∧
    bisect (F32.fin (longBox.min.get Axis.X)) (F32.fin (longBox.max.get Axis.X)) = 8388608 := by
  decide!

/-- C20, amended: when `split_at_spatial_median(axis, bbox, triangles)`
returns, for a box whose `min[axis] <= max[axis]` are floats, there is a
float threshold `m` with `bbox.min[axis] <= m <= bbox.max[axis]` such that
the left list is the input triangles with `midpoint()[axis] < m` and the
right list those with `midpoint()[axis] >= m`, each in input order and both
non-empty; if the float `(min + max) / 2.f` of the box separates the
triangles, the lists are those for that float. -/
theorem split_threshold (fuel : Nat) (axis : Axis) (bbox : Box) (ts l r : Triangles)
    (hbox : bbox.min.get axis ≤ bbox.max.get axis)
    (hmin : F32.IsFloat (bbox.min.get axis)) (hmax : F32.IsFloat (bbox.max.get axis))
    (h : split_at_spatial_median fuel axis bbox ts = Except.ok (l, r)) :
    (∃ m, F32.IsFloat m ∧ bbox.min.get axis ≤ m ∧ m ≤ bbox.max.get axis ∧
      l = ts.filter (fun t => decide (t.midpoint.get axis < m)) ∧
      r = ts.filter (fun t => decide (m ≤ t.midpoint.get axis)) ∧
      l ≠ [] ∧ r ≠ []) ∧
    (∀ m0 : ℚ,
      bisect (F32.fin (bbox.min.get axis)) (F32.fin (bbox.max.get axis)) = F32.fin m0 →
      ts.filter (fun t => decide (t.midpoint.get axis < m0)) ≠ [] →
      ts.filter (fun t => decide (m0 ≤ t.midpoint.get axis)) ≠ [] →
      l = ts.filter (fun t => decide (t.midpoint.get axis < m0)) ∧
      r = ts.filter (fun t => decide (m0 ≤ t.midpoint.get axis))) := by
  have hs := h
  unfold split_at_spatial_median at hs
  split at hs
  · cases hs
  · rename_i s' hloop
    injection hs with hs
    injection hs with hl hr
    have hc0 : splitCond (⟨F32.fin (bbox.min.get axis), F32.fin (bbox.max.get axis), 0, [], []⟩
        : SplitState) = true := by simp [splitCond]
    have hinv0 : RangeInv (bbox.min.get axis) (bbox.max.get axis) ts
        (nextRange (⟨F32.fin (bbox.min.get axis), F32.fin (bbox.max.get axis), 0, [], []⟩
          : SplitState)) := by
      left
      exact ⟨_, _, by simp [nextRange], hmin, hmax, le_refl _, hbox, le_refl _⟩
    obtain ⟨lo, hi, m, hmf, h1, h2, h3, h4, hs'⟩ :=
      splitLoop_range axis ts _ _ fuel _ s' hc0 hinv0 hloop
    obtain ⟨_, _, _, hln, hrn⟩ := split_at_spatial_median_ok _ _ _ _ _ _ h
    constructor
    · refine ⟨m, hmf, by linarith, by linarith, ?_, ?_, hln, hrn⟩
      · rw [← hl, hs']; rfl
      · rw [← hr, hs']; exact filter_not_goesLeft axis _ ts
    · intro m0 hm0 hl0 hr0
      cases fuel with
      | zero => simp [splitLoop, hc0] at hloop
      | succ n =>
        rw [splitLoop] at hloop
        simp only [hc0, if_true] at hloop
        have hbody := splitBody_range axis ts _ hc0
        simp only [nextRange, List.isEmpty_nil, Bool.not_true, Bool.false_eq_true,
          if_false] at hbody
        rw [hbody, hm0] at hloop
        have hdone : splitCond
            { min := F32.fin (bbox.min.get axis), max := F32.fin (bbox.max.get axis)
              axis_midpt := F32.fin m0
              lft_triangles := ts.filter (goesLeft axis (F32.fin m0))
              rht_triangles := ts.filter (fun t => !goesLeft axis (F32.fin m0) t) }
            = false := by
          rw [filter_not_goesLeft, filter_goesLeft_fin]
          simp [splitCond, hl0, hr0]
        rw [splitLoop_of_not_cond axis ts n _ hdone] at hloop
        injection hloop with hloop
        constructor
        · rw [← hl, ← hloop]; rfl
        · rw [← hr, ← hloop]; exact filter_not_goesLeft axis _ ts

theorem split_threshold_witness :
    (sceneBox.min.get Axis.X ≤ sceneBox.max.get Axis.X ∧
      F32.IsFloat (sceneBox.min.get Axis.X) ∧ F32.IsFloat (sceneBox.max.get Axis.X) ∧
      split_at_spatial_median 1 Axis.X sceneBox [triUnit, triShifted]
        = Except.ok ([triUnit], [triShifted])) ∧
    ((∃ m, F32.IsFloat m ∧ sceneBox.min.get Axis.X ≤ m ∧
        m ≤ sceneBox.max.get Axis.X ∧
      [triUnit] = [triUnit, triShifted].filter (fun t => decide (t.midpoint.get Axis.X < m)) ∧
      [triShifted] = [triUnit, triShifted].filter (fun t => decide (m ≤ t.midpoint.get Axis.X)) ∧
      [triUnit] ≠ [] ∧ [triShifted] ≠ []) ∧
    (∀ m0 : ℚ,
      bisect (F32.fin (sceneBox.min.get Axis.X)) (F32.fin (sceneBox.max.get Axis.X))
        = F32.fin m0 →
      [triUnit, triShifted].filter (fun t => decide (t.midpoint.get Axis.X < m0)) ≠ [] →
      [triUnit, triShifted].filter (fun t => decide (m0 ≤ t.midpoint.get Axis.X)) ≠ [] →
      [triUnit] = [triUnit, triShifted].filter (fun t => decide (t.midpoint.get Axis.X < m0)) ∧
      [triShifted]
        = [triUnit, triShifted].filter (fun t => decide (m0 ≤ t.midpoint.get Axis.X)))) :=
  ⟨⟨by decide!, by decide!, by decide!, by decide!⟩,
    split_threshold 1 Axis.X sceneBox [triUnit, triShifted] [triUnit] [triShifted]
      (by decide!) (by decide!) (by decide!) (by decide!)⟩

/-! ## The event sweep of `find_plane` -/

/-- The events `find_plane` sweeps for the scene `[triUnit]` along X are
`unitEvents`. -/
theorem unitEvents_eq :
    sampleLib.sort (FastKDTree.eventLess sampleLib)
      (FastKDTree.generateEvents sampleLib [triUnit] triUnit.bbox Axis.X) = unitEvents := by
  decide!

/-- C14 on the code: for the single triangle `triUnit`, which starts at
`p = 0` and ends at `p = 1` along X, the sweep passes `num_rtris = 0` at
`p = 0` (the claim: `1`, only ENDING and PLANAR events are subtracted) and
`num_ltris = 0`, `num_rtris = -1` at `p = 1` (the claim: `1` and `0`); it
ends with `num_ltris = 0` and `num_rtris = -1`.  The STARTING sub-loop
increments `point_ending`, and `point_starting` stays `0`. -/
theorem sweep_counters_unit :
    FastKDTree.sweepCalls 0 2 unitEvents 0 1 =
      [(⟨Axis.X, 0⟩, 0, 0, 0), (⟨Axis.X, 1⟩, 0, -1, 0)] ∧
    FastKDTree.sweep triUnit.bbox 0 2 unitEvents ⟨0, 0, 1, FastKDTree.FLT_MAX, none, none⟩ =
      Except.ok ⟨0, 0, -1, 12, some ⟨Axis.X, 0⟩, some Dir.RIGHT⟩ := by
  decide!

/-- The comparator is irreflexive. -/
theorem eventLess_irrefl (lib : FastKDTree.Lib) (e : FastKDTree.Event) :
    FastKDTree.eventLess lib e e = false := by
  simp [FastKDTree.eventLess]

/-- For every tolerance `eps > 0` whose half is a float, with `eps_zero(x)`
meaning `|x| < eps`, a STARTING event at `0` and an ENDING event at `eps / 2`
are each less than the other. -/
theorem eventLess_both (lib : FastKDTree.Lib) (eps : ℚ) (heps : 0 < eps)
    (hz : ∀ x, lib.eps_zero (F32.fin x) = decide (|x| < eps)) (hf : F32.IsFloat (eps / 2))
    (tri : Triangle) :
    FastKDTree.eventLess lib ⟨tri, 0, FastKDTree.STARTING⟩ ⟨tri, eps / 2, FastKDTree.ENDING⟩
      = true ∧
    FastKDTree.eventLess lib ⟨tri, eps / 2, FastKDTree.ENDING⟩ ⟨tri, 0, FastKDTree.STARTING⟩
      = true := by
  have h2 : (0 : ℚ) < eps / 2 := by linarith
  constructor
  · simp [FastKDTree.eventLess, h2]
  · have habs : |eps / 2| < eps := by
      rw [abs_of_pos h2]; linarith
    have hsub : F32.sub (F32.fin (eps / 2)) (F32.fin 0) = F32.fin (eps / 2) := by
      show F32.ofRat (eps / 2 - 0) = F32.fin (eps / 2)
      rw [sub_zero]
      exact hf
    simp [FastKDTree.eventLess, hsub, hz, habs, FastKDTree.ENDING, FastKDTree.STARTING]

/-- C17 on the code: with `eps_zero(x)` meaning `|x| < 1/1000000`, the
STARTING event at `0` is less than the ENDING event at `2^-21` (smaller
coordinate) and the ENDING event is less than the STARTING event (coordinates
equal under `eps_zero`, smaller kind): the comparator is not asymmetric, and,
being irreflexive, not transitive. -/
theorem eventLess_not_asymmetric :
    FastKDTree.eventLess sampleLib evStart evEndNear = true ∧
    FastKDTree.eventLess sampleLib evEndNear evStart = true ∧
    FastKDTree.eventLess sampleLib evStart evStart = false := by
  decide!

/-! ## The minimum kept by `find_plane` -/

/-- A float that is not less than another is a NaN, or the other is a NaN or
not larger. -/
theorem F32.nan_or_le_of_not_lt {a b : F32} (h : a.lt b = false) :
    a = F32.nan ∨ b = F32.nan ∨ b.le a = true := by
  by_cases ha : a = F32.nan
  · exact Or.inl ha
  · by_cases hb : b = F32.nan
    · exact Or.inr (Or.inl hb)
    · exact Or.inr (Or.inr (F32.le_of_not_lt ha hb h))

/-- The running minimum after a list of candidates: either unchanged, no
candidate being cheaper, or the first candidate of least cost; a NaN cost is
never recorded. -/
theorem foldl_recordMin (cands : List (Plane × F32 × Dir))
    (acc : F32 × Option Plane × Option Dir) :
    (cands.foldl FastKDTree.recordMin acc = acc ∧ ∀ x ∈ cands, x.2.1.lt acc.1 = false) ∨
    (∃ pre p c d post, cands = pre ++ (p, c, d) :: post ∧
      cands.foldl FastKDTree.recordMin acc = (c, some p, some d) ∧ c.lt acc.1 = true ∧
      (∀ x ∈ pre, x.2.1 = F32.nan ∨ c.lt x.2.1 = true) ∧
      (∀ x ∈ post, x.2.1 = F32.nan ∨ c.le x.2.1 = true)) := by
  induction cands generalizing acc with
  | nil => left; simp
  | cons x xs ih =>
    rw [List.foldl_cons]
    by_cases hx : x.2.1.lt acc.1 = true
    · have hacc : FastKDTree.recordMin acc x = (x.2.1, some x.1, some x.2.2) := by
        simp [FastKDTree.recordMin, hx]
      rw [hacc]
      right
      rcases ih (x.2.1, some x.1, some x.2.2) with ⟨h1, h2⟩ | ⟨pre, p, c, d, post, h1, h2, h3, h4, h5⟩
      · refine ⟨[], x.1, x.2.1, x.2.2, xs, by simp, h1, hx, by simp, ?_⟩
        intro y hy
        rcases F32.nan_or_le_of_not_lt (h2 y hy) with h | h | h
        · exact Or.inl h
        · exact absurd h (F32.ne_nan_of_lt_left hx)
        · exact Or.inr h
      · refine ⟨x :: pre, p, c, d, post, by simp [h1], h2, F32.lt_trans h3 hx, ?_, h5⟩
        intro y hy
        rcases List.mem_cons.1 hy with hy | hy
        · rw [hy]; exact Or.inr h3
        · exact h4 y hy
    · have hx' : x.2.1.lt acc.1 = false := by simpa using hx
      have hacc : FastKDTree.recordMin acc x = acc := by
        simp [FastKDTree.recordMin, hx']
      rw [hacc]
      rcases ih acc with ⟨h1, h2⟩ | ⟨pre, p, c, d, post, h1, h2, h3, h4, h5⟩
      · left
        refine ⟨h1, ?_⟩
        intro y hy
        rcases List.mem_cons.1 hy with hy | hy
        · rw [hy]; exact hx'
        · exact h2 y hy
      · right
        refine ⟨x :: pre, p, c, d, post, by simp [h1], h2, h3, ?_, h5⟩
        intro y hy
        rcases List.mem_cons.1 hy with hy | hy
        · rw [hy]
          rcases F32.nan_or_le_of_not_lt hx' with h | h | h
          · exact Or.inl h
          · exact absurd h (F32.ne_nan_of_lt_right h3)
          · exact Or.inr (F32.lt_of_lt_of_le h3 h)
        · exact h4 y hy

/-- When the sweep returns, every call of `surface_area_heuristics` it made
returned, and the minimum it ends with is the running minimum over the
results, from the minimum it started with. -/
theorem sweep_fold (box : Box) (k : Nat) (fuel : Nat) (events : List FastKDTree.Event)
    (st st' : FastKDTree.SweepState)
    (h : FastKDTree.sweep box k fuel events st = Except.ok st') :
    ∃ cands : List (Plane × F32 × Dir),
      (FastKDTree.sweepCalls k fuel events st.num_ltris st.num_rtris).map
        (fun call => (call.1, surface_area_heuristics call.1 box (toSizeT call.2.1)
          (toSizeT call.2.2.1) (toSizeT call.2.2.2)))
        = cands.map (fun c => (c.1, Except.ok (c.2.1, c.2.2))) ∧
      (st'.min_cost, st'.min_plane, st'.min_side)
        = cands.foldl FastKDTree.recordMin (st.min_cost, st.min_plane, st.min_side) := by
  induction fuel generalizing events st with
  | zero =>
    cases events with
    | nil =>
      simp only [FastKDTree.sweep] at h
      injection h with h
      subst h
      exact ⟨[], by simp [FastKDTree.sweepCalls], by simp⟩
    | cons e es => simp [FastKDTree.sweep] at h
  | succ n ih =>
    cases events with
    | nil =>
      simp only [FastKDTree.sweep] at h
      injection h with h
      subst h
      exact ⟨[], by simp [FastKDTree.sweepCalls], by simp⟩
    | cons e es =>
      rw [FastKDTree.sweep] at h
      simp only at h
      split at h
      · cases h
      · rename_i cost side hsah
        obtain ⟨cands, hc1, hc2⟩ := ih _ _ h
        refine ⟨(⟨FastKDTree.axisOfIndex k, e.point⟩, cost, side) :: cands, ?_, ?_⟩
        · rw [FastKDTree.sweepCalls]
          simp only [List.map_cons]
          simp only at hc1
          rw [hc1, hsah]
        · rw [hc2, List.foldl_cons]
          congr 1
          unfold FastKDTree.recordMin
          simp only
          split_ifs <;> rfl

/-- What `split` returns, when it returns: the plane is inside the box and the
two boxes are the box cut at the plane. -/
theorem split_eq_ok (box lbox rbox : Box) (p : Plane)
    (h : split box p = Except.ok (lbox, rbox)) :
    (box.min.get p.ax ≤ p.coord ∧ p.coord ≤ box.max.get p.ax) ∧
    lbox = ⟨box.min, box.max.set p.ax p.coord⟩ ∧ rbox = ⟨box.min.set p.ax p.coord, box.max⟩ := by
  unfold split at h
  by_cases h1 : box.min.get p.ax ≤ p.coord
  · by_cases h2 : p.coord ≤ box.max.get p.ax
    · simp only [h1, h2, decide_True, Bool.not_true, Bool.false_eq_true, if_false] at h
      injection h with h
      injection h with ha hb
      exact ⟨⟨h1, h2⟩, ha.symm, hb.symm⟩
    · simp [h1, h2] at h
  · simp [h1] at h

theorem toSizeT_lt (x : Int) : toSizeT x < SIZE_MOD := by
  unfold toSizeT
  have hpos : (0 : Int) < (SIZE_MOD : Int) := by unfold SIZE_MOD; norm_num
  have h1 := Int.emod_lt_of_pos x hpos
  have h2 := Int.emod_nonneg x (ne_of_gt hpos)
  omega

/-- On a valid box of finite, positive float surface area, a cost
`surface_area_heuristics` returns for `size_t` counts is a finite float
below `FLT_MAX`. -/
theorem sah_lt_FLT_MAX (p : Plane) (box : Box) (nl nr np : Nat) (c : F32) (d : Dir) (A : ℚ)
    (hv : box.valid) (harea : box.surface_area = F32.fin A) (hA : 0 < A)
    (hnl : nl < SIZE_MOD) (hnr : nr < SIZE_MOD)
    (h : surface_area_heuristics p box nl nr np = Except.ok (c, d)) :
    (∃ q, c = F32.fin q) ∧ c.lt FastKDTree.FLT_MAX = true := by
  have hmod : 0 < SIZE_MOD := by unfold SIZE_MOD; norm_num
  have hsplit : ∃ lbox rbox, split box p = Except.ok (lbox, rbox) := by
    cases hs : split box p with
    | error e => simp [surface_area_heuristics, hs] at h
    | ok lr => exact ⟨lr.1, lr.2, rfl⟩
  obtain ⟨lbox, rbox, hs⟩ := hsplit
  obtain ⟨hin, hl, hr⟩ := split_eq_ok box lbox rbox p hs
  obtain ⟨⟨al, el, hal⟩, ⟨ar, er, har⟩⟩ := sah_ratio_bounds p box A hv hin harea hA
  rw [← hl] at el
  rw [← hr] at er
  obtain ⟨cl, ecl, _, hcl⟩ := cost_bounds al ar ((nl + np) % SIZE_MOD) nr hal har
    (Nat.mod_lt _ hmod) hnr
  obtain ⟨cr, ecr, _, hcr⟩ := cost_bounds al ar nl ((np + nr) % SIZE_MOD) hal har hnl
    (Nat.mod_lt _ hmod)
  rw [surface_area_heuristics_eq p box lbox rbox nl nr np hs, el, er, ecl, ecr] at h
  have hbig : ∀ q : ℚ, q ≤ 2361183241434822606848 →
      (F32.fin q).lt FastKDTree.FLT_MAX = true := by
    intro q hq
    unfold FastKDTree.FLT_MAX
    rw [F32.lt_fin_fin]
    have : (2361183241434822606848 : ℚ) < (((2 ^ 24 - 1) * 2 ^ 104 : Nat) : ℚ) := by norm_num
    linarith
  injection h with h
  split_ifs at h
  · injection h with hc _
    rw [← hc]
    exact ⟨⟨cl, rfl⟩, hbig cl hcl⟩
  · injection h with hc _
    rw [← hc]
    exact ⟨⟨cr, rfl⟩, hbig cr hcr⟩

/-! ### The sweep returns -/

theorem consume_suffix (p : ℚ) (ty : Int) (l : List FastKDTree.Event) :
    (FastKDTree.consume p ty l).2 <:+ l := by
  induction l with
  | nil => exact List.suffix_refl _
  | cons e es ih =>
    unfold FastKDTree.consume
    split_ifs with hc
    · exact List.IsSuffix.trans ih (List.suffix_cons e es)
    · exact List.suffix_refl _

/-- A pass of the sweep over events of the three kinds consumes at least the
first event. -/
theorem consume_chain_suffix (e : FastKDTree.Event) (es : List FastKDTree.Event)
    (ht : e.type = FastKDTree.ENDING ∨ e.type = FastKDTree.PLANAR ∨
      e.type = FastKDTree.STARTING) :
    (FastKDTree.consume e.point FastKDTree.STARTING
      (FastKDTree.consume e.point FastKDTree.PLANAR
        (FastKDTree.consume e.point FastKDTree.ENDING (e :: es)).2).2).2 <:+ es := by
  rcases ht with ht | ht | ht
  · have h1 : (FastKDTree.consume e.point FastKDTree.ENDING (e :: es)).2
        = (FastKDTree.consume e.point FastKDTree.ENDING es).2 := by
      rw [FastKDTree.consume]; simp [ht]
    rw [h1]
    exact ((consume_suffix _ _ _).trans (consume_suffix _ _ _)).trans (consume_suffix _ _ _)
  · have h1 : (FastKDTree.consume e.point FastKDTree.ENDING (e :: es)).2 = e :: es := by
      rw [FastKDTree.consume]; simp [ht, FastKDTree.PLANAR, FastKDTree.ENDING]
    have h2 : (FastKDTree.consume e.point FastKDTree.PLANAR (e :: es)).2
        = (FastKDTree.consume e.point FastKDTree.PLANAR es).2 := by
      rw [FastKDTree.consume]; simp [ht]
    rw [h1, h2]
    exact (consume_suffix _ _ _).trans (consume_suffix _ _ _)
  · have h1 : (FastKDTree.consume e.point FastKDTree.ENDING (e :: es)).2 = e :: es := by
      rw [FastKDTree.consume]; simp [ht, FastKDTree.STARTING, FastKDTree.ENDING]
    have h2 : (FastKDTree.consume e.point FastKDTree.PLANAR (e :: es)).2 = e :: es := by
      rw [FastKDTree.consume]; simp [ht, FastKDTree.STARTING, FastKDTree.PLANAR]
    have h3 : (FastKDTree.consume e.point FastKDTree.STARTING (e :: es)).2
        = (FastKDTree.consume e.point FastKDTree.STARTING es).2 := by
      rw [FastKDTree.consume]; simp [ht]
    rw [h1, h2, h3]
    exact consume_suffix _ _ _

/-- Over events of the three kinds whose coordinates lie inside the box on the
swept axis, the sweep returns within as many passes as there are events. -/
theorem sweep_returns (box : Box) (k : Nat) (fuel : Nat) (events : List FastKDTree.Event)
    (st : FastKDTree.SweepState) (hfuel : events.length ≤ fuel)
    (htype : ∀ e ∈ events, e.type = FastKDTree.ENDING ∨ e.type = FastKDTree.PLANAR ∨
      e.type = FastKDTree.STARTING)
    (hin : ∀ e ∈ events, box.min.get (FastKDTree.axisOfIndex k) ≤ e.point ∧
      e.point ≤ box.max.get (FastKDTree.axisOfIndex k)) :
    ∃ st', FastKDTree.sweep box k fuel events st = Except.ok st' := by
  induction fuel generalizing events st with
  | zero =>
    cases events with
    | nil => exact ⟨st, by simp [FastKDTree.sweep]⟩
    | cons e es => simp at hfuel
  | succ n ih =>
    cases events with
    | nil => exact ⟨st, by simp [FastKDTree.sweep]⟩
    | cons e es =>
      rw [FastKDTree.sweep]
      simp only
      have hsuf := consume_chain_suffix e es (htype e (by simp))
      have hsplit := split_ok box ⟨FastKDTree.axisOfIndex k, e.point⟩ (hin e (by simp))
      have hlen : (FastKDTree.consume e.point FastKDTree.STARTING
          (FastKDTree.consume e.point FastKDTree.PLANAR
            (FastKDTree.consume e.point FastKDTree.ENDING (e :: es)).2).2).2.length ≤ n := by
        have := hsuf.length_le
        simp only [List.length_cons] at hfuel
        omega
      rw [surface_area_heuristics_eq _ box _ _ _ _ _ hsplit]
      split_ifs
      · exact ih _ _ hlen
          (fun x hx => htype x (List.mem_cons_of_mem _ (hsuf.subset hx)))
          (fun x hx => hin x (List.mem_cons_of_mem _ (hsuf.subset hx)))
      · exact ih _ _ hlen
          (fun x hx => htype x (List.mem_cons_of_mem _ (hsuf.subset hx)))
          (fun x hx => hin x (List.mem_cons_of_mem _ (hsuf.subset hx)))

/-! ### The three axes -/

/-- One iteration of the loop over the axes, when it returns: the candidates
of the axis all returned, and the running minimum is advanced over them. -/
theorem axisLoop_step (lib : FastKDTree.Lib) (tris : Triangles) (box : Box) (n k : Nat)
    (ax : Axis) (acc res : F32 × Option Plane × Option Dir)
    (h : FastKDTree.axisLoop lib tris box (n + 1) k ax acc = Except.ok res) :
    ∃ cands : List (Plane × F32 × Dir),
      FastKDTree.axisCandidates lib tris box k ax
        = cands.map (fun c => (c.1, Except.ok (c.2.1, c.2.2))) ∧
      FastKDTree.axisLoop lib tris box n (k + 1) (FastKDTree.nextAxis ax)
        (cands.foldl FastKDTree.recordMin acc) = Except.ok res := by
  rw [FastKDTree.axisLoop] at h
  split at h
  · cases h
  · rename_i st hst
    obtain ⟨cands, hc1, hc2⟩ := sweep_fold box k _ _ _ _ hst
    refine ⟨cands, ?_, ?_⟩
    · unfold FastKDTree.axisCandidates
      simp only at hc1 ⊢
      exact hc1
    · simp only at hc2
      rw [← hc2]
      exact h

/-- When `find_plane` returns, every candidate returned, and the result is
the running minimum over all candidates from `(FLT_MAX, _, _)`. -/
theorem find_plane_fold (lib : FastKDTree.Lib) (tris : Triangles) (box : Box)
    (res : F32 × Option Plane × Option Dir)
    (h : FastKDTree.find_plane lib tris box = Except.ok res) :
    ∃ cands : List (Plane × F32 × Dir),
      FastKDTree.candidates lib tris box
        = cands.map (fun c => (c.1, Except.ok (c.2.1, c.2.2))) ∧
      res = cands.foldl FastKDTree.recordMin (FastKDTree.FLT_MAX, none, none) := by
  unfold FastKDTree.find_plane at h
  obtain ⟨cx, hx1, hx2⟩ := axisLoop_step lib tris box 2 0 Axis.X _ res h
  obtain ⟨cy, hy1, hy2⟩ := axisLoop_step lib tris box 1 1 Axis.Y _ res hx2
  obtain ⟨cz, hz1, hz2⟩ := axisLoop_step lib tris box 0 2 Axis.Z _ res hy2
  rw [FastKDTree.axisLoop] at hz2
  injection hz2 with hz2
  refine ⟨cx ++ (cy ++ cz), ?_, ?_⟩
  · unfold FastKDTree.candidates
    rw [hx1, hy1, hz1, List.map_append, List.map_append]
  · rw [List.foldl_append, List.foldl_append]
    exact hz2.symm

/-- The events of an axis are of the three kinds, and their coordinates lie in
the box on that axis when the clipped boxes are valid and inside the box. -/
theorem generateEvents_mem (lib : FastKDTree.Lib) (tris : Triangles) (box : Box) (ax : Axis)
    (hclip : ∀ tri ∈ tris, (lib.triangle_clip_aabb tri box).valid ∧
      box.contains (lib.triangle_clip_aabb tri box))
    (e : FastKDTree.Event) (he : e ∈ FastKDTree.generateEvents lib tris box ax) :
    (e.type = FastKDTree.ENDING ∨ e.type = FastKDTree.PLANAR ∨ e.type = FastKDTree.STARTING) ∧
    (box.min.get ax ≤ e.point ∧ e.point ≤ box.max.get ax) := by
  unfold FastKDTree.generateEvents at he
  rw [List.mem_flatMap] at he
  obtain ⟨tri, htri, he⟩ := he
  obtain ⟨hvalid, hcont⟩ := hclip tri htri
  have hc := (Box.contains_iff_get _ _).1 hcont ax
  have hva : (lib.triangle_clip_aabb tri box).min.get ax
      ≤ (lib.triangle_clip_aabb tri box).max.get ax := by
    obtain ⟨h1, h2, h3⟩ := hvalid
    cases ax <;> simp only [Vec.get] <;> assumption
  simp only at he
  split_ifs at he
  · simp only [List.mem_singleton] at he
    subst he
    exact ⟨Or.inr (Or.inl rfl), hc.1, le_trans hva hc.2⟩
  · simp only [List.mem_cons, List.mem_singleton, List.not_mem_nil, or_false] at he
    rcases he with he | he
    · subst he
      exact ⟨Or.inr (Or.inr rfl), hc.1, le_trans hva hc.2⟩
    · subst he
      exact ⟨Or.inl rfl, le_trans hc.1 hva, hc.2⟩

theorem generateEvents_ne_nil (lib : FastKDTree.Lib) (tris : Triangles) (box : Box) (ax : Axis)
    (hne : tris ≠ []) : FastKDTree.generateEvents lib tris box ax ≠ [] := by
  cases tris with
  | nil => exact absurd rfl hne
  | cons tri rest =>
    unfold FastKDTree.generateEvents
    simp only [List.flatMap_cons]
    split_ifs <;> simp

/-- One iteration of the loop over the axes returns, when the sort permutes
the events of the axis and the clipped boxes are valid and inside the box. -/
theorem axisLoop_succ_returns (lib : FastKDTree.Lib) (tris : Triangles) (box : Box) (n k : Nat)
    (ax : Axis) (acc : F32 × Option Plane × Option Dir) (hk : FastKDTree.axisOfIndex k = ax)
    (hsort : (lib.sort (FastKDTree.eventLess lib) (FastKDTree.generateEvents lib tris box ax)).Perm
      (FastKDTree.generateEvents lib tris box ax))
    (hclip : ∀ tri ∈ tris, (lib.triangle_clip_aabb tri box).valid ∧
      box.contains (lib.triangle_clip_aabb tri box)) :
    ∃ acc', FastKDTree.axisLoop lib tris box (n + 1) k ax acc
      = FastKDTree.axisLoop lib tris box n (k + 1) (FastKDTree.nextAxis ax) acc' := by
  rw [FastKDTree.axisLoop]
  split
  · rename_i e he
    obtain ⟨st, hst⟩ := sweep_returns box k
      (lib.sort (FastKDTree.eventLess lib) (FastKDTree.generateEvents lib tris box ax)).length
      (lib.sort (FastKDTree.eventLess lib) (FastKDTree.generateEvents lib tris box ax))
      ⟨0, 0, (tris.length : Int), acc.1, acc.2.1, acc.2.2⟩ (le_refl _)
      (fun x hx => (generateEvents_mem lib tris box ax hclip x ((hsort.mem_iff).1 hx)).1)
      (fun x hx => by
        rw [hk]
        exact (generateEvents_mem lib tris box ax hclip x ((hsort.mem_iff).1 hx)).2)
    rw [hst] at he
    cases he
  · exact ⟨_, rfl⟩

/-- For a sort that permutes the events of each axis and clipped boxes that
are valid and inside the box, `find_plane` returns. -/
theorem find_plane_returns (lib : FastKDTree.Lib) (tris : Triangles) (box : Box)
    (hsort : ∀ ax,
      (lib.sort (FastKDTree.eventLess lib) (FastKDTree.generateEvents lib tris box ax)).Perm
        (FastKDTree.generateEvents lib tris box ax))
    (hclip : ∀ tri ∈ tris, (lib.triangle_clip_aabb tri box).valid ∧
      box.contains (lib.triangle_clip_aabb tri box)) :
    ∃ res, FastKDTree.find_plane lib tris box = Except.ok res := by
  unfold FastKDTree.find_plane
  obtain ⟨a1, h1⟩ := axisLoop_succ_returns lib tris box 2 0 Axis.X
    (FastKDTree.FLT_MAX, none, none) rfl (hsort _) hclip
  obtain ⟨a2, h2⟩ := axisLoop_succ_returns lib tris box 1 1 Axis.Y a1 rfl (hsort _) hclip
  obtain ⟨a3, h3⟩ := axisLoop_succ_returns lib tris box 0 2 Axis.Z a2 rfl (hsort _) hclip
  refine ⟨a3, ?_⟩
  rw [h1]
  simp only [FastKDTree.nextAxis]
  rw [h2]
  simp only [FastKDTree.nextAxis]
  rw [h3]
  rfl

/-- A non-empty triangle list has a candidate plane. -/
theorem candidates_ne_nil (lib : FastKDTree.Lib) (tris : Triangles) (box : Box)
    (hne : tris ≠ [])
    (hsort : (lib.sort (FastKDTree.eventLess lib)
      (FastKDTree.generateEvents lib tris box Axis.X)).Perm
        (FastKDTree.generateEvents lib tris box Axis.X)) :
    FastKDTree.candidates lib tris box ≠ [] := by
  have hev : lib.sort (FastKDTree.eventLess lib) (FastKDTree.generateEvents lib tris box Axis.X)
      ≠ [] := by
    intro h
    rw [h] at hsort
    exact generateEvents_ne_nil lib tris box Axis.X hne hsort.symm.eq_nil
  unfold FastKDTree.candidates FastKDTree.axisCandidates
  simp only
  cases hl : lib.sort (FastKDTree.eventLess lib)
      (FastKDTree.generateEvents lib tris box Axis.X) with
  | nil => exact absurd hl hev
  | cons e es => simp [FastKDTree.sweepCalls]

/-- On a valid box of finite, positive float surface area every candidate
cost is a finite float below `FLT_MAX`. -/
theorem candidates_lt_FLT_MAX (lib : FastKDTree.Lib) (tris : Triangles) (box : Box) (A : ℚ)
    (hv : box.valid) (harea : box.surface_area = F32.fin A) (hA : 0 < A)
    (cands : List (Plane × F32 × Dir))
    (hc : FastKDTree.candidates lib tris box
      = cands.map (fun c => (c.1, Except.ok (c.2.1, c.2.2)))) :
    ∀ x ∈ cands, x.2.1 ≠ F32.nan ∧ x.2.1.lt FastKDTree.FLT_MAX = true := by
  intro x hx
  have hmem : (x.1, (Except.ok (x.2.1, x.2.2) : Except Err (F32 × Dir)))
      ∈ FastKDTree.candidates lib tris box := by
    rw [hc]
    exact List.mem_map.2 ⟨x, hx, rfl⟩
  unfold FastKDTree.candidates FastKDTree.axisCandidates at hmem
  simp only [List.mem_append, List.mem_map] at hmem
  rcases hmem with ⟨call, _, hcall⟩ | ⟨call, _, hcall⟩ | ⟨call, _, hcall⟩ <;>
  · injection hcall with _ hsah
    obtain ⟨⟨q, hq⟩, hlt⟩ := sah_lt_FLT_MAX _ box _ _ _ _ _ A hv harea hA (toSizeT_lt _)
      (toSizeT_lt _) hsah
    exact ⟨by rw [hq]; simp, hlt⟩

/-- C15, as stated, fails in `float`.  The bounding box of the triangle
`triLine`, whose vertices lie on the Z axis, has the surface area `0`: both
area ratios are `0/0`, every candidate cost is a NaN, no cost is strictly
less than the running minimum, and `find_plane` returns
`std::numeric_limits<float>::max()` with `min_plane` and `min_side` never
assigned, a cost `surface_area_heuristics` produced for no candidate.  The
same happens for the triangle `triHuge`, the surface area of whose bounding
box overflows to infinity: both area ratios are `inf/inf`. -/
theorem find_plane_minimum_counterexample :
    [triLine] ≠ [] ∧ KDTree.boundingBox triLine [] = lineBox ∧ lineBox.valid ∧
    lineBox.surface_area = 0 ∧
    FastKDTree.candidates sampleLib [triLine] lineBox =
      [(⟨Axis.X, 0⟩, Except.ok (F32.nan, Dir.RIGHT)),
       (⟨Axis.Y, 0⟩, Except.ok (F32.nan, Dir.RIGHT)),
       (⟨Axis.Z, 0⟩, Except.ok (F32.nan, Dir.RIGHT)),
       (⟨Axis.Z, 2⟩, Except.ok (F32.nan, Dir.RIGHT))] ∧
    FastKDTree.find_plane sampleLib [triLine] lineBox
      = Except.ok (FastKDTree.FLT_MAX, none, none) ∧
    KDTree.boundingBox triHuge [] = hugeBox ∧ hugeBox.valid ∧
    hugeBox.surface_area = F32.pinf ∧
    (FastKDTree.candidates sampleLib [triHuge] hugeBox).map (fun c => c.2)
      = List.replicate 6 (Except.ok (F32.nan, Dir.RIGHT)) ∧
    FastKDTree.find_plane sampleLib [triHuge] hugeBox
      = Except.ok (FastKDTree.FLT_MAX, none, none) := by
  decide!

/-- C15, amended.  Assume a non-empty triangle list, clipped boxes that are
valid and inside the box, a comparator that is a strict weak ordering of the
events of each axis, and a sort that permutes a list its comparator orders
strictly weakly.  Then `find_plane` returns, every candidate plane swept on
the axes X, Y, Z has a result of `surface_area_heuristics`, and `find_plane`
returns the running minimum of the costs under the float comparison `<`,
started at `std::numeric_limits<float>::max()`: either that start value with
no plane, no candidate cost being below it, or a candidate triple
`(cost, plane, side)` whose cost is strictly less than every cost evaluated
before it and less than or equal to every cost evaluated after it, a NaN cost
aside.  On a valid box whose float surface area is finite and positive no
cost is a NaN and every cost is below the start value: `find_plane` returns a
candidate triple whose cost is less than or equal to the cost of every
candidate, and among candidates of equal minimal cost the one evaluated
first. -/
theorem find_plane_minimum (lib : FastKDTree.Lib) (tris : Triangles) (box : Box)
    (hne : tris ≠ [])
    (hsort : ∀ l, FastKDTree.StrictWeak (FastKDTree.eventLess lib) l →
      (lib.sort (FastKDTree.eventLess lib) l).Perm l)
    (hswo : ∀ ax, FastKDTree.StrictWeak (FastKDTree.eventLess lib)
      (FastKDTree.generateEvents lib tris box ax))
    (hclip : ∀ tri ∈ tris, (lib.triangle_clip_aabb tri box).valid ∧
      box.contains (lib.triangle_clip_aabb tri box)) :
    ∃ res cands,
      FastKDTree.find_plane lib tris box = Except.ok res ∧
      FastKDTree.candidates lib tris box
        = cands.map (fun c => (c.1, Except.ok (c.2.1, c.2.2))) ∧
      cands ≠ [] ∧
      ((res = (FastKDTree.FLT_MAX, none, none) ∧
          ∀ x ∈ cands, x.2.1.lt FastKDTree.FLT_MAX = false) ∨
        (∃ pre p c d post, cands = pre ++ (p, c, d) :: post ∧
          res = (c, some p, some d) ∧ c.lt FastKDTree.FLT_MAX = true ∧
          (∀ x ∈ pre, x.2.1 = F32.nan ∨ c.lt x.2.1 = true) ∧
          (∀ x ∈ post, x.2.1 = F32.nan ∨ c.le x.2.1 = true))) ∧
      (box.valid → (∃ A, box.surface_area = F32.fin A ∧ 0 < A) →
        ∃ pre p c d post, cands = pre ++ (p, c, d) :: post ∧
          res = (c, some p, some d) ∧
          (∀ x ∈ pre, c.lt x.2.1 = true) ∧ (∀ x ∈ post, c.le x.2.1 = true)) := by
  have hperm : ∀ ax,
      (lib.sort (FastKDTree.eventLess lib) (FastKDTree.generateEvents lib tris box ax)).Perm
        (FastKDTree.generateEvents lib tris box ax) := fun ax => hsort _ (hswo ax)
  obtain ⟨res, hres⟩ := find_plane_returns lib tris box hperm hclip
  obtain ⟨cands, hc1, hc2⟩ := find_plane_fold lib tris box res hres
  have hcne : cands ≠ [] := by
    intro h
    have := candidates_ne_nil lib tris box hne (hperm Axis.X)
    rw [hc1, h] at this
    exact this rfl
  refine ⟨res, cands, hres, hc1, hcne, ?_, ?_⟩
  · rcases foldl_recordMin cands (FastKDTree.FLT_MAX, none, none) with
      ⟨hfold, hall⟩ | ⟨pre, p, c, d, post, hdec, hfold, hlt, hpre, hpost⟩
    · left
      exact ⟨by rw [hc2, hfold], hall⟩
    · right
      exact ⟨pre, p, c, d, post, hdec, by rw [hc2, hfold], hlt, hpre, hpost⟩
  · intro hv harea
    obtain ⟨A, harea, hA⟩ := harea
    have hbound := candidates_lt_FLT_MAX lib tris box A hv harea hA cands hc1
    rcases foldl_recordMin cands (FastKDTree.FLT_MAX, none, none) with
      ⟨_, hall⟩ | ⟨pre, p, c, d, post, hdec, hfold, _, hpre, hpost⟩
    · exfalso
      obtain ⟨x, hx⟩ := List.exists_mem_of_ne_nil cands hcne
      have h1 := (hbound x hx).2
      have h2 := hall x hx
      simp only at h2
      rw [h1] at h2
      cases h2
    · refine ⟨pre, p, c, d, post, hdec, by rw [hc2, hfold], ?_, ?_⟩
      · intro x hx
        rcases hpre x hx with h | h
        · exact absurd h (hbound x (by rw [hdec]; simp [hx])).1
        · exact h
      · intro x hx
        rcases hpost x hx with h | h
        · exact absurd h (hbound x (by rw [hdec]; simp [hx])).1
        · exact h

theorem insertEvent_perm (lt : FastKDTree.Event → FastKDTree.Event → Bool)
    (e : FastKDTree.Event) (l : List FastKDTree.Event) : (insertEvent lt e l).Perm (e :: l) := by
  induction l with
  | nil => exact List.Perm.refl _
  | cons x xs ih =>
    unfold insertEvent
    split_ifs
    · exact List.Perm.refl _
    · exact (List.Perm.cons x ih).trans (List.Perm.swap e x xs)

/-- The sort by insertion permutes its input. -/
theorem insertionSortEvents_perm (lt : FastKDTree.Event → FastKDTree.Event → Bool)
    (l : List FastKDTree.Event) : (insertionSortEvents lt l).Perm l := by
  induction l with
  | nil => exact List.Perm.refl _
  | cons x xs ih =>
    unfold insertionSortEvents
    exact (insertEvent_perm lt x _).trans (List.Perm.cons x ih)

theorem find_plane_minimum_witness :
    ([triUnit, triShifted] ≠ [] ∧
      (∀ l, FastKDTree.StrictWeak (FastKDTree.eventLess sampleLib) l →
        (sampleLib.sort (FastKDTree.eventLess sampleLib) l).Perm l) ∧
      (∀ ax, FastKDTree.StrictWeak (FastKDTree.eventLess sampleLib)
        (FastKDTree.generateEvents sampleLib [triUnit, triShifted] sceneBox ax)) ∧
      (∀ tri ∈ [triUnit, triShifted], (sampleLib.triangle_clip_aabb tri sceneBox).valid ∧
        sceneBox.contains (sampleLib.triangle_clip_aabb tri sceneBox))) ∧
    FastKDTree.find_plane sampleLib [triUnit, triShifted] sceneBox
      = Except.ok (12, some ⟨Axis.X, 1⟩, some Dir.RIGHT) ∧
    ∃ res cands,
      FastKDTree.find_plane sampleLib [triUnit, triShifted] sceneBox = Except.ok res ∧
      FastKDTree.candidates sampleLib [triUnit, triShifted] sceneBox
        = cands.map (fun c => (c.1, Except.ok (c.2.1, c.2.2))) ∧
      cands ≠ [] ∧
      ((res = (FastKDTree.FLT_MAX, none, none) ∧
          ∀ x ∈ cands, x.2.1.lt FastKDTree.FLT_MAX = false) ∨
        (∃ pre p c d post, cands = pre ++ (p, c, d) :: post ∧
          res = (c, some p, some d) ∧ c.lt FastKDTree.FLT_MAX = true ∧
          (∀ x ∈ pre, x.2.1 = F32.nan ∨ c.lt x.2.1 = true) ∧
          (∀ x ∈ post, x.2.1 = F32.nan ∨ c.le x.2.1 = true))) ∧
      (sceneBox.valid → (∃ A, sceneBox.surface_area = F32.fin A ∧ 0 < A) →
        ∃ pre p c d post, cands = pre ++ (p, c, d) :: post ∧
          res = (c, some p, some d) ∧
          (∀ x ∈ pre, c.lt x.2.1 = true) ∧ (∀ x ∈ post, c.le x.2.1 = true)) :=
  have hclip : ∀ tri ∈ [triUnit, triShifted],
      (sampleLib.triangle_clip_aabb tri sceneBox).valid ∧
        sceneBox.contains (sampleLib.triangle_clip_aabb tri sceneBox) := by decide!
  have hswo : ∀ ax, FastKDTree.StrictWeak (FastKDTree.eventLess sampleLib)
      (FastKDTree.generateEvents sampleLib [triUnit, triShifted] sceneBox ax) := by
    intro ax
    cases ax <;> decide!
  ⟨⟨by decide, fun l _ => insertionSortEvents_perm _ l, hswo, hclip⟩, by decide!,
    find_plane_minimum sampleLib [triUnit, triShifted] sceneBox (by decide)
      (fun l _ => insertionSortEvents_perm _ l) hswo hclip⟩

/-! ## The SAH builder ignores the cost of the best split -/

theorem toSizeT_natCast (m : Nat) (h : m < SIZE_MOD) : toSizeT (m : Int) = m := by
  unfold toSizeT
  rw [Int.emod_eq_of_lt (Int.natCast_nonneg m) (by exact_mod_cast h)]
  simp

/-- With no triangle on the left and none in the plane, both costs of
`surface_area_heuristics` are the same cost, and the side is RIGHT. -/
theorem sah_zero_left (p : Plane) (box : Box) (nr : Nat) (hnr : nr < SIZE_MOD)
    (hin : box.min.get p.ax ≤ p.coord ∧ p.coord ≤ box.max.get p.ax) :
    surface_area_heuristics p box 0 nr 0 = Except.ok
      (cost (F32.div (⟨box.min, box.max.set p.ax p.coord⟩ : Box).surface_area box.surface_area)
        (F32.div (⟨box.min.set p.ax p.coord, box.max⟩ : Box).surface_area box.surface_area)
        0 nr, Dir.RIGHT) := by
  rw [surface_area_heuristics_eq p box _ _ 0 nr 0 (split_ok box p hin)]
  have h1 : (0 + 0) % SIZE_MOD = 0 := by simp
  have h2 : (0 + nr) % SIZE_MOD = nr := by rw [Nat.zero_add]; exact Nat.mod_eq_of_lt hnr
  rw [h1, h2, F32.lt_irrefl]
  simp

/-- The inner loops of the sweep consume no event at another coordinate. -/
theorem consume_of_ne (p : ℚ) (ty : Int) (es : List FastKDTree.Event)
    (h : ∀ x ∈ es.head?, x.point ≠ p) : FastKDTree.consume p ty es = (0, es) := by
  cases es with
  | nil => rfl
  | cons x xs =>
    have hx : x.point ≠ p := h x (by simp)
    unfold FastKDTree.consume
    rw [if_neg (fun hc => hx hc.1)]

/-- A pass of the sweep over a STARTING or ENDING event whose coordinate the
next event does not share: `num_rtris` is decreased by one, `num_ltris`
stays. -/
theorem sweepCalls_step (k fuel : Nat) (e : FastKDTree.Event) (es : List FastKDTree.Event)
    (nl nr : Int) (ht : e.type = FastKDTree.STARTING ∨ e.type = FastKDTree.ENDING)
    (hes : ∀ x ∈ es.head?, x.point ≠ e.point) :
    FastKDTree.sweepCalls k (fuel + 1) (e :: es) nl nr
      = (⟨FastKDTree.axisOfIndex k, e.point⟩, nl, nr - 1, 0)
          :: FastKDTree.sweepCalls k fuel es nl (nr - 1) := by
  rw [FastKDTree.sweepCalls]
  rcases ht with ht | ht
  · have c1 : FastKDTree.consume e.point FastKDTree.ENDING (e :: es) = (0, e :: es) := by
      rw [FastKDTree.consume]; simp [ht, FastKDTree.STARTING, FastKDTree.ENDING]
    have c2 : FastKDTree.consume e.point FastKDTree.PLANAR (e :: es) = (0, e :: es) := by
      rw [FastKDTree.consume]; simp [ht, FastKDTree.STARTING, FastKDTree.PLANAR]
    have c3 : FastKDTree.consume e.point FastKDTree.STARTING (e :: es) = (0 + 1, es) := by
      rw [FastKDTree.consume]; simp [ht, consume_of_ne e.point _ es hes]
    rw [c1]
    simp only
    rw [c2]
    simp only
    rw [c3]
    simp
  · have c1 : FastKDTree.consume e.point FastKDTree.ENDING (e :: es) = (0 + 1, es) := by
      rw [FastKDTree.consume]; simp [ht, consume_of_ne e.point _ es hes]
    rw [c1]
    simp only
    rw [consume_of_ne e.point FastKDTree.PLANAR es hes]
    simp only
    rw [consume_of_ne e.point FastKDTree.STARTING es hes]
    simp

theorem chainTri_bbox (i : Nat) :
    (chainTri i).bbox =
      ⟨⟨((2 * i : Nat) : ℚ), ((2 * i : Nat) : ℚ), ((2 * i : Nat) : ℚ)⟩,
       ⟨((2 * i + 1 : Nat) : ℚ), ((2 * i + 1 : Nat) : ℚ), ((2 * i + 1 : Nat) : ℚ)⟩⟩ := by
  simp [Triangle.bbox, chainTri, test_triangle]

theorem chainEvent_even (i : Nat) :
    chainEvent (2 * i) = ⟨chainTri i, ((2 * i : Nat) : ℚ), FastKDTree.STARTING⟩ := by
  simp [chainEvent]

theorem chainEvent_odd (i : Nat) :
    chainEvent (2 * i + 1) = ⟨chainTri i, ((2 * i + 1 : Nat) : ℚ), FastKDTree.ENDING⟩ := by
  have h1 : (2 * i + 1) / 2 = i := by omega
  have h2 : (2 * i + 1) % 2 ≠ 0 := by omega
  simp only [chainEvent, h1, if_neg h2]

/-- The events of `chainScene n` along any axis are `chainEvent 0`, ...,
`chainEvent (2 * n - 1)`, in this order. -/
theorem chain_generateEvents (n : Nat) (box : Box) (ax : Axis) :
    FastKDTree.generateEvents sampleLib (chainScene n) box ax
      = (List.range (2 * n)).map chainEvent := by
  induction n with
  | zero => rfl
  | succ n ih =>
    have hr : List.range (2 * (n + 1)) = List.range (2 * n) ++ [2 * n, 2 * n + 1] := by
      rw [show 2 * (n + 1) = 2 * n + 1 + 1 by ring, List.range_succ, List.range_succ]
      simp
    have hs : chainScene (n + 1) = chainScene n ++ [chainTri n] := by
      simp [chainScene, List.range_succ]
    unfold FastKDTree.generateEvents at ih ⊢
    rw [hs, List.flatMap_append, ih, hr, List.map_append]
    congr 1
    have hp : (sampleLib.triangle_clip_aabb (chainTri n) box).is_planar ax = false := by
      show (chainTri n).bbox.is_planar ax = false
      rw [chainTri_bbox]
      cases ax <;> simp [Box.is_planar, Vec.get]
    have hb : sampleLib.triangle_clip_aabb (chainTri n) box = (chainTri n).bbox := rfl
    rw [hb, chainTri_bbox] at hp
    simp only [List.flatMap_cons, List.flatMap_nil, List.append_nil, List.map_cons,
      List.map_nil, chainEvent_even, chainEvent_odd, hb, chainTri_bbox, hp, Bool.false_eq_true,
      if_false]
    cases ax <;> rfl

theorem chainEvent_less (j : Nat) :
    FastKDTree.eventLess sampleLib (chainEvent j) (chainEvent (j + 1)) = true := by
  simp [FastKDTree.eventLess, chainEvent]

/-- The sort by insertion leaves the events of a `chainScene` in place. -/
theorem chain_sorted (s m : Nat) :
    insertionSortEvents (FastKDTree.eventLess sampleLib) ((List.range' s m).map chainEvent)
      = (List.range' s m).map chainEvent := by
  induction m generalizing s with
  | zero => rfl
  | succ m ih =>
    rw [List.range'_succ, List.map_cons, insertionSortEvents, ih]
    cases m with
    | zero => rfl
    | succ m =>
      rw [List.range'_succ, List.map_cons, insertEvent, if_pos (chainEvent_less s)]

theorem chainEvent_type (j : Nat) :
    (chainEvent j).type = FastKDTree.STARTING ∨ (chainEvent j).type = FastKDTree.ENDING := by
  unfold chainEvent
  by_cases h : j % 2 = 0
  · left; simp [h]
  · right; simp [h]

/-- The calls of `surface_area_heuristics` of the sweep of a `chainScene`:
`num_ltris` stays, and `num_rtris` is one less at each event. -/
theorem chain_sweepCalls (k s m fuel : Nat) (nl nr : Int) (hfuel : m ≤ fuel) :
    FastKDTree.sweepCalls k fuel ((List.range' s m).map chainEvent) nl nr
      = (List.range' s m).map
          (fun (j : Nat) =>
            ((⟨FastKDTree.axisOfIndex k, (j : ℚ)⟩ : Plane), nl, nr + (s : Int) - (j : Int) - 1,
              (0 : Int))) := by
  induction m generalizing s nr fuel with
  | zero => cases fuel <;> rfl
  | succ m ih =>
    cases fuel with
    | zero => omega
    | succ fuel =>
      rw [List.range'_succ, List.map_cons, List.map_cons,
        sweepCalls_step k fuel _ _ nl nr (chainEvent_type s), ih (s + 1) fuel (nr - 1) (by omega)]
      · congr 1
        · show _ = ((⟨FastKDTree.axisOfIndex k, (s : ℚ)⟩ : Plane), nl, nr + (s : Int) - (s : Int) - 1,
            (0 : Int))
          congr 2
          · congr 1
            omega
        · apply List.map_congr_left
          intro j _
          congr 3
          push_cast
          ring
      · intro x hx
        cases m with
        | zero => simp at hx
        | succ m =>
          rw [List.range'_succ, List.map_cons] at hx
          simp only [List.head?_cons, Option.mem_def, Option.some.injEq] at hx
          rw [← hx]
          simp [chainEvent]

theorem F32.ofRat_le_ofRat {x y s t : ℚ} (h : x ≤ y) (hx : F32.ofRat x = F32.fin s)
    (hy : F32.ofRat y = F32.fin t) : s ≤ t := by
  have := F32.ofRat_mono h
  rw [hx, hy] at this
  exact (F32.le_fin_fin s t).1 this

/-- A natural number up to `2^24` is a float. -/
theorem F32.ofRat_natCast (k : Nat) (hk : k ≤ 16777216) : F32.ofRat (k : ℚ) = F32.fin (k : ℚ) := by
  have h1 := F32.roundMag_rep (k : Int) 0 (Int.natCast_nonneg k) (by exact_mod_cast hk)
    (by norm_num)
  have hp : F32.pow2 0 = 1 := by simp [F32.pow2]
  rw [hp, mul_one] at h1
  have h2 : ((k : Int) : ℚ) = (k : ℚ) := by norm_cast
  rw [h2] at h1
  show F32.IsFloat (k : ℚ)
  rw [F32.isFloat_iff, abs_of_nonneg (Nat.cast_nonneg k)]
  refine ⟨h1, ?_⟩
  have h3 : (k : ℚ) ≤ 16777216 := by exact_mod_cast hk
  have h4 : (16777216 : ℚ) < F32.pow2 128 := by
    rw [F32.pow2_eq]; norm_num
  linarith

/-- The float surface area of a box whose sides are natural numbers is exact
as long as it is at most `2^24`. -/
theorem F32.area3_nat (a b c : Nat) (h : 2 * (a * b + b * c + c * a) ≤ 16777216) :
    F32.area3 (F32.fin (a : ℚ)) (F32.fin (b : ℚ)) (F32.fin (c : ℚ))
      = F32.fin ((2 * (a * b + b * c + c * a) : Nat) : ℚ) := by
  have e1 : F32.mul (F32.fin (a : ℚ)) (F32.fin (b : ℚ)) = F32.fin ((a * b : Nat) : ℚ) := by
    show F32.ofRat ((a : ℚ) * (b : ℚ)) = _
    rw [← Nat.cast_mul]
    exact F32.ofRat_natCast _ (by omega)
  have e2 : F32.mul (F32.fin (b : ℚ)) (F32.fin (c : ℚ)) = F32.fin ((b * c : Nat) : ℚ) := by
    show F32.ofRat ((b : ℚ) * (c : ℚ)) = _
    rw [← Nat.cast_mul]
    exact F32.ofRat_natCast _ (by omega)
  have e3 : F32.mul (F32.fin (c : ℚ)) (F32.fin (a : ℚ)) = F32.fin ((c * a : Nat) : ℚ) := by
    show F32.ofRat ((c : ℚ) * (a : ℚ)) = _
    rw [← Nat.cast_mul]
    exact F32.ofRat_natCast _ (by omega)
  have e4 : F32.add (F32.fin ((a * b : Nat) : ℚ)) (F32.fin ((b * c : Nat) : ℚ))
      = F32.fin ((a * b + b * c : Nat) : ℚ) := by
    show F32.ofRat (((a * b : Nat) : ℚ) + ((b * c : Nat) : ℚ)) = _
    rw [← Nat.cast_add]
    exact F32.ofRat_natCast _ (by omega)
  have e5 : F32.add (F32.fin ((a * b + b * c : Nat) : ℚ)) (F32.fin ((c * a : Nat) : ℚ))
      = F32.fin ((a * b + b * c + c * a : Nat) : ℚ) := by
    show F32.ofRat (((a * b + b * c : Nat) : ℚ) + ((c * a : Nat) : ℚ)) = _
    rw [← Nat.cast_add]
    exact F32.ofRat_natCast _ (by omega)
  have e6 : F32.mul (F32.fin 2) (F32.fin ((a * b + b * c + c * a : Nat) : ℚ))
      = F32.fin ((2 * (a * b + b * c + c * a) : Nat) : ℚ) := by
    show F32.ofRat ((2 : ℚ) * ((a * b + b * c + c * a : Nat) : ℚ)) = _
    have : (2 : ℚ) * ((a * b + b * c + c * a : Nat) : ℚ)
        = ((2 * (a * b + b * c + c * a) : Nat) : ℚ) := by push_cast; ring
    rw [this]
    exact F32.ofRat_natCast _ h
  unfold F32.area3
  rw [e1, e2, e3, e4, e5, e6]

/-- The value `lambda * (15 + 20 * t)` of `cost` is monotone in `t`. -/
theorem cost_outer_mono (a b : Nat) (t t' : ℚ) (t0 : 0 ≤ t) (htt : t ≤ t')
    (t1 : t' ≤ 36893488147419103232) :
    ∃ c c', F32.mul (lambda a b)
        (F32.add (F32.ofInt COST_TRAVERSAL) (F32.mul (F32.ofInt COST_INTERSECTION) (F32.fin t)))
        = F32.fin c ∧
      F32.mul (lambda a b)
        (F32.add (F32.ofInt COST_TRAVERSAL) (F32.mul (F32.ofInt COST_INTERSECTION) (F32.fin t')))
        = F32.fin c' ∧ c ≤ c' := by
  obtain ⟨l, el, l0, l1⟩ := lambda_bounds a b
  have e15 : F32.ofInt COST_TRAVERSAL = F32.fin 15 := F32.ofRat_fifteen
  have e20 : F32.ofInt COST_INTERSECTION = F32.fin 20 := F32.ofRat_twenty
  rw [el, e15, e20]
  obtain ⟨y, ey, y0, y1, _⟩ := F32.ofRat_between (x := 20 * t) F32.isFloat_zero
    F32.isFloat_pow70 (by linarith) (by linarith)
  obtain ⟨y', ey', y0', y1', _⟩ := F32.ofRat_between (x := 20 * t') F32.isFloat_zero
    F32.isFloat_pow70 (by linarith) (by linarith)
  have hy : y ≤ y' := F32.ofRat_le_ofRat (by linarith) ey ey'
  have d1 : F32.mul (F32.fin 20) (F32.fin t) = F32.fin y := ey
  have d1' : F32.mul (F32.fin 20) (F32.fin t') = F32.fin y' := ey'
  rw [d1, d1']
  obtain ⟨z, ez, z0, z1, _⟩ := F32.ofRat_between (x := 15 + y) F32.isFloat_zero
    F32.isFloat_pow71 (by linarith) (by linarith)
  obtain ⟨z', ez', z0', z1', _⟩ := F32.ofRat_between (x := 15 + y') F32.isFloat_zero
    F32.isFloat_pow71 (by linarith) (by linarith)
  have hz : z ≤ z' := F32.ofRat_le_ofRat (by linarith) ez ez'
  have d2 : F32.add (F32.fin 15) (F32.fin y) = F32.fin z := ez
  have d2' : F32.add (F32.fin 15) (F32.fin y') = F32.fin z' := ez'
  rw [d2, d2']
  obtain ⟨c, ec, _⟩ := F32.ofRat_between (x := l * z) F32.isFloat_zero
    F32.isFloat_pow71 (mul_nonneg l0 z0) (by nlinarith)
  obtain ⟨c', ec', _⟩ := F32.ofRat_between (x := l * z') F32.isFloat_zero
    F32.isFloat_pow71 (mul_nonneg l0 z0') (by nlinarith)
  exact ⟨c, c', ec, ec', F32.ofRat_le_ofRat (mul_le_mul_of_nonneg_left hz l0) ec ec'⟩

/-- The cost `0.8f * (15 + 20 * 0)` is `12`. -/
theorem cost_outer_zero :
    F32.mul (F32.ofRat (4 / 5))
      (F32.add (F32.ofInt COST_TRAVERSAL) (F32.mul (F32.ofInt COST_INTERSECTION) (F32.fin 0)))
      = F32.fin 12 := by
  decide!

/-- The cost `0.8f * (15 + 20 * 0.25)` is `16`. -/
theorem cost_outer_quarter :
    F32.mul (F32.ofRat (4 / 5))
      (F32.add (F32.ofInt COST_TRAVERSAL)
        (F32.mul (F32.ofInt COST_INTERSECTION) (F32.fin (1 / 4))))
      = F32.fin 16 := by
  decide!

theorem F32.isFloat_quarter : F32.IsFloat (1 / 4) := by decide!

/-- With no triangle on the left, a cost is a finite float that is at least
`12`; it is `12` with no triangle on the right, and at least `16` with one
and a right area ratio of a quarter or more. -/
theorem cost_zero_left (al ar : ℚ) (b : Nat) (hal : 0 ≤ al ∧ al ≤ 1) (har : 0 ≤ ar ∧ ar ≤ 1)
    (hb : b < SIZE_MOD) :
    ∃ c, cost (F32.fin al) (F32.fin ar) 0 b = F32.fin c ∧ 12 ≤ c ∧ (b = 0 → c = 12) ∧
      (1 ≤ b → 1 / 4 ≤ ar → 16 ≤ c) := by
  have hmod : 0 < SIZE_MOD := by unfold SIZE_MOD; norm_num
  obtain ⟨t, et, t0, t1⟩ := cost_inner_bounds al ar 0 b hal har hmod hb
  have hl : lambda 0 b = F32.ofRat (4 / 5) := by simp [lambda]
  obtain ⟨c0, c, e0, ec, hle⟩ := cost_outer_mono 0 b 0 t (le_refl 0) t0 t1
  rw [hl, cost_outer_zero] at e0
  injection e0 with e0
  unfold cost
  rw [et]
  refine ⟨c, ec, by linarith, ?_, ?_⟩
  · intro hb0
    subst hb0
    have ht : t = 0 := by
      have h0 : F32.ofNat 0 = F32.fin 0 := by
        show F32.ofRat ((0 : Nat) : ℚ) = F32.fin 0
        rw [Nat.cast_zero]; exact F32.ofRat_zero
      rw [h0] at et
      have h1 : F32.mul (F32.fin al) (F32.fin 0) = F32.fin 0 := by
        show F32.ofRat (al * 0) = F32.fin 0
        rw [mul_zero]; exact F32.ofRat_zero
      have h2 : F32.mul (F32.fin ar) (F32.fin 0) = F32.fin 0 := by
        show F32.ofRat (ar * 0) = F32.fin 0
        rw [mul_zero]; exact F32.ofRat_zero
      rw [h1, h2] at et
      have h3 : F32.add (F32.fin 0) (F32.fin 0) = F32.fin 0 := by
        show F32.ofRat (0 + 0) = F32.fin 0
        rw [add_zero]; exact F32.ofRat_zero
      rw [h3] at et
      injection et with et
      exact et.symm
    rw [ht, hl, cost_outer_zero] at ec
    injection ec with ec
    exact ec.symm
  · intro hb1 har4
    have ht : 1 / 4 ≤ t := by
      have h0 : F32.ofNat 0 = F32.fin 0 := by
        show F32.ofRat ((0 : Nat) : ℚ) = F32.fin 0
        rw [Nat.cast_zero]; exact F32.ofRat_zero
      obtain ⟨kb, eb, kb0, kb1⟩ := ofNat_bounds b hb
      have hkb : 1 ≤ kb := by
        have h1 : (1 : ℚ) ≤ (b : ℚ) := by exact_mod_cast hb1
        have := F32.le_ofRat_of_le F32.isFloat_one h1
        have eb' : F32.ofRat (b : ℚ) = F32.fin kb := eb
        rw [eb'] at this
        exact (F32.le_fin_fin 1 kb).1 this
      rw [h0, eb] at et
      have h1 : F32.mul (F32.fin al) (F32.fin 0) = F32.fin 0 := by
        show F32.ofRat (al * 0) = F32.fin 0
        rw [mul_zero]; exact F32.ofRat_zero
      rw [h1] at et
      obtain ⟨p2, e2, p20, _⟩ := F32.ofRat_between (x := ar * kb) F32.isFloat_quarter
        F32.isFloat_pow64 (by nlinarith) (by nlinarith [har.1, har.2])
      have d2 : F32.mul (F32.fin ar) (F32.fin kb) = F32.fin p2 := e2
      rw [d2] at et
      have h3 : F32.ofRat (0 + p2) = F32.fin t := et
      have h4 := F32.le_ofRat_of_le (x := 0 + p2) F32.isFloat_quarter (by linarith)
      rw [h3] at h4
      exact (F32.le_fin_fin _ t).1 h4
    obtain ⟨c4, c', e4, ec', hle'⟩ := cost_outer_mono 0 b (1 / 4) t (by norm_num) ht t1
    rw [hl, cost_outer_quarter] at e4
    injection e4 with e4
    rw [ec] at ec'
    injection ec' with ec'
    rw [← ec', ← e4] at hle'
    exact hle'

theorem chainBox_valid (n : Nat) : (chainBox n).valid := by
  simp [Box.valid, chainBox]

theorem chain_side_bound (n : Nat) (hn : n ≤ 800) :
    2 * ((2 * n - 1) * (2 * n - 1) + (2 * n - 1) * (2 * n - 1) + (2 * n - 1) * (2 * n - 1))
      ≤ 16777216 := by
  have h1 : 2 * n - 1 ≤ 1599 := by omega
  have h2 : (2 * n - 1) * (2 * n - 1) ≤ 1599 * 1599 := Nat.mul_le_mul h1 h1
  omega

theorem F32.sub_natCast (a b : Nat) (hb : b ≤ a) (ha : a ≤ 16777216) :
    F32.sub (F32.fin (a : ℚ)) (F32.fin (b : ℚ)) = F32.fin ((a - b : Nat) : ℚ) := by
  show F32.ofRat ((a : ℚ) - (b : ℚ)) = _
  rw [← Nat.cast_sub hb]
  exact F32.ofRat_natCast _ (by omega)

/-- The float surface area of `chainBox n` is exact for `n ≤ 800`. -/
theorem chainBox_area (n : Nat) (hn : n ≤ 800) :
    (chainBox n).surface_area =
      F32.fin ((2 * ((2 * n - 1) * (2 * n - 1) + (2 * n - 1) * (2 * n - 1)
        + (2 * n - 1) * (2 * n - 1)) : Nat) : ℚ) := by
  have hs : F32.sub (F32.fin ((2 * n - 1 : Nat) : ℚ)) (F32.fin 0)
      = F32.fin ((2 * n - 1 : Nat) : ℚ) := by
    have := F32.sub_natCast (2 * n - 1) 0 (Nat.zero_le _) (by omega)
    simpa using this
  unfold Box.surface_area chainBox
  simp only
  rw [hs]
  exact F32.area3_nat _ _ _ (chain_side_bound n hn)

theorem chain_plane_in (n k j : Nat) (hj : j < 2 * n) :
    (chainBox n).min.get (FastKDTree.axisOfIndex k) ≤ (j : ℚ) ∧
      (j : ℚ) ≤ (chainBox n).max.get (FastKDTree.axisOfIndex k) := by
  have h1 : (j : ℚ) ≤ ((2 * n - 1 : Nat) : ℚ) := by
    have : j ≤ 2 * n - 1 := by omega
    exact_mod_cast this
  have h0 : (0 : ℚ) ≤ (j : ℚ) := Nat.cast_nonneg j
  cases FastKDTree.axisOfIndex k <;> exact ⟨h0, h1⟩

/-- The candidates of `chainScene n` along an axis are the `chainCand`. -/
theorem chain_axisCandidates (n k : Nat) (ax : Axis) :
    FastKDTree.axisCandidates sampleLib (chainScene n) (chainBox n) k ax
      = ((List.range (2 * n)).map (chainCand n k)).map
          (fun c => (c.1, Except.ok (c.2.1, c.2.2))) := by
  have hsort : sampleLib.sort (FastKDTree.eventLess sampleLib)
      ((List.range (2 * n)).map chainEvent) = (List.range (2 * n)).map chainEvent := by
    rw [List.range_eq_range']
    exact chain_sorted 0 (2 * n)
  have hlen : (chainScene n).length = n := by simp [chainScene]
  unfold FastKDTree.axisCandidates
  simp only
  rw [chain_generateEvents, hsort, hlen, List.length_map, List.length_range,
    List.range_eq_range', chain_sweepCalls k 0 (2 * n) (2 * n) 0 n (le_refl _), List.map_map,
    List.map_map]
  apply List.map_congr_left
  intro j hj
  have hj' : j < 2 * n := by
    have := (List.mem_range'_1.1 hj).2
    omega
  simp only [Function.comp, chainCand]
  have h0 : toSizeT 0 = 0 := by decide
  have hm : ((n : Int) + ((0 : Nat) : Int) - (j : Int) - 1) = (n : Int) - (j : Int) - 1 := by
    simp
  rw [h0, hm, sah_zero_left _ _ _ (toSizeT_lt _) (chain_plane_in n k j hj')]

/-- Every candidate cost of `chainScene n` is a finite float that is at least
`12`. -/
theorem chainCand_ge (n k j : Nat) (h1 : 1 ≤ n) (hn : n ≤ 800) (hj : j < 2 * n) :
    ∃ c, (chainCand n k j).2.1 = F32.fin c ∧ 12 ≤ c ∧
      (toSizeT ((n : Int) - (j : Int) - 1) = 0 → c = 12) := by
  have hA : (0 : ℚ) < ((2 * ((2 * n - 1) * (2 * n - 1) + (2 * n - 1) * (2 * n - 1)
        + (2 * n - 1) * (2 * n - 1)) : Nat) : ℚ) := by
    have h2 : 1 ≤ 2 * n - 1 := by omega
    have h3 : 1 ≤ (2 * n - 1) * (2 * n - 1) := Nat.mul_le_mul h2 h2
    have : 0 < 2 * ((2 * n - 1) * (2 * n - 1) + (2 * n - 1) * (2 * n - 1)
        + (2 * n - 1) * (2 * n - 1)) := by omega
    exact_mod_cast this
  obtain ⟨⟨al, el, hal⟩, ⟨ar, er, har⟩⟩ := sah_ratio_bounds
    ⟨FastKDTree.axisOfIndex k, (j : ℚ)⟩ (chainBox n) _ (chainBox_valid n)
    (chain_plane_in n k j hj) (chainBox_area n hn) hA
  obtain ⟨c, ec, hc, hz, _⟩ := cost_zero_left al ar (toSizeT ((n : Int) - (j : Int) - 1)) hal har
    (toSizeT_lt _)
  refine ⟨c, ?_, hc, hz⟩
  simp only [chainCand]
  simp only at el er
  rw [el, er]
  exact ec

/-- Before the event at which no triangle is left on the right, the
candidate costs of `chainScene n` along X are at least `16`. -/
theorem chainCand_early (n j : Nat) (hn : n ≤ 800) (hj : j + 1 < n) :
    ∃ c, (chainCand n 0 j).2.1 = F32.fin c ∧ 16 ≤ c := by
  have hL1 : 1 ≤ 2 * n - 1 := by omega
  have hjL : j ≤ 2 * n - 1 := by omega
  have hbnd := chain_side_bound n hn
  have hLL : 1 ≤ (2 * n - 1) * (2 * n - 1) := Nat.mul_le_mul hL1 hL1
  have hA : (0 : ℚ) < ((2 * ((2 * n - 1) * (2 * n - 1) + (2 * n - 1) * (2 * n - 1)
        + (2 * n - 1) * (2 * n - 1)) : Nat) : ℚ) := by
    have : 0 < 2 * ((2 * n - 1) * (2 * n - 1) + (2 * n - 1) * (2 * n - 1)
        + (2 * n - 1) * (2 * n - 1)) := by omega
    exact_mod_cast this
  obtain ⟨⟨al, el, hal⟩, ⟨ar, er, har⟩⟩ := sah_ratio_bounds
    ⟨FastKDTree.axisOfIndex 0, (j : ℚ)⟩ (chainBox n) _ (chainBox_valid n)
    (chain_plane_in n 0 j (by omega)) (chainBox_area n hn) hA
  -- the right box and its area
  have hsub1 : (2 * n - 1 - j) * (2 * n - 1) ≤ (2 * n - 1) * (2 * n - 1) :=
    Nat.mul_le_mul_right _ (Nat.sub_le _ _)
  have hsub2 : (2 * n - 1) * (2 * n - 1 - j) ≤ (2 * n - 1) * (2 * n - 1) :=
    Nat.mul_le_mul_left _ (Nat.sub_le _ _)
  have hr : (⟨(chainBox n).min.set (FastKDTree.axisOfIndex 0) (j : ℚ), (chainBox n).max⟩ : Box).surface_area
      = F32.fin ((2 * ((2 * n - 1 - j) * (2 * n - 1) + (2 * n - 1) * (2 * n - 1)
        + (2 * n - 1) * (2 * n - 1 - j)) : Nat) : ℚ) := by
    have hs : F32.sub (F32.fin ((2 * n - 1 : Nat) : ℚ)) (F32.fin 0)
        = F32.fin ((2 * n - 1 : Nat) : ℚ) := by
      have := F32.sub_natCast (2 * n - 1) 0 (Nat.zero_le _) (by omega)
      simpa using this
    have hs' := F32.sub_natCast (2 * n - 1) j hjL (by omega)
    show (⟨(chainBox n).min.set Axis.X (j : ℚ), (chainBox n).max⟩ : Box).surface_area = _
    unfold Box.surface_area chainBox
    simp only [Vec.set]
    rw [hs, hs']
    exact F32.area3_nat _ _ _ (by omega)
  have har4 : 1 / 4 ≤ ar := by
    simp only at er
    rw [hr, chainBox_area n hn] at er
    have hdiv : F32.div
        (F32.fin ((2 * ((2 * n - 1 - j) * (2 * n - 1) + (2 * n - 1) * (2 * n - 1)
          + (2 * n - 1) * (2 * n - 1 - j)) : Nat) : ℚ))
        (F32.fin ((2 * ((2 * n - 1) * (2 * n - 1) + (2 * n - 1) * (2 * n - 1)
          + (2 * n - 1) * (2 * n - 1)) : Nat) : ℚ))
        = F32.ofRat (((2 * ((2 * n - 1 - j) * (2 * n - 1) + (2 * n - 1) * (2 * n - 1)
          + (2 * n - 1) * (2 * n - 1 - j)) : Nat) : ℚ)
          / ((2 * ((2 * n - 1) * (2 * n - 1) + (2 * n - 1) * (2 * n - 1)
          + (2 * n - 1) * (2 * n - 1)) : Nat) : ℚ)) := by
      simp only [F32.div]
      rw [if_neg hA.ne']
    rw [hdiv] at er
    have hq : (1 / 4 : ℚ) ≤ ((2 * ((2 * n - 1 - j) * (2 * n - 1) + (2 * n - 1) * (2 * n - 1)
          + (2 * n - 1) * (2 * n - 1 - j)) : Nat) : ℚ)
          / ((2 * ((2 * n - 1) * (2 * n - 1) + (2 * n - 1) * (2 * n - 1)
          + (2 * n - 1) * (2 * n - 1)) : Nat) : ℚ) := by
      rw [le_div_iff₀ hA]
      have hnat : 2 * ((2 * n - 1) * (2 * n - 1) + (2 * n - 1) * (2 * n - 1)
          + (2 * n - 1) * (2 * n - 1))
          ≤ 4 * (2 * ((2 * n - 1 - j) * (2 * n - 1) + (2 * n - 1) * (2 * n - 1)
          + (2 * n - 1) * (2 * n - 1 - j))) := by omega
      have hcast : ((2 * ((2 * n - 1) * (2 * n - 1) + (2 * n - 1) * (2 * n - 1)
          + (2 * n - 1) * (2 * n - 1)) : Nat) : ℚ)
          ≤ 4 * ((2 * ((2 * n - 1 - j) * (2 * n - 1) + (2 * n - 1) * (2 * n - 1)
          + (2 * n - 1) * (2 * n - 1 - j)) : Nat) : ℚ) := by exact_mod_cast hnat
      linarith
    have := F32.le_ofRat_of_le F32.isFloat_quarter hq
    rw [er] at this
    exact (F32.le_fin_fin _ ar).1 this
  have hb : toSizeT ((n : Int) - (j : Int) - 1) = n - j - 1 := by
    have h1 : ((n : Int) - (j : Int) - 1) = ((n - j - 1 : Nat) : Int) := by omega
    rw [h1]
    apply toSizeT_natCast
    unfold SIZE_MOD
    have : n - j - 1 < 800 := by omega
    have h2 : (800 : Nat) < 2 ^ 64 := by norm_num
    omega
  obtain ⟨c, ec, _, _, h16⟩ := cost_zero_left al ar (toSizeT ((n : Int) - (j : Int) - 1)) hal har
    (toSizeT_lt _)
  refine ⟨c, ?_, h16 (by rw [hb]; omega) har4⟩
  simp only [chainCand]
  simp only at el er
  rw [el, er]
  exact ec

/-- The running minimum stays above a cost that is below it and below every
candidate. -/
theorem foldl_recordMin_above (pre : List (Plane × F32 × Dir))
    (acc : F32 × Option Plane × Option Dir) (c : F32) (hacc : c.lt acc.1 = true)
    (hpre : ∀ x ∈ pre, c.lt x.2.1 = true) :
    c.lt (pre.foldl FastKDTree.recordMin acc).1 = true := by
  induction pre generalizing acc with
  | nil => exact hacc
  | cons x xs ih =>
    rw [List.foldl_cons]
    apply ih
    · unfold FastKDTree.recordMin
      split_ifs
      · exact hpre x (by simp)
      · exact hacc
    · intro y hy
      exact hpre y (List.mem_cons_of_mem _ hy)

/-- The running minimum is kept over candidates that are not below it. -/
theorem foldl_recordMin_keep (post : List (Plane × F32 × Dir))
    (acc : F32 × Option Plane × Option Dir) (hpost : ∀ x ∈ post, x.2.1.lt acc.1 = false) :
    post.foldl FastKDTree.recordMin acc = acc := by
  induction post with
  | nil => rfl
  | cons x xs ih =>
    rw [List.foldl_cons]
    have hx : FastKDTree.recordMin acc x = acc := by
      simp [FastKDTree.recordMin, hpost x (by simp)]
    rw [hx]
    exact ih (fun y hy => hpost y (List.mem_cons_of_mem _ hy))

/-- The running minimum ends at the first candidate that is below the start
value, below every candidate before it and not above any candidate after
it. -/
theorem foldl_recordMin_first (pre post : List (Plane × F32 × Dir)) (p : Plane) (c : F32)
    (d : Dir) (acc : F32 × Option Plane × Option Dir) (hacc : c.lt acc.1 = true)
    (hpre : ∀ x ∈ pre, c.lt x.2.1 = true) (hpost : ∀ x ∈ post, x.2.1.lt c = false) :
    (pre ++ (p, c, d) :: post).foldl FastKDTree.recordMin acc = (c, some p, some d) := by
  rw [List.foldl_append, List.foldl_cons]
  have h1 := foldl_recordMin_above pre acc c hacc hpre
  have h2 : FastKDTree.recordMin (pre.foldl FastKDTree.recordMin acc) (p, c, d)
      = (c, some p, some d) := by
    simp [FastKDTree.recordMin, h1]
  rw [h2]
  exact foldl_recordMin_keep post _ hpost

theorem chain_sort_events (n : Nat) :
    sampleLib.sort (FastKDTree.eventLess sampleLib) ((List.range (2 * n)).map chainEvent)
      = (List.range (2 * n)).map chainEvent := by
  rw [List.range_eq_range']
  exact chain_sorted 0 (2 * n)

theorem chain_clip (n : Nat) :
    ∀ tri ∈ chainScene n, (sampleLib.triangle_clip_aabb tri (chainBox n)).valid ∧
      (chainBox n).contains (sampleLib.triangle_clip_aabb tri (chainBox n)) := by
  intro tri htri
  obtain ⟨i, hi, rfl⟩ := List.mem_map.1 htri
  have hi' : i < n := List.mem_range.1 hi
  show (chainTri i).bbox.valid ∧ (chainBox n).contains (chainTri i).bbox
  rw [chainTri_bbox]
  have h1 : ((2 * i : Nat) : ℚ) ≤ ((2 * i + 1 : Nat) : ℚ) := by
    exact_mod_cast Nat.le_succ _
  have h2 : ((2 * i + 1 : Nat) : ℚ) ≤ ((2 * n - 1 : Nat) : ℚ) := by
    have : 2 * i + 1 ≤ 2 * n - 1 := by omega
    exact_mod_cast this
  have h0 : (0 : ℚ) ≤ ((2 * i : Nat) : ℚ) := Nat.cast_nonneg _
  exact ⟨⟨h1, h1, h1⟩, ⟨h0, h0, h0⟩, ⟨h2, h2, h2⟩⟩

/-- For the scene `chainScene n` with `2 ≤ n ≤ 800`, `find_plane` returns
the cost `12` at the plane `x = n - 1`. -/
theorem chain_find_plane (n : Nat) (h2 : 2 ≤ n) (hn : n ≤ 800) :
    FastKDTree.find_plane sampleLib (chainScene n) (chainBox n)
      = Except.ok (12, some ⟨Axis.X, ((n - 1 : Nat) : ℚ)⟩, some Dir.RIGHT) := by
  have hperm : ∀ ax,
      (sampleLib.sort (FastKDTree.eventLess sampleLib)
        (FastKDTree.generateEvents sampleLib (chainScene n) (chainBox n) ax)).Perm
        (FastKDTree.generateEvents sampleLib (chainScene n) (chainBox n) ax) := by
    intro ax
    rw [chain_generateEvents, chain_sort_events]
  obtain ⟨res, hres⟩ := find_plane_returns sampleLib (chainScene n) (chainBox n) hperm
    (chain_clip n)
  obtain ⟨cands, hc1, hc2⟩ := find_plane_fold sampleLib (chainScene n) (chainBox n) res hres
  have hinj : Function.Injective
      (fun c : Plane × F32 × Dir => (c.1, (Except.ok (c.2.1, c.2.2) : Except Err (F32 × Dir)))) := by
    intro a b hab
    simp only [Prod.mk.injEq, Except.ok.injEq] at hab
    exact Prod.ext hab.1 (Prod.ext hab.2.1 hab.2.2)
  have hsplit : List.range (2 * n)
      = List.range (n - 1) ++ (n - 1) :: List.range' n n := by
    have e1 : 2 * n = (n + 1) + (n - 1) := by omega
    have e2 : List.range' (n - 1) (n + 1) = (n - 1) :: List.range' n n := by
      rw [List.range'_succ]
      congr 2
      omega
    rw [List.range_eq_range', List.range_eq_range', e1, ← List.range'_append_1, Nat.zero_add,
      e2]
  have hcands : cands = (List.range (n - 1)).map (chainCand n 0)
      ++ chainCand n 0 (n - 1) :: ((List.range' n n).map (chainCand n 0)
        ++ ((List.range (2 * n)).map (chainCand n 1)
          ++ (List.range (2 * n)).map (chainCand n 2))) := by
    unfold FastKDTree.candidates at hc1
    rw [chain_axisCandidates, chain_axisCandidates, chain_axisCandidates,
      ← List.map_append, ← List.map_append] at hc1
    have := (List.map_injective_iff.2 hinj) hc1
    rw [← this, hsplit]
    simp
  have hmid : chainCand n 0 (n - 1)
      = (⟨Axis.X, ((n - 1 : Nat) : ℚ)⟩, (12 : F32), Dir.RIGHT) := by
    obtain ⟨c, ec, _, hz⟩ := chainCand_ge n 0 (n - 1) (by omega) hn (by omega)
    have h0 : toSizeT ((n : Int) - ((n - 1 : Nat) : Int) - 1) = 0 := by
      have : (n : Int) - ((n - 1 : Nat) : Int) - 1 = 0 := by omega
      rw [this]
      decide
    have hc : (chainCand n 0 (n - 1)).2.1 = (12 : F32) := by
      rw [ec, hz h0]
      show F32.fin 12 = F32.fin ((12 : Nat) : ℚ)
      norm_num
    exact Prod.ext rfl (Prod.ext hc rfl)
  have h12 : (12 : F32) = F32.fin 12 := by
    show F32.fin ((12 : Nat) : ℚ) = F32.fin 12
    norm_num
  have hge : ∀ k j, j < 2 * n → (chainCand n k j).2.1.lt 12 = false := by
    intro k j hj
    obtain ⟨c, ec, hc, _⟩ := chainCand_ge n k j (by omega) hn hj
    rw [ec, h12]
    simp [F32.lt, hc]
  rw [hres, hc2, hcands, hmid]
  congr 1
  apply foldl_recordMin_first
  · rw [h12]
    unfold FastKDTree.FLT_MAX
    rw [F32.lt_fin_fin]
    norm_num
  · intro x hx
    obtain ⟨j, hj, rfl⟩ := List.mem_map.1 hx
    have hj' : j < n - 1 := List.mem_range.1 hj
    obtain ⟨c, ec, hc⟩ := chainCand_early n j hn (by omega)
    rw [ec, h12, F32.lt_fin_fin]
    linarith
  · intro x hx
    simp only [List.mem_append, List.mem_map] at hx
    rcases hx with ⟨j, hj, rfl⟩ | ⟨j, hj, rfl⟩ | ⟨j, hj, rfl⟩
    · exact hge 0 j (by have := (List.mem_range'_1.1 hj).2; omega)
    · exact hge 1 j (List.mem_range.1 hj)
    · exact hge 2 j (List.mem_range.1 hj)

/-- The box `chainBox n` is the bounding box the constructor computes for
`chainScene n`. -/
theorem chain_boundingBox (n : Nat) :
    (chainScene (n + 1)).tail.foldl (fun box t => box.union t.bbox) (chainTri 0).bbox
      = chainBox (n + 1) := by
  induction n with
  | zero =>
    rw [chainTri_bbox]
    simp [chainScene, chainBox, List.range_succ]
  | succ n ih =>
    have hs : chainScene (n + 1 + 1) = chainScene (n + 1) ++ [chainTri (n + 1)] := by
      simp [chainScene, List.range_succ]
    have hne : chainScene (n + 1) ≠ [] := by simp [chainScene, List.range_succ]
    rw [hs, List.tail_append_of_ne_nil hne, List.foldl_append, ih, List.foldl_cons,
      List.foldl_nil, chainTri_bbox]
    have h1 : (2 * (n + 1) - 1 : Nat) ≤ 2 * (n + 1) + 1 := by omega
    have h1' : ((2 * (n + 1) - 1 : Nat) : ℚ) ≤ ((2 * (n + 1) + 1 : Nat) : ℚ) := by
      exact_mod_cast h1
    have h2 : (2 * (n + 1 + 1) - 1 : Nat) = 2 * (n + 1) + 1 := by omega
    have h0 : (0 : ℚ) ≤ ((2 * (n + 1) : Nat) : ℚ) := Nat.cast_nonneg _
    simp only [Box.union, chainBox, h2, min_eq_left h0, max_eq_right h1']

/-- The constructor returns a leaf for every non-empty triangle list. -/
theorem construct_leaf (lib : FastKDTree.Lib) (fuel : Nat) (first : Triangle)
    (rest : Triangles) :
    FastKDTree.construct lib fuel (first :: rest)
      = Except.ok (FastNode.leaf (first :: rest)) := by
  unfold FastKDTree.construct
  cases fuel <;> simp [FastKDTree.build, FastKDTree.terminate]

/-- C16 on the code: for the scene `chainScene n` of `n` triangles,
`3 ≤ n ≤ 800`, in its bounding box `chainBox n`, the best split cost
`find_plane` returns is `12`, at the plane `x = n - 1`, strictly less than
`COST_INTERSECTION * n`; the triangles that meet the two sides of the box cut
at this plane are two non-empty lists of fewer than `n` triangles each; and
`build` returns a leaf holding all `n` triangles, for every fuel: `terminate`
returns `true` before `find_plane` is called. -/
theorem build_ignores_cost (n fuel : Nat) (h3 : 3 ≤ n) (hn : n ≤ 800) :
    (chainScene n).length = n ∧
    (∃ first rest, chainScene n = first :: rest ∧ KDTree.boundingBox first rest = chainBox n) ∧
    FastKDTree.find_plane sampleLib (chainScene n) (chainBox n)
      = Except.ok (12, some ⟨Axis.X, ((n - 1 : Nat) : ℚ)⟩, some Dir.RIGHT) ∧
    (12 : ℚ) < (COST_INTERSECTION : ℚ) * (((chainScene n).length : ℕ) : ℚ) ∧
    (∃ lbox rbox, split (chainBox n) ⟨Axis.X, ((n - 1 : Nat) : ℚ)⟩ = Except.ok (lbox, rbox) ∧
      (chainScene n).filter (fun tri => sampleLib.tri_box_intersect tri lbox) ≠ [] ∧
      (chainScene n).filter (fun tri => sampleLib.tri_box_intersect tri rbox) ≠ [] ∧
      ((chainScene n).filter (fun tri => sampleLib.tri_box_intersect tri lbox)).length < n ∧
      ((chainScene n).filter (fun tri => sampleLib.tri_box_intersect tri rbox)).length < n) ∧
    FastKDTree.build sampleLib fuel (chainScene n) (chainBox n)
      = Except.ok (FastNode.leaf (chainScene n)) ∧
    FastKDTree.construct sampleLib fuel (chainScene n)
      = Except.ok (FastNode.leaf (chainScene n)) := by
  have hlen : (chainScene n).length = n := by simp [chainScene]
  obtain ⟨m, rfl⟩ : ∃ m, n = m + 1 := ⟨n - 1, by omega⟩
  have hcons : chainScene (m + 1) = chainTri 0 :: (chainScene (m + 1)).tail := by
    simp [chainScene, List.range_succ_eq_map]
  have hbuild : ∀ box, FastKDTree.build sampleLib fuel (chainScene (m + 1)) box
      = Except.ok (FastNode.leaf (chainScene (m + 1))) := by
    intro box
    cases fuel <;> simp [FastKDTree.build, FastKDTree.terminate]
  have hfirst : chainTri 0 ∈ chainScene (m + 1) :=
    List.mem_map.2 ⟨0, List.mem_range.2 (by omega), rfl⟩
  have hlast : chainTri m ∈ chainScene (m + 1) :=
    List.mem_map.2 ⟨m, List.mem_range.2 (by omega), rfl⟩
  have hin := chain_plane_in (m + 1) 0 (m + 1 - 1) (by omega)
  -- the coordinates that decide the triangle-box tests
  have c0 : ((2 * 0 : Nat) : ℚ) = 0 := by norm_num
  have c1 : ((2 * 0 + 1 : Nat) : ℚ) = 1 := by norm_num
  have cm : ((m + 1 - 1 : Nat) : ℚ) = (m : ℚ) := by simp
  have cL : ((2 * (m + 1) - 1 : Nat) : ℚ) = 2 * (m : ℚ) + 1 := by
    have : 2 * (m + 1) - 1 = 2 * m + 1 := by omega
    rw [this]; push_cast; ring
  have c2m : ((2 * m : Nat) : ℚ) = 2 * (m : ℚ) := by push_cast; ring
  have c2m1 : ((2 * m + 1 : Nat) : ℚ) = 2 * (m : ℚ) + 1 := by push_cast; ring
  have hm : (2 : ℚ) ≤ (m : ℚ) := by
    have : 2 ≤ m := by omega
    exact_mod_cast this
  have l0 : sampleLib.tri_box_intersect (chainTri 0)
      ⟨(chainBox (m + 1)).min, (chainBox (m + 1)).max.set Axis.X ((m + 1 - 1 : Nat) : ℚ)⟩
      = true := by
    show decide _ = true
    rw [chainTri_bbox]
    simp only [chainBox, Vec.set, c0, c1, cm, cL, decide_eq_true_eq]
    refine ⟨?_, ?_, ?_, ?_, ?_, ?_⟩ <;> linarith
  have lm : sampleLib.tri_box_intersect (chainTri m)
      ⟨(chainBox (m + 1)).min, (chainBox (m + 1)).max.set Axis.X ((m + 1 - 1 : Nat) : ℚ)⟩
      = false := by
    show decide _ = false
    rw [chainTri_bbox]
    simp only [chainBox, Vec.set, cm, cL, c2m, c2m1, decide_eq_false_iff_not]
    intro h
    linarith [h.1]
  have r0 : sampleLib.tri_box_intersect (chainTri 0)
      ⟨(chainBox (m + 1)).min.set Axis.X ((m + 1 - 1 : Nat) : ℚ), (chainBox (m + 1)).max⟩
      = false := by
    show decide _ = false
    rw [chainTri_bbox]
    simp only [chainBox, Vec.set, c0, c1, cm, cL, decide_eq_false_iff_not]
    intro h
    linarith [h.2.1]
  have rm : sampleLib.tri_box_intersect (chainTri m)
      ⟨(chainBox (m + 1)).min.set Axis.X ((m + 1 - 1 : Nat) : ℚ), (chainBox (m + 1)).max⟩
      = true := by
    show decide _ = true
    rw [chainTri_bbox]
    simp only [chainBox, Vec.set, cm, cL, c2m, c2m1, decide_eq_true_eq]
    refine ⟨?_, ?_, ?_, ?_, ?_, ?_⟩ <;> linarith
  refine ⟨hlen, ⟨chainTri 0, (chainScene (m + 1)).tail, hcons, chain_boundingBox m⟩,
    chain_find_plane (m + 1) (by omega) hn, ?_, ?_, hbuild _, ?_⟩
  · rw [hlen]
    have : (3 : ℚ) ≤ ((m + 1 : Nat) : ℚ) := by exact_mod_cast h3
    simp only [COST_INTERSECTION]
    push_cast at this ⊢
    linarith
  · refine ⟨_, _, split_ok (chainBox (m + 1)) ⟨Axis.X, ((m + 1 - 1 : Nat) : ℚ)⟩ hin, ?_, ?_, ?_, ?_⟩
    · exact List.ne_nil_of_mem (List.mem_filter.2 ⟨hfirst, l0⟩)
    · exact List.ne_nil_of_mem (List.mem_filter.2 ⟨hlast, rm⟩)
    · have : ((chainScene (m + 1)).filter (fun tri => sampleLib.tri_box_intersect tri
          ⟨(chainBox (m + 1)).min,
            (chainBox (m + 1)).max.set Axis.X ((m + 1 - 1 : Nat) : ℚ)⟩)).length
          < (chainScene (m + 1)).length :=
        List.length_filter_lt_length_iff_exists.2
          ⟨chainTri m, hlast, fun h => by simp only [lm] at h; cases h⟩
      rwa [hlen] at this
    · have : ((chainScene (m + 1)).filter (fun tri => sampleLib.tri_box_intersect tri
          ⟨(chainBox (m + 1)).min.set Axis.X ((m + 1 - 1 : Nat) : ℚ),
            (chainBox (m + 1)).max⟩)).length
          < (chainScene (m + 1)).length :=
        List.length_filter_lt_length_iff_exists.2
          ⟨chainTri 0, hfirst, fun h => by simp only [r0] at h; cases h⟩
      rwa [hlen] at this
  · rw [hcons]
    exact construct_leaf _ _ _ _

theorem build_ignores_cost_witness :
    (3 ≤ 11 ∧ 11 ≤ 800) ∧
    ((chainScene 11).length = 11 ∧
    (∃ first rest, chainScene 11 = first :: rest ∧ KDTree.boundingBox first rest = chainBox 11) ∧
    FastKDTree.find_plane sampleLib (chainScene 11) (chainBox 11)
      = Except.ok (12, some ⟨Axis.X, ((11 - 1 : Nat) : ℚ)⟩, some Dir.RIGHT) ∧
    (12 : ℚ) < (COST_INTERSECTION : ℚ) * (((chainScene 11).length : ℕ) : ℚ) ∧
    (∃ lbox rbox, split (chainBox 11) ⟨Axis.X, ((11 - 1 : Nat) : ℚ)⟩ = Except.ok (lbox, rbox) ∧
      (chainScene 11).filter (fun tri => sampleLib.tri_box_intersect tri lbox) ≠ [] ∧
      (chainScene 11).filter (fun tri => sampleLib.tri_box_intersect tri rbox) ≠ [] ∧
      ((chainScene 11).filter (fun tri => sampleLib.tri_box_intersect tri lbox)).length < 11 ∧
      ((chainScene 11).filter (fun tri => sampleLib.tri_box_intersect tri rbox)).length < 11) ∧
    FastKDTree.build sampleLib 5 (chainScene 11) (chainBox 11)
      = Except.ok (FastNode.leaf (chainScene 11)) ∧
    FastKDTree.construct sampleLib 5 (chainScene 11)
      = Except.ok (FastNode.leaf (chainScene 11))) :=
  ⟨⟨by decide, by decide⟩, build_ignores_cost 11 5 (by decide) (by decide)⟩

/-! ## Ray–box intersection -/

theorem Ext.max_le_fin (a c : Ext) (t : ℚ) :
    (Ext.max a c).le (Ext.fin t) = true ↔ a.le (Ext.fin t) = true ∧ c.le (Ext.fin t) = true := by
  cases a with
  | negInf => cases c <;> simp [Ext.max, Ext.le]
  | posInf => cases c <;> simp [Ext.max, Ext.le]
  | fin x =>
    cases c with
    | negInf => simp [Ext.max, Ext.le]
    | posInf => simp [Ext.max, Ext.le]
    | fin y =>
      by_cases hxy : x ≤ y
      · simp only [Ext.max, Ext.le, hxy, decide_True, if_true, decide_eq_true_eq]
        exact ⟨fun h => ⟨le_trans hxy h, h⟩, fun h => h.2⟩
      · simp only [Ext.max, Ext.le, hxy, decide_False, Bool.false_eq_true, if_false,
          decide_eq_true_eq]
        exact ⟨fun h => ⟨h, le_trans (le_of_lt (not_le.1 hxy)) h⟩, fun h => h.1⟩

theorem Ext.fin_le_min (b d : Ext) (t : ℚ) :
    (Ext.fin t).le (Ext.min b d) = true ↔ (Ext.fin t).le b = true ∧ (Ext.fin t).le d = true := by
  cases b with
  | negInf => cases d <;> simp [Ext.min, Ext.le]
  | posInf => cases d <;> simp [Ext.min, Ext.le]
  | fin x =>
    cases d with
    | negInf => simp [Ext.min, Ext.le]
    | posInf => simp [Ext.min, Ext.le]
    | fin y =>
      by_cases hxy : x ≤ y
      · simp only [Ext.min, Ext.le, hxy, decide_True, if_true, decide_eq_true_eq]
        exact ⟨fun h => ⟨h, le_trans h hxy⟩, fun h => h.1⟩
      · simp only [Ext.min, Ext.le, hxy, decide_False, Bool.false_eq_true, if_false,
          decide_eq_true_eq]
        exact ⟨fun h => ⟨le_trans h (le_of_lt (not_le.1 hxy)), h⟩, fun h => h.2⟩

/-- A ray parameter lies in the intersection of two intervals exactly when it
lies in both. -/
theorem Ext.mem_inter (a b c d : Ext) (t : ℚ) :
    Ext.mem (Ext.max a c, Ext.min b d) t ↔ Ext.mem (a, b) t ∧ Ext.mem (c, d) t := by
  unfold Ext.mem
  simp only
  rw [Ext.max_le_fin, Ext.fin_le_min]
  tauto

theorem Ext.min_negInf_right (b : Ext) : Ext.min b Ext.negInf = Ext.negInf := by
  cases b <;> simp [Ext.min, Ext.le]

theorem Ext.good_inter (a b c d : Ext) (h1 : Ext.Good (a, b)) (h2 : Ext.Good (c, d)) :
    Ext.Good (Ext.max a c, Ext.min b d) := by
  unfold Ext.Good at *
  simp only at *
  intro h
  have hor : a = Ext.posInf ∨ c = Ext.posInf := by
    unfold Ext.max at h
    split_ifs at h
    · exact Or.inr h
    · exact Or.inl h
  rcases hor with ha | hc
  · rw [h1 ha]
    simp [Ext.min, Ext.le]
  · rw [h2 hc]
    exact Ext.min_negInf_right b

/-- The ray parameters of the slab of one axis are those at which the ray is
between the two planes of the axis, for `mn ≤ mx`. -/
theorem slab_mem (o d mn mx t : ℚ) (hv : mn ≤ mx) :
    Ext.mem (slab o d mn mx) t ↔ mn ≤ o + t * d ∧ o + t * d ≤ mx := by
  unfold slab Ext.mem
  by_cases hd : d = 0
  · by_cases hin : mn ≤ o ∧ o ≤ mx
    · simp [hd, hin, Ext.le]
    · simp only [hd, hin, if_true, if_false, Ext.le, mul_zero, add_zero]
      simp
  · simp only [hd, if_false, Ext.le, decide_eq_true_eq]
    rcases lt_or_gt_of_ne hd with hneg | hpos
    · have h12 : (mx - o) / d ≤ (mn - o) / d := by
        rw [div_le_div_right_of_neg hneg]; linarith
      rw [min_eq_right h12, max_eq_left h12, div_le_iff_of_neg hneg, le_div_iff_of_neg hneg]
      constructor
      · rintro ⟨h1, h2⟩; exact ⟨by linarith, by linarith⟩
      · rintro ⟨h1, h2⟩; exact ⟨by linarith, by linarith⟩
    · have h12 : (mn - o) / d ≤ (mx - o) / d := by
        rw [div_le_div_iff_of_pos_right hpos]; linarith
      rw [min_eq_left h12, max_eq_right h12, div_le_iff₀ hpos, le_div_iff₀ hpos]
      constructor
      · rintro ⟨h1, h2⟩; exact ⟨by linarith, by linarith⟩
      · rintro ⟨h1, h2⟩; exact ⟨by linarith, by linarith⟩

theorem slab_good (o d mn mx : ℚ) : Ext.Good (slab o d mn mx) := by
  unfold slab Ext.Good
  split_ifs <;> simp

/-- An interval is met by the ray, at a parameter `t ≥ 0`, exactly when
`tnear ≤ tfar` and `tfar ≥ 0`. -/
theorem Ext.exists_mem_iff (s : Ext × Ext) (hg : Ext.Good s) :
    (s.1.le s.2 = true ∧ (Ext.fin 0).le s.2 = true) ↔ ∃ t : ℚ, 0 ≤ t ∧ Ext.mem s t := by
  obtain ⟨lo, hi⟩ := s
  unfold Ext.Good at hg
  unfold Ext.mem
  simp only at hg ⊢
  cases lo with
  | posInf =>
    rw [hg rfl]
    simp [Ext.le]
  | negInf =>
    cases hi with
    | negInf => simp [Ext.le]
    | posInf => simp only [Ext.le, true_and]; exact ⟨fun _ => ⟨0, le_refl _, trivial⟩, fun _ => trivial⟩
    | fin h =>
      simp only [Ext.le, decide_eq_true_eq, true_and]
      exact ⟨fun h0 => ⟨0, le_refl _, h0⟩, fun ⟨t, ht, hth⟩ => le_trans ht hth⟩
  | fin l =>
    cases hi with
    | negInf => simp [Ext.le]
    | posInf =>
      simp only [Ext.le, decide_eq_true_eq, and_true, true_and]
      exact ⟨fun _ => ⟨Max.max l 0, le_max_right _ _, le_max_left _ _⟩, fun _ => trivial⟩
    | fin h =>
      simp only [Ext.le, decide_eq_true_eq]
      constructor
      · rintro ⟨h1, h2⟩
        exact ⟨Max.max l 0, le_max_right _ _, le_max_left _ _, max_le h1 h2⟩
      · rintro ⟨t, ht, h1, h2⟩
        exact ⟨le_trans h1 h2, le_trans ht h2⟩

/-- The final `[tnear, tfar]` is the common range of the slabs of the three
axes. -/
theorem slabRange_mem (ray : Ray) (box : Box) (t : ℚ) :
    Ext.mem (slabRange ray box) t ↔
      ∀ a : Axis, Ext.mem
        (slab (ray.origin.get a) (ray.direction.get a) (box.min.get a) (box.max.get a)) t := by
  unfold slabRange
  simp only [List.foldl_cons, List.foldl_nil, slabStep]
  rw [Ext.mem_inter, Ext.mem_inter, Ext.mem_inter]
  have h0 : Ext.mem (Ext.negInf, Ext.posInf) t := by simp [Ext.mem, Ext.le]
  constructor
  · rintro ⟨⟨⟨_, hx⟩, hy⟩, hz⟩ a
    cases a
    · exact hx
    · exact hy
    · exact hz
  · intro h
    exact ⟨⟨⟨h0, h Axis.X⟩, h Axis.Y⟩, h Axis.Z⟩

theorem slabRange_good (ray : Ray) (box : Box) : Ext.Good (slabRange ray box) := by
  unfold slabRange
  simp only [List.foldl_cons, List.foldl_nil, slabStep]
  apply Ext.good_inter _ _ _ _ _ (slab_good _ _ _ _)
  apply Ext.good_inter _ _ _ _ _ (slab_good _ _ _ _)
  apply Ext.good_inter _ _ _ _ _ (slab_good _ _ _ _)
  intro h
  cases h

/-- The seven cases of the test "Ray AABB intersection". -/
theorem ray_box_intersection_tests :
    ray_box_intersection ⟨⟨0, 0, 0⟩, ⟨1, 1, 1⟩⟩ ⟨⟨-1, -1, -1⟩, ⟨1, 1, 1⟩⟩ = true ∧
    ray_box_intersection ⟨⟨10, 0, 0⟩, ⟨-1, 0, 0⟩⟩ ⟨⟨-1, -1, -1⟩, ⟨1, 1, 1⟩⟩ = true ∧
    ray_box_intersection ⟨⟨0, 10, 0⟩, ⟨0, -1, 0⟩⟩ ⟨⟨-1, -1, -1⟩, ⟨1, 1, 1⟩⟩ = true ∧
    ray_box_intersection ⟨⟨0, 0, 10⟩, ⟨0, 0, -1⟩⟩ ⟨⟨-1, -1, -1⟩, ⟨1, 1, 1⟩⟩ = true ∧
    ray_box_intersection ⟨⟨0, 0, 0⟩, ⟨1, 0, 0⟩⟩ ⟨⟨-1, -1, 1⟩, ⟨1, 1, 1⟩⟩ = false ∧
    ray_box_intersection ⟨⟨-2, -2, -2⟩, ⟨-1, 0, 0⟩⟩ ⟨⟨-1, -1, 1⟩, ⟨1, 1, 1⟩⟩ = false ∧
    ray_box_intersection ⟨⟨-1, 0, 0⟩, ⟨-1, 0, 0⟩⟩ ⟨⟨0, 0, 0⟩, ⟨1, 1, 1⟩⟩ = false := by
  decide!

/-- C18: for every ray (origin `o`, direction `d`) and valid box,
`ray_box_intersection` returns true exactly when the common range
`[tnear, tfar]` of the slab intervals of the three axes has `tnear ≤ tfar`
and `tfar ≥ 0`, that is, exactly when some point `o + t*d` with `t ≥ 0` lies
in the box; an axis with `d = 0` whose slab does not contain `o` makes the
result false, and otherwise imposes no constraint. -/
theorem ray_box_intersection_iff (ray : Ray) (box : Box) (hv : box.valid) :
    (ray_box_intersection ray box = true ↔
      (slabRange ray box).1.le (slabRange ray box).2 = true ∧
        (Ext.fin 0).le (slabRange ray box).2 = true) ∧
    (∀ t : ℚ, Ext.mem (slabRange ray box) t ↔
      ∀ a : Axis, Ext.mem
        (slab (ray.origin.get a) (ray.direction.get a) (box.min.get a) (box.max.get a)) t) ∧
    (ray_box_intersection ray box = true ↔
      ∃ t : ℚ, 0 ≤ t ∧ ∀ a : Axis,
        box.min.get a ≤ ray.origin.get a + t * ray.direction.get a ∧
        ray.origin.get a + t * ray.direction.get a ≤ box.max.get a) ∧
    (∀ a : Axis, ray.direction.get a = 0 →
      ¬ (box.min.get a ≤ ray.origin.get a ∧ ray.origin.get a ≤ box.max.get a) →
      ray_box_intersection ray box = false) ∧
    (∀ (a : Axis) (t : ℚ), ray.direction.get a = 0 →
      (box.min.get a ≤ ray.origin.get a ∧ ray.origin.get a ≤ box.max.get a) →
      Ext.mem
        (slab (ray.origin.get a) (ray.direction.get a) (box.min.get a) (box.max.get a)) t) := by
  have hva : ∀ a : Axis, box.min.get a ≤ box.max.get a := by
    obtain ⟨h1, h2, h3⟩ := hv
    intro a
    cases a <;> simp only [Vec.get] <;> assumption
  have hdef : ray_box_intersection ray box = true ↔
      (slabRange ray box).1.le (slabRange ray box).2 = true ∧
        (Ext.fin 0).le (slabRange ray box).2 = true := by
    unfold ray_box_intersection
    simp only [Bool.and_eq_true]
  have hpt : ray_box_intersection ray box = true ↔
      ∃ t : ℚ, 0 ≤ t ∧ ∀ a : Axis,
        box.min.get a ≤ ray.origin.get a + t * ray.direction.get a ∧
        ray.origin.get a + t * ray.direction.get a ≤ box.max.get a := by
    rw [hdef, Ext.exists_mem_iff _ (slabRange_good ray box)]
    constructor
    · rintro ⟨t, ht, hm⟩
      refine ⟨t, ht, fun a => ?_⟩
      exact (slab_mem _ _ _ _ t (hva a)).1 ((slabRange_mem ray box t).1 hm a)
    · rintro ⟨t, ht, hm⟩
      refine ⟨t, ht, (slabRange_mem ray box t).2 fun a => ?_⟩
      exact (slab_mem _ _ _ _ t (hva a)).2 (hm a)
  refine ⟨hdef, slabRange_mem ray box, hpt, ?_, ?_⟩
  · intro a hd hout
    cases hr : ray_box_intersection ray box with
    | false => rfl
    | true =>
      exfalso
      obtain ⟨t, _, hm⟩ := hpt.1 hr
      have := hm a
      rw [hd, mul_zero, add_zero] at this
      exact hout this
  · intro a t hd hin
    rw [slab_mem _ _ _ _ t (hva a), hd, mul_zero, add_zero]
    exact hin

theorem ray_box_intersection_iff_witness :
    (⟨⟨0, 0, 0⟩, ⟨1, 1, 1⟩⟩ : Box).valid ∧
    ray_box_intersection ⟨⟨-1, 0, 0⟩, ⟨-1, 0, 0⟩⟩ ⟨⟨0, 0, 0⟩, ⟨1, 1, 1⟩⟩ = false ∧
    (ray_box_intersection ⟨⟨-1, 0, 0⟩, ⟨-1, 0, 0⟩⟩ ⟨⟨0, 0, 0⟩, ⟨1, 1, 1⟩⟩ = true ↔
      ∃ t : ℚ, 0 ≤ t ∧ ∀ a : Axis,
        (⟨⟨0, 0, 0⟩, ⟨1, 1, 1⟩⟩ : Box).min.get a
          ≤ (⟨⟨-1, 0, 0⟩, ⟨-1, 0, 0⟩⟩ : Ray).origin.get a
            + t * (⟨⟨-1, 0, 0⟩, ⟨-1, 0, 0⟩⟩ : Ray).direction.get a ∧
        (⟨⟨-1, 0, 0⟩, ⟨-1, 0, 0⟩⟩ : Ray).origin.get a
            + t * (⟨⟨-1, 0, 0⟩, ⟨-1, 0, 0⟩⟩ : Ray).direction.get a
          ≤ (⟨⟨0, 0, 0⟩, ⟨1, 1, 1⟩⟩ : Box).max.get a) :=
  ⟨by decide!, by decide!,
    (ray_box_intersection_iff ⟨⟨-1, 0, 0⟩, ⟨-1, 0, 0⟩⟩ ⟨⟨0, 0, 0⟩, ⟨1, 1, 1⟩⟩ (by decide!)).2.2.1⟩

/-! ## Face normal -/

/-- The cross product is orthogonal to both factors. -/
theorem Vec.cross_orthogonal (a b : Vec) :
    (a.cross b).x * a.x + (a.cross b).y * a.y + (a.cross b).z * a.z = 0 ∧
    (a.cross b).x * b.x + (a.cross b).y * b.y + (a.cross b).z * b.z = 0 := by
  simp only [Vec.cross]
  constructor <;> ring

/-- C19: for every triangle whose three vertices are not colinear, in a field
with exact non-negative square roots, the face normal has unit length and is
orthogonal to both edge vectors: `normal . u = 0` and `normal . v = 0`. -/
theorem triangle_normal_unit_orthogonal {K : Type} [LinearOrderedField K] (sqrt : K → K)
    (hsq : ∀ x : K, 0 ≤ x → sqrt x * sqrt x = x) (hnn : ∀ x : K, 0 ≤ sqrt x)
    (t : Triangle) (hnc : ¬ t.colinear) :
    (t.normal sqrt).Length sqrt = 1 ∧
    (t.normal sqrt).dot (Vec.cast K t.u) = 0 ∧
    (t.normal sqrt).dot (Vec.cast K t.v) = 0 := by
  obtain ⟨hou, hov⟩ := Vec.cross_orthogonal t.u t.v
  generalize hw : t.u.cross t.v = w at hou hov
  have hw0 : w ≠ ⟨0, 0, 0⟩ := by
    intro h
    apply hnc
    unfold Triangle.colinear
    rw [hw, h]
  have hpos : (0 : K) < (w.x : K) * (w.x : K) + (w.y : K) * (w.y : K) + (w.z : K) * (w.z : K) := by
    have hx := mul_self_nonneg (w.x : K)
    have hy := mul_self_nonneg (w.y : K)
    have hz := mul_self_nonneg (w.z : K)
    rcases lt_or_eq_of_le (add_nonneg (add_nonneg hx hy) hz) with h | h
    · exact h
    · exfalso
      apply hw0
      have h1 : (w.x : K) * (w.x : K) = 0 := by linarith
      have h2 : (w.y : K) * (w.y : K) = 0 := by linarith
      have h3 : (w.z : K) * (w.z : K) = 0 := by linarith
      have e1 : w.x = 0 := by
        have := mul_self_eq_zero.1 h1
        exact_mod_cast this
      have e2 : w.y = 0 := by
        have := mul_self_eq_zero.1 h2
        exact_mod_cast this
      have e3 : w.z = 0 := by
        have := mul_self_eq_zero.1 h3
        exact_mod_cast this
      cases w
      simp only at e1 e2 e3
      rw [e1, e2, e3]
  generalize hq : (w.x : K) * (w.x : K) + (w.y : K) * (w.y : K) + (w.z : K) * (w.z : K) = q at hpos
  have hlen2 : sqrt q * sqrt q = q := hsq q (le_of_lt hpos)
  have hlen0 : sqrt q ≠ 0 := by
    intro h
    rw [h, mul_zero] at hlen2
    linarith
  have hone : sqrt 1 = 1 := by
    have h1 := hsq 1 zero_le_one
    have h2 := hnn 1
    have h3 : (sqrt 1 - 1) * (sqrt 1 + 1) = 0 := by ring_nf; linarith
    rcases mul_eq_zero.1 h3 with h | h
    · linarith
    · linarith
  have hcu : ((w.x : K)) * (t.u.x : K) + (w.y : K) * (t.u.y : K) + (w.z : K) * (t.u.z : K) = 0 := by
    exact_mod_cast congrArg (fun r : ℚ => (r : K)) hou
  have hcv : ((w.x : K)) * (t.v.x : K) + (w.y : K) * (t.v.y : K) + (w.z : K) * (t.v.z : K) = 0 := by
    exact_mod_cast congrArg (fun r : ℚ => (r : K)) hov
  refine ⟨?_, ?_, ?_⟩
  · simp only [Triangle.normal, hw, Vec3.Normalize, Vec3.Length, Vec3.dot, Vec.cast, hq]
    have : (w.x : K) / sqrt q * ((w.x : K) / sqrt q) + (w.y : K) / sqrt q * ((w.y : K) / sqrt q)
        + (w.z : K) / sqrt q * ((w.z : K) / sqrt q) = 1 := by
      field_simp
      rw [← hq] at hlen2 ⊢
      linarith
    rw [this, hone]
  · simp only [Triangle.normal, hw, Vec3.Normalize, Vec3.Length, Vec3.dot, Vec.cast, hq]
    field_simp
    exact hcu
  · simp only [Triangle.normal, hw, Vec3.Normalize, Vec3.Length, Vec3.dot, Vec.cast, hq]
    field_simp
    exact hcv

theorem triangle_normal_unit_orthogonal_witness :
    ((∀ x : ℝ, 0 ≤ x → Real.sqrt x * Real.sqrt x = x) ∧ (∀ x : ℝ, 0 ≤ Real.sqrt x) ∧
      ¬ triFlat.colinear) ∧
    ((triFlat.normal Real.sqrt).Length Real.sqrt = 1 ∧
      (triFlat.normal Real.sqrt).dot (Vec.cast ℝ triFlat.u) = 0 ∧
      (triFlat.normal Real.sqrt).dot (Vec.cast ℝ triFlat.v) = 0) :=
  ⟨⟨fun _ hx => Real.mul_self_sqrt hx, Real.sqrt_nonneg, by decide!⟩,
    triangle_normal_unit_orthogonal Real.sqrt (fun _ hx => Real.mul_self_sqrt hx)
      Real.sqrt_nonneg triFlat (by decide!)⟩

/-! ## Leaf scan and brute-force scan -/

theorem getElem?_append_singleton_some (seen : Triangles) (t u : Triangle) (j : Nat)
    (h : (seen ++ [t])[j]? = some u) : seen[j]? = some u ∨ (j = seen.length ∧ u = t) := by
  rcases Nat.lt_or_ge j seen.length with hlt | hge
  · rw [List.getElem?_append_left hlt] at h
    exact Or.inl h
  · rw [List.getElem?_append_right hge] at h
    right
    have hj : j - seen.length = 0 := by
      rcases Nat.eq_zero_or_pos (j - seen.length) with h0 | hpos
      · exact h0
      · have hle : [t].length ≤ j - seen.length := by
          simp only [List.length_singleton]; omega
        rw [List.getElem?_eq_none hle] at h
        cases h
    rw [hj] at h
    simp only [List.getElem?_cons_zero, Option.some.injEq] at h
    exact ⟨by omega, h.symm⟩

/-- The two scans stay in agreement over every further triangle. -/
theorem scanLoop_agree (hit : TriKernel) (ray : Ray) (rest seen : Triangles) (a : Hit)
    (b : IndexHit) (h : ScanAgree hit ray seen a b) :
    ScanAgree hit ray (seen ++ rest) (scanLoop hit ray rest a)
      (rayIntersectionLoop hit ray rest seen.length b) := by
  induction rest generalizing seen a b with
  | nil => simpa [scanLoop, rayIntersectionLoop] using h
  | cons t rest ih =>
    have happ : seen ++ t :: rest = (seen ++ [t]) ++ rest := by simp
    have hlen : seen.length + 1 = (seen ++ [t]).length := by simp
    rw [happ]
    unfold scanLoop rayIntersectionLoop
    rw [hlen]
    obtain ⟨hr, hs, ht, hcase⟩ := h
    cases hq : hit t ray with
    | none =>
      simp only
      apply ih
      refine ⟨hr, hs, ht, ?_⟩
      rcases hcase with ⟨h1, h2, h3⟩ | ⟨i, tri, h1, h2, h3, h4, h5, h6⟩
      · left
        refine ⟨h1, h2, ?_⟩
        intro u hu
        rcases List.mem_append.1 hu with hu | hu
        · exact h3 u hu
        · rw [List.mem_singleton.1 hu]; exact hq
      · right
        have hi : i < seen.length := by
          rcases Nat.lt_or_ge i seen.length with hlt | hge
          · exact hlt
          · rw [List.getElem?_eq_none hge] at h2; cases h2
        refine ⟨i, tri, h1, by rw [List.getElem?_append_left hi]; exact h2, h3, h4, ?_, ?_⟩
        · intro j u q hj hu hq'
          have hjl : j < seen.length := lt_trans hj hi
          rw [List.getElem?_append_left hjl] at hu
          exact h5 j u q hj hu hq'
        · intro u hu q hq'
          rcases List.mem_append.1 hu with hu | hu
          · exact h6 u hu q hq'
          · rw [List.mem_singleton.1 hu, hq] at hq'; cases hq'
    | some q =>
      obtain ⟨r, s, t'⟩ := q
      simp only
      have hcond : (a.tri.isNone = true ∨ r < a.r) ↔ (b.triangle_index < 0 ∨ r < b.min_r) := by
        rw [hr]
        rcases hcase with ⟨h1, h2, _⟩ | ⟨i, tri, h1, _, h3, _⟩
        · simp [h1, h2]
        · have hnn : ¬ ((i : Int) < 0) := by omega
          simp [h1, h3, hnn]
      by_cases hc : a.tri.isNone = true ∨ r < a.r
      · rw [if_pos hc, if_pos (hcond.1 hc)]
        apply ih
        refine ⟨rfl, rfl, rfl, Or.inr ⟨seen.length, t, by simp, by simp, rfl, hq, ?_, ?_⟩⟩
        · intro j u q hj hu hq'
          rw [List.getElem?_append_left hj] at hu
          rcases hcase with ⟨h1, h2, h3⟩ | ⟨i, tri, h1, h2, h3, h4, h5, h6⟩
          · rw [h3 u (List.getElem?_mem hu)] at hq'; cases hq'
          · have hlt : r < a.r := by
              rcases hc with hc | hc
              · simp [h3] at hc
              · exact hc
            exact lt_of_lt_of_le hlt (h6 u (List.getElem?_mem hu) q hq')
        · intro u hu q hq'
          rcases List.mem_append.1 hu with hu | hu
          · rcases hcase with ⟨h1, h2, h3⟩ | ⟨i, tri, h1, h2, h3, h4, h5, h6⟩
            · rw [h3 u hu] at hq'; cases hq'
            · have hlt : r < a.r := by
                rcases hc with hc | hc
                · simp [h3] at hc
                · exact hc
              exact le_trans (le_of_lt hlt) (h6 u hu q hq')
          · rw [List.mem_singleton.1 hu, hq] at hq'
            injection hq' with hq'
            rw [← hq']
      · rw [if_neg hc, if_neg (fun h' => hc (hcond.2 h'))]
        apply ih
        refine ⟨hr, hs, ht, ?_⟩
        rw [not_or] at hc
        rcases hcase with ⟨h1, h2, h3⟩ | ⟨i, tri, h1, h2, h3, h4, h5, h6⟩
        · simp [h1] at hc
        · right
          have hi : i < seen.length := by
            rcases Nat.lt_or_ge i seen.length with hlt | hge
            · exact hlt
            · rw [List.getElem?_eq_none hge] at h2; cases h2
          refine ⟨i, tri, h1, by rw [List.getElem?_append_left hi]; exact h2, h3, h4, ?_, ?_⟩
          · intro j u q hj hu hq'
            have hjl : j < seen.length := lt_trans hj hi
            rw [List.getElem?_append_left hjl] at hu
            exact h5 j u q hj hu hq'
          · intro u hu q hq'
            rcases List.mem_append.1 hu with hu | hu
            · exact h6 u hu q hq'
            · rw [List.mem_singleton.1 hu, hq] at hq'
              injection hq' with hq'
              rw [← hq']
              exact not_lt.1 hc.2

/-- C21: the private leaf scan of `KDTree` and `ray_intersection` of the path
tracer agree on every triangle list and ray.  The scan returns null exactly
when `ray_intersection` returns `-1`; otherwise it returns the triangle at the
returned index, with identical `(min_r, min_s, min_t)`, the values the kernel
reports on that triangle; `min_r` is strictly smaller than the distance of
every hit earlier in the list and no larger than the distance of any hit, so
the triangle is the first in list order attaining the minimum. -/
theorem scan_agrees_ray_intersection (hit : TriKernel) (ray : Ray) (ts : Triangles)
    (s t : ℚ) :
    ((scan hit ray ts s t).tri = none ↔ (ray_intersection hit ray ts s t).triangle_index = -1) ∧
    (scan hit ray ts s t).r = (ray_intersection hit ray ts s t).min_r ∧
    (scan hit ray ts s t).s = (ray_intersection hit ray ts s t).min_s ∧
    (scan hit ray ts s t).t = (ray_intersection hit ray ts s t).min_t ∧
    (∀ tri, (scan hit ray ts s t).tri = some tri →
      ∃ i : Nat, (ray_intersection hit ray ts s t).triangle_index = (i : Int) ∧
        ts[i]? = some tri ∧
        hit tri ray = some ((ray_intersection hit ray ts s t).min_r,
          (ray_intersection hit ray ts s t).min_s, (ray_intersection hit ray ts s t).min_t) ∧
        (∀ (j : Nat) (u : Triangle) (q : ℚ × ℚ × ℚ), j < i → ts[j]? = some u →
          hit u ray = some q → (ray_intersection hit ray ts s t).min_r < q.1) ∧
        (∀ u ∈ ts, ∀ q, hit u ray = some q →
          (ray_intersection hit ray ts s t).min_r ≤ q.1)) := by
  have h := scanLoop_agree hit ray ts [] ⟨none, -1, s, t⟩ ⟨-1, -1, s, t⟩
    ⟨rfl, rfl, rfl, Or.inl ⟨rfl, rfl, by simp⟩⟩
  simp only [List.nil_append, List.length_nil] at h
  change ScanAgree hit ray ts (scan hit ray ts s t) (ray_intersection hit ray ts s t) at h
  obtain ⟨hr, hs, ht, hcase⟩ := h
  refine ⟨?_, hr, hs, ht, ?_⟩
  · rcases hcase with ⟨h1, h2, _⟩ | ⟨i, tri, h1, _, h3, _⟩
    · simp [h1, h2]
    · rw [h1, h3]
      constructor
      · intro h; cases h
      · intro h; omega
  · intro tri htri
    rcases hcase with ⟨h1, _, _⟩ | ⟨i, tri', h1, h2, h3, h4, h5, h6⟩
    · rw [h1] at htri; cases htri
    · rw [h3] at htri
      injection htri with htri
      subst htri
      rw [← hr, ← hs, ← ht]
      exact ⟨i, h1, h2, h4, h5, h6⟩

/-! ## The SAH builder stops at the root -/

/-- C22: for every non-empty triangle list `ts`, `FastKDTree(ts)` is a single
leaf whose triangle list is `ts` in input order; the result does not depend
on the fuel or on the helpers `find_plane` uses, which is never called
(`terminate` returns `true` for every argument); no inner node is
created. -/
theorem fastkdtree_single_leaf (lib : FastKDTree.Lib) (fuel : Nat) (ts : Triangles)
    (hne : ts ≠ []) :
    FastKDTree.construct lib fuel ts = Except.ok (FastNode.leaf ts) ∧
    (∀ (lib' : FastKDTree.Lib) (fuel' : Nat),
      FastKDTree.construct lib' fuel' ts = FastKDTree.construct lib fuel ts) ∧
    (∀ (tris : Triangles) (box : Box), FastKDTree.terminate tris box = true) ∧
    (∀ p lft rht, FastKDTree.construct lib fuel ts ≠ Except.ok (FastNode.inner p lft rht)) := by
  have hleaf : ∀ (l : FastKDTree.Lib) (f : Nat),
      FastKDTree.construct l f ts = Except.ok (FastNode.leaf ts) := by
    intro l f
    cases ts with
    | nil => exact absurd rfl hne
    | cons first rest =>
      unfold FastKDTree.construct
      cases f <;> simp [FastKDTree.build, FastKDTree.terminate]
  refine ⟨hleaf lib fuel, ?_, fun _ _ => rfl, ?_⟩
  · intro lib' fuel'
    rw [hleaf lib' fuel', hleaf lib fuel]
  · intro p lft rht h
    rw [hleaf lib fuel] at h
    cases h

theorem fastkdtree_single_leaf_witness :
    [triUnit, triShifted] ≠ [] ∧
    (FastKDTree.construct sampleLib 3 [triUnit, triShifted]
        = Except.ok (FastNode.leaf [triUnit, triShifted]) ∧
      (∀ (lib' : FastKDTree.Lib) (fuel' : Nat),
        FastKDTree.construct lib' fuel' [triUnit, triShifted]
          = FastKDTree.construct sampleLib 3 [triUnit, triShifted]) ∧
      (∀ (tris : Triangles) (box : Box), FastKDTree.terminate tris box = true) ∧
      (∀ p lft rht, FastKDTree.construct sampleLib 3 [triUnit, triShifted]
        ≠ Except.ok (FastNode.inner p lft rht))) :=
  ⟨by decide, fastkdtree_single_leaf sampleLib 3 [triUnit, triShifted] (by decide)⟩

/-! ## Range of the sweep counters -/

/-- C23 on the code: for the single triangle `triUnit` (`|tris| = 1`), swept
along X, the call of `surface_area_heuristics` at `p = 1` is made with
`num_rtris = -1`, which the conversion to `size_t` turns into `2 ^ 64 - 1`,
and after the last event `num_rtris` is `-1`, not `0`. -/
theorem sweep_num_rtris_negative :
    (FastKDTree.sweepCalls 0 2 unitEvents 0 (([triUnit].length : ℕ) : Int)).map
        (fun call => call.2.2.1) = [0, -1] ∧
    toSizeT (-1) = 2 ^ 64 - 1 ∧
    (FastKDTree.sweep triUnit.bbox 0 2 unitEvents
        ⟨0, 0, (([triUnit].length : ℕ) : Int), FastKDTree.FLT_MAX, none, none⟩).toOption.map
      (fun st => st.num_rtris) = some (-1) := by
  decide!

/-! ## Splitting a box -/

/-- C24: for a valid box and a plane with `box.min[ax] <= coord <=
box.max[ax]`, `split(box, plane)` returns two valid boxes that differ from the
box only on the axis of the plane, meet in the face `x[ax] = coord`
(`left.max[ax] = right.min[ax] = coord`), and whose union is the box. -/
theorem split_boxes (box : Box) (p : Plane) (hv : box.valid)
    (hin : box.min.get p.ax ≤ p.coord ∧ p.coord ≤ box.max.get p.ax) :
    ∃ lbox rbox, split box p = Except.ok (lbox, rbox) ∧
      lbox.valid ∧ rbox.valid ∧
      (lbox.min = box.min ∧ rbox.max = box.max) ∧
      (∀ a : Axis, a ≠ p.ax →
        lbox.max.get a = box.max.get a ∧ rbox.min.get a = box.min.get a) ∧
      (lbox.max.get p.ax = p.coord ∧ rbox.min.get p.ax = p.coord) ∧
      lbox.union rbox = box := by
  refine ⟨_, _, split_ok box p hin, ?_⟩
  obtain ⟨hx, hy, hz⟩ := hv
  obtain ⟨ax, c⟩ := p
  obtain ⟨h1, h2⟩ := hin
  obtain ⟨⟨mnx, mny, mnz⟩, ⟨mxx, mxy, mxz⟩⟩ := box
  simp only at hx hy hz
  cases ax <;> simp only [Vec.get] at h1 h2 <;>
    refine ⟨?_, ?_, ⟨rfl, rfl⟩, ?_, ⟨rfl, rfl⟩, ?_⟩
  all_goals first
    | (simp only [Box.valid, Vec.set]; exact ⟨by assumption, by assumption, by assumption⟩)
    | (intro a ha; cases a <;> first | exact absurd rfl ha | exact ⟨rfl, rfl⟩)
    | (simp only [Box.union, Vec.set, min_eq_left h1, max_eq_right h2, min_self, max_self])

theorem split_boxes_witness :
    (sceneBox.valid ∧ sceneBox.min.get Axis.X ≤ 1 ∧ (1 : ℚ) ≤ sceneBox.max.get Axis.X) ∧
    ∃ lbox rbox, split sceneBox ⟨Axis.X, 1⟩ = Except.ok (lbox, rbox) ∧
      lbox.valid ∧ rbox.valid ∧
      (lbox.min = sceneBox.min ∧ rbox.max = sceneBox.max) ∧
      (∀ a : Axis, a ≠ Axis.X →
        lbox.max.get a = sceneBox.max.get a ∧ rbox.min.get a = sceneBox.min.get a) ∧
      (lbox.max.get Axis.X = 1 ∧ rbox.min.get Axis.X = 1) ∧
      lbox.union rbox = sceneBox :=
  ⟨⟨by decide!, by decide!, by decide!⟩,
    split_boxes sceneBox ⟨Axis.X, 1⟩ (by decide!) ⟨by decide!, by decide!⟩⟩

/-! ## Height -/

/-- The height of a tree built from a non-empty list: at least 1; the list
fits `LEAF_CAPACITY * 2 ^ (h - 1)`; a list within the capacity gives a leaf of
height 1; a longer list gives a tree that is not a leaf, of height at least 2
and at most the excess over the capacity plus 1. -/
theorem KDTree.Built.height_facts {cap : Nat} {ts : Triangles} {tree : KDTree}
    (h : Built cap ts tree) (hne : ts ≠ []) :
    1 ≤ tree.height ∧ ts.length ≤ cap * 2 ^ (tree.height - 1) ∧
    (ts.length ≤ cap → tree.height = 1 ∧ tree.is_leaf = true) ∧
    (cap < ts.length →
      2 ≤ tree.height ∧ tree.height ≤ ts.length - cap + 1 ∧ tree.is_leaf = false) := by
  induction h with
  | empty => exact absurd rfl hne
  | leaf first rest _ hc =>
    have hh : (leafNode (boundingBox first rest) (chooseAxis (boundingBox first rest))
        (first :: rest)).height = 1 := by
      simp [leafNode, height]
    rw [hh]
    refine ⟨le_refl _, by simpa using hc, fun _ => ⟨rfl, rfl⟩, fun hlt => ?_⟩
    omega
  | inner first rest m lft rht _ hc hln hrn hl hr ihl ihr =>
    obtain ⟨l1, l2, l3, l4⟩ := ihl hln
    obtain ⟨r1, r2, r3, r4⟩ := ihr hrn
    have hperm := List.filter_append_perm
      (goesLeft (chooseAxis (boundingBox first rest)) m) (first :: rest)
    have hsum := hperm.length_eq
    rw [List.length_append] at hsum
    have hlpos := List.length_pos.2 hln
    have hrpos := List.length_pos.2 hrn
    have hh : (innerNode (boundingBox first rest) (chooseAxis (boundingBox first rest))
        lft rht).height = 1 + Max.max lft.height rht.height := by
      simp [innerNode, height]
    have hnl := Built.inner_not_leaf rht (boundingBox first rest)
      (chooseAxis (boundingBox first rest)) hl hln
    rw [hh, hnl]
    generalize hL : ((first :: rest).filter
      (goesLeft (chooseAxis (boundingBox first rest)) m)).length = nl at *
    generalize hR : ((first :: rest).filter
      (fun t => !goesLeft (chooseAxis (boundingBox first rest)) m t)).length = nr at *
    generalize (first :: rest).length = n at *
    generalize lft.height = hl' at *
    generalize rht.height = hr' at *
    have hmax1 : 1 ≤ Max.max hl' hr' := le_trans l1 (le_max_left _ _)
    have hpl : 2 ^ (hl' - 1) ≤ 2 ^ (Max.max hl' hr' - 1) :=
      Nat.pow_le_pow_right (by norm_num) (Nat.sub_le_sub_right (le_max_left _ _) 1)
    have hpr : 2 ^ (hr' - 1) ≤ 2 ^ (Max.max hl' hr' - 1) :=
      Nat.pow_le_pow_right (by norm_num) (Nat.sub_le_sub_right (le_max_right _ _) 1)
    have hpow : 2 ^ (1 + Max.max hl' hr' - 1) = 2 * 2 ^ (Max.max hl' hr' - 1) := by
      have e : 1 + Max.max hl' hr' - 1 = (Max.max hl' hr' - 1) + 1 := by omega
      rw [e, pow_succ]
      ring
    have hcl := Nat.mul_le_mul_left cap hpl
    have hcr := Nat.mul_le_mul_left cap hpr
    have hhl : hl' ≤ n - cap := by
      rcases Nat.lt_or_ge cap nl with hlt | hge
      · have := (l4 hlt).2.1
        omega
      · have := (l3 hge).1
        omega
    have hhr : hr' ≤ n - cap := by
      rcases Nat.lt_or_ge cap nr with hlt | hge
      · have := (r4 hlt).2.1
        omega
      · have := (r3 hge).1
        omega
    refine ⟨by omega, ?_, fun hle => by omega, fun _ => ⟨by omega, ?_, rfl⟩⟩
    · rw [hpow]
      calc n = nl + nr := hsum.symm
        _ ≤ cap * 2 ^ (Max.max hl' hr' - 1) + cap * 2 ^ (Max.max hl' hr' - 1) :=
          Nat.add_le_add (le_trans l2 hcl) (le_trans r2 hcr)
        _ = cap * (2 * 2 ^ (Max.max hl' hr' - 1)) := by ring
    · have := max_le hhl hhr
      omega

/-- C25: for a tree the constructor returns for `N` triangles, `height()` is 0
iff `N = 0` and 1 iff the tree is a leaf, which is the case iff
`1 <= N <= LEAF_CAPACITY`; for `N > LEAF_CAPACITY` the height `h` satisfies
`N <= LEAF_CAPACITY * 2^(h-1)` and `h <= N - LEAF_CAPACITY + 1`.  No
assumption on the leaf capacity is needed. -/
theorem kdtree_height (cap fuel : Nat) (ts : Triangles) (tree : KDTree)
    (h : build cap fuel ts = Except.ok tree) :
    (tree.height = 0 ↔ ts.length = 0) ∧
    (tree.height = 1 ↔ tree.is_leaf = true) ∧
    (tree.is_leaf = true ↔ 1 ≤ ts.length ∧ ts.length ≤ cap) ∧
    (cap < ts.length →
      ts.length ≤ cap * 2 ^ (tree.height - 1) ∧ tree.height ≤ ts.length - cap + 1) := by
  have hb := build_built cap fuel ts tree h
  cases ts with
  | nil =>
    cases hb
    simp [height, is_leaf]
  | cons first rest =>
    obtain ⟨h1, h2, h3, h4⟩ := hb.height_facts (by simp)
    have hpos : 1 ≤ (first :: rest).length := by simp
    refine ⟨?_, ?_, ?_, fun hlt => ⟨h2, (h4 hlt).2.1⟩⟩
    · constructor
      · intro h0; omega
      · intro h0; simp at h0
    · rcases Nat.lt_or_ge cap (first :: rest).length with hlt | hge
      · obtain ⟨h5, _, h7⟩ := h4 hlt
        rw [h7]
        constructor
        · intro h'; omega
        · intro h'; cases h'
      · obtain ⟨h5, h6⟩ := h3 hge
        rw [h5, h6]
        simp
    · rcases Nat.lt_or_ge cap (first :: rest).length with hlt | hge
      · obtain ⟨_, _, h7⟩ := h4 hlt
        rw [h7]
        constructor
        · intro h'; cases h'
        · intro h'; omega
      · obtain ⟨_, h6⟩ := h3 hge
        rw [h6]
        exact ⟨fun _ => ⟨hpos, hge⟩, fun _ => rfl⟩

theorem kdtree_height_witness :
    build 1 2 [triUnit, triShifted] = Except.ok twoLeafTree ∧
    ((twoLeafTree.height = 0 ↔ [triUnit, triShifted].length = 0) ∧
    (twoLeafTree.height = 1 ↔ twoLeafTree.is_leaf = true) ∧
    (twoLeafTree.is_leaf = true ↔
      1 ≤ [triUnit, triShifted].length ∧ [triUnit, triShifted].length ≤ 1) ∧
    (1 < [triUnit, triShifted].length →
      [triUnit, triShifted].length ≤ 1 * 2 ^ (twoLeafTree.height - 1) ∧
      twoLeafTree.height ≤ [triUnit, triShifted].length - 1 + 1)) :=
  ⟨by decide!, kdtree_height 1 2 [triUnit, triShifted] twoLeafTree (by decide!)⟩


end Renderer
